import Mathlib

/-!
Verification of the `extsort-iter` external-sorting engine.

This file gives a shallow embedding, in Lean 4, of the core of the
`extsort-iter` Rust crate (run generation, tape management, the
binary-heap result iterator, and the loser-tree merger), and proves or
refutes the frozen specification claims about it.

Modelling conventions:
* Rust machine integers (`usize`, `u32`) are modelled as `Nat`; overflow
  is irrelevant at every modelled call site except where noted
  (`usizeMax` models `usize::MAX`).
* A `Run` (the trait in `src/run/mod.rs`) is modelled by the list of
  elements it has not yet yielded: `peek` is `head?`, `next` is
  `head?`/`tail`, `remaining_items` is `length`.  The file separately
  verifies (claim C8) that `ExternalRun` implements exactly this cursor
  behaviour, which justifies using lists at the merge layer.
* `sort_unstable_by` is modelled by `List.mergeSort` with the
  less-or-equal test derived from the comparator.  Only sortedness and
  permutation of the result are ever used, which both sorts share.
* Recursive loops are written with an explicit fuel argument so that
  every definition is structurally recursive and kernel-computable;
  each wrapper supplies a provably sufficient amount of fuel.
-/

set_option maxHeartbeats 1000000
set_option linter.unusedVariables false

namespace Extsort

/-! ### Comparators

The element type is opaque; a comparator is `α → α → Ordering`, as in
`Orderer::compare` (`src/orderer/mod.rs`).  The crate assumes the
comparator is a strict weak order; for a three-way comparator this is
captured by the two laws below (`swap_eq` makes the comparator
antisymmetric as a relation-pair, `le_trans` is transitivity of the
induced total preorder `cmp a b ≠ .gt`). -/

/-- The comparator laws assumed by the crate: a strict weak order
presented as a three-way comparison. -/
structure SWOrd {α : Type _} (cmp : α → α → Ordering) : Prop where
  swap_eq : ∀ a b, cmp b a = (cmp a b).swap
  le_trans : ∀ a b c, cmp a b ≠ .gt → cmp b c ≠ .gt → cmp a c ≠ .gt

theorem SWOrd.refl_eq {α : Type _} {cmp : α → α → Ordering} (h : SWOrd cmp)
    (a : α) : cmp a a = .eq := by
  have hs := h.swap_eq a a
  cases hc : cmp a a with
  | lt => rw [hc] at hs; simp [Ordering.swap] at hs
  | eq => rfl
  | gt => rw [hc] at hs; simp [Ordering.swap] at hs

theorem SWOrd.lt_of_gt {α : Type _} {cmp : α → α → Ordering} (h : SWOrd cmp)
    {a b : α} (hab : cmp a b = .gt) : cmp b a = .lt := by
  rw [h.swap_eq a b, hab]
  rfl

theorem SWOrd.gt_of_lt {α : Type _} {cmp : α → α → Ordering} (h : SWOrd cmp)
    {a b : α} (hab : cmp a b = .lt) : cmp b a = .gt := by
  rw [h.swap_eq a b, hab]
  rfl

theorem SWOrd.not_gt_total {α : Type _} {cmp : α → α → Ordering} (h : SWOrd cmp)
    (a b : α) : cmp a b ≠ .gt ∨ cmp b a ≠ .gt := by
  cases hc : cmp a b with
  | lt => left; simp
  | eq => left; simp
  | gt => right; rw [h.swap_eq a b, hc]; simp [Ordering.swap]

/-! ### Bit length and `previous_power_of_two`

`previous_power_of_two` (`src/merge/mod.rs`) computes
`1 << (63 - number.leading_zeros())` on a 64-bit `usize`: the largest
power of two less than or equal to its argument (for arguments in
`[1, 2^64)`).  `63 - leading_zeros n` is the number of bits of `n`
minus one; we embed the bit count with a fuel-based structural
recursion so that it is kernel-computable. -/

/-- Number of binary digits of `n` (`0` for `0`); fuelled helper. -/
def bitLenGo (fuel n : Nat) : Nat :=
  match fuel with
  | 0 => 0
  | fuel + 1 => if n = 0 then 0 else bitLenGo fuel (n / 2) + 1

/-- Number of binary digits of `n`; equals `64 - leading_zeros n` for a
64-bit machine word. -/
def bitLen (n : Nat) : Nat := bitLenGo n n

theorem bitLenGo_stable (n : Nat) : ∀ f1 f2, n ≤ f1 → n ≤ f2 →
    bitLenGo f1 n = bitLenGo f2 n := by
  induction n using Nat.strong_induction_on with
  | _ n ih =>
    intro f1 f2 h1 h2
    by_cases hn : n = 0
    · subst hn
      cases f1 <;> cases f2 <;> simp [bitLenGo]
    · obtain ⟨f1p, rfl⟩ : ∃ k, f1 = k + 1 := ⟨f1 - 1, by omega⟩
      obtain ⟨f2p, rfl⟩ : ∃ k, f2 = k + 1 := ⟨f2 - 1, by omega⟩
      simp only [bitLenGo, hn, if_false]
      have := ih (n / 2) (by omega) f1p f2p (by omega) (by omega)
      omega

theorem bitLen_zero : bitLen 0 = 0 := rfl

theorem bitLen_eq (n : Nat) (h : 0 < n) : bitLen n = bitLen (n / 2) + 1 := by
  unfold bitLen
  obtain ⟨np, hnp⟩ : ∃ k, n = k + 1 := ⟨n - 1, by omega⟩
  rw [hnp]
  simp only [bitLenGo, Nat.succ_ne_zero, if_false]
  have := bitLenGo_stable ((np + 1) / 2) np ((np + 1) / 2) (by omega) (by omega)
  omega

/-- `2 ^ (bitLen n - 1) ≤ n < 2 ^ bitLen n` for positive `n`. -/
theorem bitLen_bounds (n : Nat) (h : 0 < n) :
    2 ^ (bitLen n - 1) ≤ n ∧ n < 2 ^ bitLen n := by
  induction n using Nat.strong_induction_on with
  | _ n ih =>
    rcases Nat.lt_or_ge n 2 with h2 | h2
    · interval_cases n
      · simp [bitLen, bitLenGo]
    · have hpos : 0 < n / 2 := by omega
      have hlt : n / 2 < n := by omega
      obtain ⟨hl, hr⟩ := ih (n / 2) hlt hpos
      rw [bitLen_eq n h]
      have hb : 0 < bitLen (n / 2) := by
        rcases Nat.eq_zero_or_pos (bitLen (n / 2)) with hz | hp
        · rw [hz] at hr
          simp at hr
          omega
        · exact hp
      constructor
      · have hk : bitLen (n / 2) + 1 - 1 = bitLen (n / 2) - 1 + 1 := by omega
        rw [hk, pow_succ]
        have := Nat.mul_le_mul_right 2 hl
        omega
      · rw [pow_succ]
        have := Nat.mul_le_mul_right 2 (Nat.succ_le_of_lt hr)
        omega

theorem bitLen_sub_one_eq_log2 (n : Nat) (h : 0 < n) :
    bitLen n - 1 = Nat.log2 n := by
  obtain ⟨hl, hr⟩ := bitLen_bounds n h
  have hb : 0 < bitLen n := by
    rcases Nat.eq_zero_or_pos (bitLen n) with hz | hp
    · rw [hz] at hr
      simp at hr
      omega
    · exact hp
  have hlog_le : Nat.log2 n ≤ bitLen n - 1 := by
    by_contra hc
    push_neg at hc
    have heq : bitLen n - 1 + 1 = bitLen n := by omega
    have h1 : 2 ^ (bitLen n - 1 + 1) ≤ 2 ^ Nat.log2 n :=
      Nat.pow_le_pow_right (by norm_num) (by omega)
    rw [heq] at h1
    have hsn : 2 ^ Nat.log2 n ≤ n := Nat.log2_self_le (by omega)
    omega
  have hle_log : bitLen n - 1 ≤ Nat.log2 n := by
    by_contra hc
    push_neg at hc
    have := (Nat.log2_lt (n := n) (by omega)).mp hc
    omega
  omega

/-- `previous_power_of_two` from `src/merge/mod.rs`:
`1 << (63 - number.leading_zeros())`, i.e. `2 ^ (bitLen n - 1)`. -/
def previousPowerOfTwo (n : Nat) : Nat := 2 ^ (bitLen n - 1)

theorem previousPowerOfTwo_eq_log2 (n : Nat) (h : 0 < n) :
    previousPowerOfTwo n = 2 ^ Nat.log2 n := by
  rw [previousPowerOfTwo, bitLen_sub_one_eq_log2 n h]

/-! ### Leaf-to-node mapping (`TreeNode::leaf_for_winner`)

From `src/merge/array_node.rs`.  `treeSize` is the number of leaf tapes
of the loser tree. -/

/-- `TreeNode::leaf_for_winner` (`src/merge/array_node.rs`). -/
def leafForWinner (leafIdx treeSize : Nat) : Nat :=
  let fullLevelSize := previousPowerOfTwo treeSize
  let overhang := (treeSize - fullLevelSize) * 2
  if leafIdx < overhang then
    fullLevelSize * 2 - 1 + leafIdx
  else
    fullLevelSize - 1 - overhang / 2 + leafIdx

/-- C9: for every tape count `n ≥ 2` and leaf index `L < n`, with
`F = 2 ^ ⌊log2 n⌋` and `V = 2 * (n - F)`, the computed implicit-array
tree position of leaf `L` is `2 * F - 1 + L` when `L < V` and
`F - 1 - V / 2 + L` otherwise. -/
theorem leafForWinner_formula (n L : Nat) (hn : 2 ≤ n) (hL : L < n) :
    leafForWinner L n =
      if L < 2 * (n - 2 ^ Nat.log2 n) then
        2 * 2 ^ Nat.log2 n - 1 + L
      else
        2 ^ Nat.log2 n - 1 - 2 * (n - 2 ^ Nat.log2 n) / 2 + L := by
  unfold leafForWinner
  rw [previousPowerOfTwo_eq_log2 n (by omega)]
  simp only []
  have h1 : (n - 2 ^ Nat.log2 n) * 2 = 2 * (n - 2 ^ Nat.log2 n) := by ring
  have h2 : 2 ^ Nat.log2 n * 2 = 2 * 2 ^ Nat.log2 n := by ring
  rw [h1, h2]

/-- Witness for C9 at `n = 5`, `L = 3` (the position is `5`, matching
the unit test table `[7, 8, 4, 5, 6]` in `src/merge/array_node.rs`). -/
theorem leafForWinner_formula_witness :
    2 ≤ 5 ∧ 3 < 5 ∧ leafForWinner 3 5 = 5 ∧
      leafForWinner 3 5 =
        (if 3 < 2 * (5 - 2 ^ Nat.log2 5) then
          2 * 2 ^ Nat.log2 5 - 1 + 3
        else
          2 ^ Nat.log2 5 - 1 - 2 * (5 - 2 ^ Nat.log2 5) / 2 + 3) :=
  ⟨by decide, by decide, by decide, leafForWinner_formula 5 3 (by decide) (by decide)⟩

/-! ### Serialization: `fill_backing`

There are two copies of `fill_backing`: one in `src/run/file_run.rs`
(write, then seek to start, then `set_len(0)`) and one in
`src/tape/mod.rs` (write through the compression codec, then
`set_len(0)`; the caller seeks separately).  Elements are written as
their raw byte image; a successful call empties the source vector by
`set_len(0)` — the elements are *moved* into the byte image, no
destructor runs — and a failing call returns before `set_len`, leaving
the source untouched.

The backing writer is abstracted as a state type `σ` with fallible
operations, so that both the success and the failure behaviour are in
the model. -/

/-- The compression codec (`src/tape/compressor.rs`); the `compression`
cargo feature is modelled as disabled, leaving the pass-through
variant. -/
inductive CompressionCodec
  | NoCompression
deriving DecidableEq

/-- The raw byte image of a vector of elements: the concatenation of
the `size_of::<T>()` bytes of each element
(`slice::from_raw_parts(source.as_ptr() as *const u8, len * size_of::<T>())`). -/
def byteImage {α : Type _} (elemBytes : α → List Nat) (source : List α) : List Nat :=
  (source.map elemBytes).flatten

/-- `CompressionCodec::write_all` (`src/tape/compressor.rs`): with no
compression, delegate to the writer. -/
def codecWriteAll {σ ε : Type _} (codec : CompressionCodec)
    (writeAll : σ → List Nat → Except ε σ) (file : σ) (bytes : List Nat) :
    Except ε σ :=
  match codec with
  | .NoCompression => writeAll file bytes

/-- `fill_backing` from `src/run/file_run.rs`: write the byte image,
seek to the start, then `set_len(0)`.  Returns the source vector as it
is after the call together with the I/O outcome. -/
def fillBackingFile {α σ ε : Type _} (writeAll : σ → List Nat → Except ε σ)
    (seekStart : σ → Except ε σ) (elemBytes : α → List Nat)
    (source : List α) (file : σ) : List α × Except ε σ :=
  match writeAll file (byteImage elemBytes source) with
  | .error e => (source, .error e)
  | .ok f1 =>
    match seekStart f1 with
    | .error e => (source, .error e)
    | .ok f2 => ([], .ok f2)

/-- `fill_backing` from `src/tape/mod.rs`: write the byte image via the
codec, then `set_len(0)`. -/
def fillBackingTape {α σ ε : Type _} (writeAll : σ → List Nat → Except ε σ)
    (codec : CompressionCodec) (elemBytes : α → List Nat)
    (source : List α) (file : σ) : List α × Except ε σ :=
  match codecWriteAll codec writeAll file (byteImage elemBytes source) with
  | .error e => (source, .error e)
  | .ok f1 => ([], .ok f1)

/-- C7: both `fill_backing` variants write the raw byte image of the
element array; on success the source vector is emptied by `set_len(0)`
(no destructor runs: every element's bytes are in the written image),
and on any I/O failure the source vector is returned untouched. -/
theorem fillBacking_spec {α σ ε : Type _} (writeAll : σ → List Nat → Except ε σ)
    (seekStart : σ → Except ε σ) (codec : CompressionCodec)
    (elemBytes : α → List Nat) (source : List α) (file : σ) :
    (∀ e, (fillBackingFile writeAll seekStart elemBytes source file).2 = .error e →
      (fillBackingFile writeAll seekStart elemBytes source file).1 = source) ∧
    (∀ f2, (fillBackingFile writeAll seekStart elemBytes source file).2 = .ok f2 →
      (fillBackingFile writeAll seekStart elemBytes source file).1 = [] ∧
      ∃ f1, writeAll file (byteImage elemBytes source) = .ok f1 ∧
        seekStart f1 = .ok f2) ∧
    (∀ e, (fillBackingTape writeAll codec elemBytes source file).2 = .error e →
      (fillBackingTape writeAll codec elemBytes source file).1 = source) ∧
    (∀ f1, (fillBackingTape writeAll codec elemBytes source file).2 = .ok f1 →
      (fillBackingTape writeAll codec elemBytes source file).1 = [] ∧
      codecWriteAll codec writeAll file (byteImage elemBytes source) = .ok f1) := by
  refine ⟨?_, ?_, ?_, ?_⟩
  · intro e he
    cases hw : writeAll file (byteImage elemBytes source) with
    | error e1 =>
      have hval : fillBackingFile writeAll seekStart elemBytes source file
          = (source, .error e1) := by
        simp only [fillBackingFile, hw]
      rw [hval]
    | ok f1 =>
      cases hs : seekStart f1 with
      | error e1 =>
        have hval : fillBackingFile writeAll seekStart elemBytes source file
            = (source, .error e1) := by
          unfold fillBackingFile
          rw [hw]
          dsimp only
          rw [hs]
        rw [hval]
      | ok f2 =>
        have hval : fillBackingFile writeAll seekStart elemBytes source file
            = ([], .ok f2) := by
          unfold fillBackingFile
          rw [hw]
          dsimp only
          rw [hs]
        rw [hval] at he
        exact absurd he (by simp)
  · intro f2 hf
    cases hw : writeAll file (byteImage elemBytes source) with
    | error e1 =>
      have hval : fillBackingFile writeAll seekStart elemBytes source file
          = (source, .error e1) := by
        simp only [fillBackingFile, hw]
      rw [hval] at hf
      exact absurd hf (by simp)
    | ok f1 =>
      cases hs : seekStart f1 with
      | error e1 =>
        have hval : fillBackingFile writeAll seekStart elemBytes source file
            = (source, .error e1) := by
          unfold fillBackingFile
          rw [hw]
          dsimp only
          rw [hs]
        rw [hval] at hf
        exact absurd hf (by simp)
      | ok f2x =>
        have hval : fillBackingFile writeAll seekStart elemBytes source file
            = ([], .ok f2x) := by
          unfold fillBackingFile
          rw [hw]
          dsimp only
          rw [hs]
        rw [hval] at hf
        have hne : f2x = f2 := by
          simpa using hf
        subst hne
        rw [hval]
        exact ⟨rfl, f1, rfl, hs⟩
  · intro e he
    cases hw : codecWriteAll codec writeAll file (byteImage elemBytes source) with
    | error e1 =>
      have hval : fillBackingTape writeAll codec elemBytes source file
          = (source, .error e1) := by
        simp only [fillBackingTape, hw]
      rw [hval]
    | ok f1 =>
      have hval : fillBackingTape writeAll codec elemBytes source file
          = ([], .ok f1) := by
        simp only [fillBackingTape, hw]
      rw [hval] at he
      exact absurd he (by simp)
  · intro f1 hf
    cases hw : codecWriteAll codec writeAll file (byteImage elemBytes source) with
    | error e1 =>
      have hval : fillBackingTape writeAll codec elemBytes source file
          = (source, .error e1) := by
        simp only [fillBackingTape, hw]
      rw [hval] at hf
      exact absurd hf (by simp)
    | ok f1x =>
      have hval : fillBackingTape writeAll codec elemBytes source file
          = ([], .ok f1x) := by
        simp only [fillBackingTape, hw]
      rw [hval] at hf
      have hne : f1x = f1 := by
        simpa using hf
      subst hne
      rw [hval]
      exact ⟨rfl, rfl⟩

/-- Witness for C7: a writer that appends (success: source emptied, file
holds the byte image) and a writer that fails (source untouched). -/
theorem fillBacking_spec_witness :
    (fillBackingFile (σ := List Nat) (ε := Unit)
      (fun st bs => .ok (st ++ bs)) (fun st => .ok st)
      (fun n : Nat => [n]) [5] []).1 = [] ∧
    (fillBackingFile (σ := List Nat) (ε := Unit)
      (fun _st _bs => .error ()) (fun st => .ok st)
      (fun n : Nat => [n]) [5] []).1 = [5] :=
  ⟨((fillBacking_spec (σ := List Nat) (ε := Unit)
      (fun st bs => .ok (st ++ bs)) (fun st => .ok st) .NoCompression
      (fun n : Nat => [n]) [5] []).2.1 [5] rfl).1,
    (fillBacking_spec (σ := List Nat) (ε := Unit)
      (fun _st _bs => .error ()) (fun st => .ok st) .NoCompression
      (fun n : Nat => [n]) [5] []).1 () rfl⟩

/-! ### Configuration and the tape collection

`ExtsortConfig` (`src/sorter/mod.rs`) has exactly three fields:
`sort_buffer_size_bytes`, `temp_file_folder` and (behind the
`compression` feature) `compress_with`.  There is no `max_files`
field; the exclusive-file cap is hardcoded to `256` at the
`TapeCollection::new` call sites in both buffer cleaners
(`src/sorter/buffer_cleaner/sequential.rs` line 53 and
`threaded.rs` line 75). -/

/-- `ExtsortConfig` (`src/sorter/mod.rs`), with its exact fields. -/
structure ExtsortConfig where
  sort_buffer_size_bytes : Nat
  temp_file_folder : String
  compress_with : CompressionCodec
deriving DecidableEq

/-- `ExtsortConfig::default`: 10 MB buffer, `/tmp`, no compression. -/
def ExtsortConfig.defaultConfig : ExtsortConfig :=
  { sort_buffer_size_bytes := 10000000
    temp_file_folder := "/tmp"
    compress_with := .NoCompression }

/-- `ExtsortConfig::get_num_items_for::<T>` (`src/sorter/mod.rs`):
the sort-buffer element count requested from `Vec::with_capacity`;
`tSize` is `size_of::<T>()`.  Zero-sized types get `1`; otherwise the
byte budget divided by the element size, clamped to at least `1`. -/
def getNumItemsFor (cfg : ExtsortConfig) (tSize : Nat) : Nat :=
  if tSize = 0 then 1
  else if cfg.sort_buffer_size_bytes / tSize = 0 then 1
  else cfg.sort_buffer_size_bytes / tSize

theorem getNumItemsFor_pos (cfg : ExtsortConfig) (tSize : Nat) :
    0 < getNumItemsFor cfg tSize := by
  unfold getNumItemsFor
  split
  · exact Nat.one_pos
  · split
    · exact Nat.one_pos
    · rename_i h1
      exact Nat.pos_of_ne_zero h1

/-- The tape collection (`src/tape/mod.rs`).  Tapes are modelled by the
run they store; `filesCreated` counts `create_file` calls and
`sharedStored` counts runs written into shared segments (both are
direct event counts, not part of the Rust struct). -/
structure TapeCollection (α : Type _) where
  maxFiles : Nat
  nextTapeIdx : Nat
  plainTapes : List (List α)
  sharedTapes : List (List α)
  filesCreated : Nat
  sharedStored : Nat
  tempFolder : String
  compressionChoice : CompressionCodec

/-- `TapeCollection::new`. -/
def TapeCollection.new (α : Type _) (folder : String) (maxFiles : Nat)
    (codec : CompressionCodec) : TapeCollection α :=
  { maxFiles := maxFiles
    nextTapeIdx := 0
    plainTapes := []
    sharedTapes := []
    filesCreated := 0
    sharedStored := 0
    tempFolder := folder
    compressionChoice := codec }

/-- `TapeCollection::add_run_simple`: create (and immediately unlink) a
new exclusive temp file, serialize the run into it, push a plain tape.
The successful-spill path is modelled; I/O failure aborts the whole
sort and is covered by C7. -/
def addRunSimple {α : Type _} (tc : TapeCollection α) (source : List α) :
    TapeCollection α :=
  { tc with
    filesCreated := tc.filesCreated + 1
    plainTapes := tc.plainTapes ++ [source] }

/-- `TapeCollection::add_run_shared`: the first shared-packing call pops
one plain tape and promotes it into a shared backing; every call then
appends the new run as a fresh segment of a shared backing chosen by
round-robin (`next_tape_idx % max_files`).  No new file is created. -/
def addRunShared {α : Type _} (tc : TapeCollection α) (source : List α) :
    TapeCollection α :=
  match tc.plainTapes.getLast? with
  | some t =>
    { tc with
      plainTapes := tc.plainTapes.dropLast
      sharedTapes := tc.sharedTapes ++ [t, source]
      sharedStored := tc.sharedStored + 1 }
  | none =>
    { tc with
      sharedTapes := tc.sharedTapes ++ [source]
      sharedStored := tc.sharedStored + 1 }

/-- `TapeCollection::add_run` (`src/tape/mod.rs` lines 70–78). -/
def addRun {α : Type _} (tc : TapeCollection α) (source : List α) :
    TapeCollection α :=
  let tc1 := if tc.nextTapeIdx < tc.maxFiles then addRunSimple tc source
             else addRunShared tc source
  { tc1 with nextTapeIdx := tc.nextTapeIdx + 1 }

/-- A whole sequence of spills. -/
def addRuns {α : Type _} (tc : TapeCollection α) (runs : List (List α)) :
    TapeCollection α :=
  runs.foldl addRun tc

/-- The sequential buffer cleaner
(`src/sorter/buffer_cleaner/sequential.rs`): its `new` builds the tape
collection with the cap fixed at `256`, ignoring every config field
except the folder and the codec. -/
structure SingleThreadedBufferCleaner (α : Type _) where
  tapeCollection : TapeCollection α
  bufferCap : Nat

/-- `SingleThreadedBufferCleaner::new` (`sequential.rs` lines 47–63):
note the literal `256` — the cap is not taken from the config. -/
def SingleThreadedBufferCleaner.new (α : Type _) (cfg : ExtsortConfig)
    (tSize : Nat) : SingleThreadedBufferCleaner α :=
  { tapeCollection :=
      TapeCollection.new α cfg.temp_file_folder 256 cfg.compress_with
    bufferCap := getNumItemsFor cfg tSize }

theorem addRun_maxFiles {α : Type _} (tc : TapeCollection α) (r : List α) :
    (addRun tc r).maxFiles = tc.maxFiles := by
  unfold addRun addRunSimple addRunShared
  by_cases h : tc.nextTapeIdx < tc.maxFiles
  · simp [h]
  · simp [h]
    cases tc.plainTapes.getLast? <;> rfl

theorem addRun_nextTapeIdx {α : Type _} (tc : TapeCollection α) (r : List α) :
    (addRun tc r).nextTapeIdx = tc.nextTapeIdx + 1 := by
  unfold addRun addRunSimple addRunShared
  by_cases h : tc.nextTapeIdx < tc.maxFiles
  · simp [h]
  · simp [h]

theorem addRun_filesCreated {α : Type _} (tc : TapeCollection α) (r : List α) :
    (addRun tc r).filesCreated =
      if tc.nextTapeIdx < tc.maxFiles then tc.filesCreated + 1
      else tc.filesCreated := by
  unfold addRun addRunSimple addRunShared
  by_cases h : tc.nextTapeIdx < tc.maxFiles
  · simp [h]
  · simp [h]
    cases tc.plainTapes.getLast? <;> rfl

theorem addRun_sharedStored {α : Type _} (tc : TapeCollection α) (r : List α) :
    (addRun tc r).sharedStored =
      if tc.nextTapeIdx < tc.maxFiles then tc.sharedStored
      else tc.sharedStored + 1 := by
  unfold addRun addRunSimple addRunShared
  by_cases h : tc.nextTapeIdx < tc.maxFiles
  · simp [h]
  · simp [h]
    cases tc.plainTapes.getLast? <;> rfl

theorem addRuns_counters {α : Type _} (runs : List (List α))
    (tc : TapeCollection α)
    (hinv : tc.nextTapeIdx = tc.filesCreated + tc.sharedStored ∧
      tc.filesCreated = min tc.nextTapeIdx tc.maxFiles) :
    (addRuns tc runs).nextTapeIdx = tc.nextTapeIdx + runs.length ∧
    (addRuns tc runs).nextTapeIdx
      = (addRuns tc runs).filesCreated + (addRuns tc runs).sharedStored ∧
    (addRuns tc runs).filesCreated
      = min (addRuns tc runs).nextTapeIdx tc.maxFiles ∧
    (addRuns tc runs).maxFiles = tc.maxFiles := by
  induction runs generalizing tc with
  | nil => exact ⟨by simp [addRuns], hinv.1, hinv.2, rfl⟩
  | cons r rs ih =>
    have ha := addRun_maxFiles tc r
    have hb := addRun_nextTapeIdx tc r
    have hc := addRun_filesCreated tc r
    have hd := addRun_sharedStored tc r
    have hinv2 : (addRun tc r).nextTapeIdx
        = (addRun tc r).filesCreated + (addRun tc r).sharedStored ∧
        (addRun tc r).filesCreated
          = min (addRun tc r).nextTapeIdx (addRun tc r).maxFiles := by
      rw [ha, hb, hc, hd]
      constructor <;> split <;> omega
    have := ih (addRun tc r) hinv2
    rw [ha, hb] at this
    obtain ⟨i1, i2, i3, i4⟩ := this
    have hstep : addRuns tc (r :: rs) = addRuns (addRun tc r) rs := rfl
    rw [hstep]
    refine ⟨by simp only [i1, List.length_cons]; omega, i2, i3, i4⟩

/-- C5 (amended): for every sequence of `add_run` calls on the tape
collection built by the sequential buffer cleaner, at most 256
exclusive temp files are ever created (exactly `min k 256` after `k`
runs) and every run beyond that cap is stored as a segment of a shared
backing file (`sharedStored = k - min k 256`).  The cap is the literal
`256` from `SingleThreadedBufferCleaner::new`, not a config field. -/
theorem tapeCollection_file_cap {α : Type _} (cfg : ExtsortConfig)
    (tSize : Nat) (runs : List (List α)) :
    (addRuns (SingleThreadedBufferCleaner.new α cfg tSize).tapeCollection
        runs).filesCreated = min runs.length 256 ∧
    (addRuns (SingleThreadedBufferCleaner.new α cfg tSize).tapeCollection
        runs).filesCreated ≤ 256 ∧
    (addRuns (SingleThreadedBufferCleaner.new α cfg tSize).tapeCollection
        runs).sharedStored = runs.length - min runs.length 256 := by
  have h := addRuns_counters runs
    (SingleThreadedBufferCleaner.new α cfg tSize).tapeCollection
    ⟨rfl, rfl⟩
  obtain ⟨h1, h2, h3, h4⟩ := h
  have hmax : (SingleThreadedBufferCleaner.new α cfg tSize).tapeCollection.maxFiles
      = 256 := rfl
  have hnext : (SingleThreadedBufferCleaner.new α cfg tSize).tapeCollection.nextTapeIdx
      = 0 := rfl
  rw [hmax] at h3
  rw [hnext] at h1
  refine ⟨by omega, by omega, by omega⟩

/-- Counterexample for C5 as stated: `max_files` is not an option of the
`ExtsortConfig` record (the record has exactly the three fields
`sort_buffer_size_bytes`, `temp_file_folder`, `compress_with`); the cap
used by the buffer cleaner is `256` no matter which configuration is
supplied — here two configurations differing in every field produce the
same cap. -/
theorem maxFiles_not_a_config_option :
    (SingleThreadedBufferCleaner.new Unit
      { sort_buffer_size_bytes := 0
        temp_file_folder := "a"
        compress_with := .NoCompression } 1).tapeCollection.maxFiles = 256 ∧
    (SingleThreadedBufferCleaner.new Unit
      { sort_buffer_size_bytes := 123456789
        temp_file_folder := "b"
        compress_with := .NoCompression } 64).tapeCollection.maxFiles = 256 :=
  ⟨rfl, rfl⟩

/-! ### The buffered file run (`ExternalRun`, `src/run/file_run.rs`)

State: the backing (`source`, holding the serialized elements not yet
read into the buffer), the typed read buffer, the read index and the
`remaining_entries` counter.  `tSize` is `size_of::<T>()` and
`zeroElem` is the value of a `MaybeUninit::zeroed()` slot (for
zero-sized `T`, the unique value).  Byte-level reads are modelled at
element granularity: `try_read_exact` over `buffer.len() * tSize`
bytes returns the next `min(buffer.len(), source.length)` elements
(the `bytes_read % tSize == 0` assertion never fires in-model). -/

structure ExternalRun (α : Type _) where
  source : List α
  buffer : List α
  readIdx : Nat
  remaining : Nat
  tSize : Nat
  zeroElem : α

/-- `ExternalRun::refill_buffer`: for zero-sized `T`, just reset the
read index; otherwise read up to `buffer.len()` elements from the
backing, truncate the buffer to the element count actually read, and
reset the read index. -/
def refillBuffer {α : Type _} (st : ExternalRun α) : ExternalRun α :=
  if st.tSize = 0 then
    { st with readIdx := 0 }
  else
    { st with
      buffer := st.source.take st.buffer.length
      source := st.source.drop st.buffer.length
      readIdx := 0 }

/-- `ExternalRun::from_backing`: serialize `src` into the backing
(`fill_backing`, success path), allocate `bufferSize` zeroed slots, set
`remaining = src.length` and `read_idx = buffer.len()`, then refill
once so the peek invariant holds. -/
def fromBacking {α : Type _} (tSize : Nat) (zeroElem : α) (src : List α)
    (bufferSize : Nat) : ExternalRun α :=
  refillBuffer
    { source := src
      buffer := List.replicate bufferSize zeroElem
      readIdx := bufferSize
      remaining := src.length
      tSize := tSize
      zeroElem := zeroElem }

/-- `Run::peek` for `ExternalRun`: `buffer[read_idx]` iff
`remaining > 0` (the out-of-bounds case is dead under the invariant). -/
def runPeek {α : Type _} (st : ExternalRun α) : Option α :=
  if st.remaining = 0 then none
  else st.buffer.get? st.readIdx

/-- `Run::next` for `ExternalRun`: read `buffer[read_idx]`, advance,
decrement `remaining`, refill when the read index reaches the buffer
end. -/
def runNext {α : Type _} (st : ExternalRun α) : Option α × ExternalRun α :=
  if st.remaining = 0 then (none, st)
  else
    match st.buffer.get? st.readIdx with
    | none => (none, st)
    | some v =>
      let st1 := { st with readIdx := st.readIdx + 1, remaining := st.remaining - 1 }
      let st2 := if st1.buffer.length ≤ st1.readIdx then refillBuffer st1 else st1
      (some v, st2)

/-- One `next` call, state part. -/
def runStep {α : Type _} (st : ExternalRun α) : ExternalRun α := (runNext st).2

/-- The `ExternalRun` representation invariant, from the comments in
`src/run/file_run.rs`: the read index stays inside the buffer while
elements remain, and for sized `T` the `remaining_entries` counter
counts the unread buffer suffix plus the backing. -/
def RunWF {α : Type _} (st : ExternalRun α) : Prop :=
  st.readIdx ≤ st.buffer.length ∧
  (0 < st.remaining → st.readIdx < st.buffer.length) ∧
  (st.tSize = 0 → 0 < st.buffer.length ∧ ∀ x ∈ st.buffer, x = st.zeroElem) ∧
  (st.tSize ≠ 0 →
    st.remaining = (st.buffer.length - st.readIdx) + st.source.length)

theorem runWF_fromBacking {α : Type _} (tSize : Nat) (zeroElem : α)
    (src : List α) (bufferSize : Nat) (hbuf : 0 < bufferSize) :
    RunWF (fromBacking tSize zeroElem src bufferSize) := by
  unfold fromBacking refillBuffer RunWF
  dsimp only
  by_cases h0 : tSize = 0
  · rw [if_pos h0]
    dsimp only
    refine ⟨Nat.zero_le _, ?_, ?_, ?_⟩
    · intro _
      rw [List.length_replicate]
      exact hbuf
    · intro _
      refine ⟨by rw [List.length_replicate]; exact hbuf, ?_⟩
      intro x hx
      exact List.eq_of_mem_replicate hx
    · intro hne
      exact absurd h0 hne
  · rw [if_neg h0]
    dsimp only
    refine ⟨Nat.zero_le _, ?_, ?_, ?_⟩
    · intro hrem
      simp only [List.length_take, List.length_replicate] at *
      omega
    · intro hz
      exact absurd hz h0
    · intro _
      simp only [List.length_take, List.length_drop, List.length_replicate]
      omega

theorem runWF_step {α : Type _} (st : ExternalRun α) (h : RunWF st) :
    RunWF (runStep st) := by
  obtain ⟨h1, h2, h3, h4⟩ := h
  unfold runStep runNext
  by_cases hrem : st.remaining = 0
  · rw [if_pos hrem]
    exact ⟨h1, h2, h3, h4⟩
  · rw [if_neg hrem]
    cases hg : st.buffer.get? st.readIdx with
    | none => exact ⟨h1, h2, h3, h4⟩
    | some v =>
      dsimp only
      by_cases hend : st.buffer.length ≤ st.readIdx + 1
      · rw [if_pos hend]
        unfold refillBuffer RunWF
        dsimp only
        by_cases h0 : st.tSize = 0
        · rw [if_pos h0]
          dsimp only
          obtain ⟨hlen, hmem⟩ := h3 h0
          exact ⟨Nat.zero_le _, fun _ => hlen, fun _ => ⟨hlen, hmem⟩,
            fun hne => absurd h0 hne⟩
        · rw [if_neg h0]
          dsimp only
          have hidx : st.readIdx < st.buffer.length := h2 (by omega)
          have hrec := h4 h0
          refine ⟨Nat.zero_le _, ?_, fun hz => absurd hz h0, ?_⟩
          · intro hrm
            simp only [List.length_take]
            omega
          · intro _
            simp only [List.length_take, List.length_drop]
            omega
      · rw [if_neg hend]
        unfold RunWF
        dsimp only
        have hidx : st.readIdx < st.buffer.length := h2 (by omega)
        refine ⟨by omega, fun _ => by omega, ?_, ?_⟩
        · intro h0
          exact h3 h0
        · intro h0
          have := h4 h0
          omega

theorem runWF_iterate {α : Type _} (tSize : Nat) (zeroElem : α)
    (src : List α) (bufferSize : Nat) (hbuf : 0 < bufferSize) (k : Nat) :
    RunWF (runStep^[k] (fromBacking tSize zeroElem src bufferSize)) := by
  induction k with
  | zero => exact runWF_fromBacking tSize zeroElem src bufferSize hbuf
  | succ k ih =>
    rw [Function.iterate_succ_apply']
    exact runWF_step _ ih

theorem runNext_of_exhausted {α : Type _} (st : ExternalRun α)
    (h : st.remaining = 0) : runNext st = (none, st) := by
  unfold runNext
  simp [h]

/-- C8: for a buffered file run constructed from a backing holding
exactly `remaining` serialized elements, after any number of `next`
calls: `peek` returns `buffer[r]` iff `remaining > 0`; while
`remaining > 0` the read index is strictly below the buffer length (so
`peek` needs no I/O); and once `peek` returns none, every further
`next` returns none. -/
theorem externalRun_peek_invariants {α : Type _} (tSize : Nat)
    (zeroElem : α) (src : List α) (bufferSize : Nat)
    (hbuf : 0 < bufferSize) (k : Nat) :
    ((runPeek (runStep^[k] (fromBacking tSize zeroElem src bufferSize))).isSome
        ↔ 0 < (runStep^[k] (fromBacking tSize zeroElem src bufferSize)).remaining) ∧
    (0 < (runStep^[k] (fromBacking tSize zeroElem src bufferSize)).remaining →
      (runStep^[k] (fromBacking tSize zeroElem src bufferSize)).readIdx
          < (runStep^[k] (fromBacking tSize zeroElem src bufferSize)).buffer.length ∧
      runPeek (runStep^[k] (fromBacking tSize zeroElem src bufferSize))
        = (runStep^[k] (fromBacking tSize zeroElem src bufferSize)).buffer.get?
            (runStep^[k] (fromBacking tSize zeroElem src bufferSize)).readIdx) ∧
    (runPeek (runStep^[k] (fromBacking tSize zeroElem src bufferSize)) = none →
      ∀ j, (runNext (runStep^[j]
        (runStep^[k] (fromBacking tSize zeroElem src bufferSize)))).1 = none) := by
  have hwf := runWF_iterate tSize zeroElem src bufferSize hbuf k
  set st := runStep^[k] (fromBacking tSize zeroElem src bufferSize) with hst
  obtain ⟨h1, h2, h3, h4⟩ := hwf
  have hpeek : ∀ u : ExternalRun α, RunWF u →
      ((runPeek u).isSome ↔ 0 < u.remaining) := by
    intro u hu
    obtain ⟨u1, u2, u3, u4⟩ := hu
    unfold runPeek
    by_cases hr : u.remaining = 0
    · simp [hr]
    · have hidx : u.readIdx < u.buffer.length := u2 (by omega)
      simp only [hr, if_false]
      rw [List.get?_eq_get hidx]
      simp
      omega
  refine ⟨hpeek st ⟨h1, h2, h3, h4⟩, ?_, ?_⟩
  · intro hrem
    refine ⟨h2 hrem, ?_⟩
    unfold runPeek
    simp [Nat.pos_iff_ne_zero.mp hrem]
  · intro hnone j
    have hrem0 : st.remaining = 0 := by
      by_contra hc
      have := (hpeek st ⟨h1, h2, h3, h4⟩).mpr (by omega)
      rw [hnone] at this
      simp at this
    have hfix : ∀ j, runStep^[j] st = st := by
      intro j
      induction j with
      | zero => rfl
      | succ j ih =>
        rw [Function.iterate_succ_apply', ih]
        unfold runStep
        rw [runNext_of_exhausted st hrem0]
    rw [hfix j, runNext_of_exhausted st hrem0]

/-- Witness for C8 at a sized element type after one `next`. -/
theorem externalRun_peek_invariants_witness :
    0 < 2 ∧
    (((runPeek (runStep^[1] (fromBacking 4 0 [3, 1, 2] 2))).isSome
        ↔ 0 < (runStep^[1] (fromBacking 4 0 [3, 1, 2] 2)).remaining) ∧
    (0 < (runStep^[1] (fromBacking 4 0 [3, 1, 2] 2)).remaining →
      (runStep^[1] (fromBacking 4 0 [3, 1, 2] 2)).readIdx
          < (runStep^[1] (fromBacking 4 0 [3, 1, 2] 2)).buffer.length ∧
      runPeek (runStep^[1] (fromBacking 4 0 [3, 1, 2] 2))
        = (runStep^[1] (fromBacking 4 0 [3, 1, 2] 2)).buffer.get?
            (runStep^[1] (fromBacking 4 0 [3, 1, 2] 2)).readIdx) ∧
    (runPeek (runStep^[1] (fromBacking 4 0 [3, 1, 2] 2)) = none →
      ∀ j, (runNext (runStep^[j]
        (runStep^[1] (fromBacking 4 0 [3, 1, 2] 2)))).1 = none)) :=
  ⟨by decide, externalRun_peek_invariants 4 0 [3, 1, 2] 2 (by decide) 1⟩

/-! ### Indexed list helpers

`Vec` indexing, in-place update and swapping, with an explicit default
for the (provably dead) out-of-bounds case. -/

/-- `l[i]` with default. -/
def gGet {β : Type _} (dflt : β) (l : List β) (i : Nat) : β :=
  (l[i]?).getD dflt

/-- Swap two positions. -/
def gSwap {β : Type _} (dflt : β) (l : List β) (i j : Nat) : List β :=
  (l.set i (gGet dflt l j)).set j (gGet dflt l i)

theorem gGet_set_self {β : Type _} (dflt : β) (l : List β) (i : Nat) (a : β)
    (h : i < l.length) : gGet dflt (l.set i a) i = a := by
  unfold gGet
  rw [List.getElem?_set_self h]
  rfl

theorem gGet_set_ne {β : Type _} (dflt : β) (l : List β) (i j : Nat) (a : β)
    (h : i ≠ j) : gGet dflt (l.set i a) j = gGet dflt l j := by
  unfold gGet
  rw [List.getElem?_set_ne h]

theorem length_gSwap {β : Type _} (dflt : β) (l : List β) (i j : Nat) :
    (gSwap dflt l i j).length = l.length := by
  unfold gSwap
  simp

theorem gGet_gSwap_fst {β : Type _} (dflt : β) (l : List β) {i j : Nat}
    (hij : i ≠ j) (hi : i < l.length) :
    gGet dflt (gSwap dflt l i j) i = gGet dflt l j := by
  unfold gSwap
  rw [gGet_set_ne dflt _ j i _ (Ne.symm hij), gGet_set_self dflt _ i _ hi]

theorem gGet_gSwap_snd {β : Type _} (dflt : β) (l : List β) {i j : Nat}
    (hj : j < l.length) :
    gGet dflt (gSwap dflt l i j) j = gGet dflt l i := by
  unfold gSwap
  rw [gGet_set_self dflt _ j _ (by simpa using hj)]

theorem gGet_gSwap_other {β : Type _} (dflt : β) (l : List β) {i j k : Nat}
    (hk1 : k ≠ i) (hk2 : k ≠ j) :
    gGet dflt (gSwap dflt l i j) k = gGet dflt l k := by
  unfold gSwap
  rw [gGet_set_ne dflt _ j k _ (Ne.symm hk2), gGet_set_ne dflt _ i k _ (Ne.symm hk1)]

theorem set_perm_cons {β : Type _} (dflt : β) :
    ∀ (l : List β) (i : Nat) (a : β), i < l.length →
      List.Perm (gGet dflt l i :: l.set i a) (a :: l) := by
  intro l
  induction l with
  | nil =>
    intro i a h
    simp at h
  | cons x tl ih =>
    intro i a h
    cases i with
    | zero =>
      have hg : gGet dflt (x :: tl) 0 = x := by simp [gGet]
      rw [hg]
      exact List.Perm.swap a x tl
    | succ m =>
      have hm : m < tl.length := by simpa using h
      have hg : gGet dflt (x :: tl) (m + 1) = gGet dflt tl m := by simp [gGet]
      have hset : (x :: tl).set (m + 1) a = x :: tl.set m a := rfl
      rw [hg, hset]
      have h1 : List.Perm (gGet dflt tl m :: x :: tl.set m a)
          (x :: gGet dflt tl m :: tl.set m a) :=
        List.Perm.swap x (gGet dflt tl m) (tl.set m a)
      have h2 : List.Perm (x :: gGet dflt tl m :: tl.set m a) (x :: a :: tl) :=
        List.Perm.cons x (ih m a hm)
      have h3 : List.Perm (x :: a :: tl) (a :: x :: tl) :=
        List.Perm.swap a x tl
      exact (h1.trans h2).trans h3

theorem gSwap_perm {β : Type _} (dflt : β) (l : List β) {i j : Nat}
    (hi : i < l.length) (hj : j < l.length) :
    List.Perm (gSwap dflt l i j) l := by
  by_cases hij : i = j
  · subst hij
    unfold gSwap
    have h1 := set_perm_cons dflt l i (gGet dflt l i) hi
    have h2 := set_perm_cons dflt (l.set i (gGet dflt l i)) i (gGet dflt l i)
      (by simpa using hi)
    rw [gGet_set_self dflt l i _ hi] at h2
    exact (h2.trans h1).cons_inv
  · unfold gSwap
    have hgl1j : gGet dflt (l.set i (gGet dflt l j)) j = gGet dflt l j :=
      gGet_set_ne dflt l i j _ hij
    have h1 := set_perm_cons dflt (l.set i (gGet dflt l j)) j (gGet dflt l i)
      (by simpa using hj)
    rw [hgl1j] at h1
    have h2 := set_perm_cons dflt l i (gGet dflt l j) hi
    exact (h1.trans h2).cons_inv

/-! ### The heap-based result iterator (`src/sorter/result_iter.rs`)

`ResultIterator` holds a `BinaryHeap<HeapEntry>`; each entry is a boxed
`Run`, modelled by its unread element list.  The heap is `std`\'s
array-encoded binary max-heap; its `sift_down`, `sift_down_to_bottom`,
`sift_up`, `pop` and heapify (`From<Vec>`) algorithms are embedded
verbatim below (with the hole optimization rendered as successive
swaps, which performs identical comparisons and produces identical
arrays).  The derived `Ord` on entries compares the runs\' heads through
the orderer, reversed, with an exhausted run comparing below
everything. -/

/-- `HeapEntry::cmp` (`src/sorter/result_iter.rs` lines 33–51). -/
def entryCmp {α : Type _} (cmp : α → α → Ordering) (a b : List α) : Ordering :=
  match a.head?, b.head? with
  | none, _ => .lt
  | some _, none => .gt
  | some l, some r => (cmp l r).swap

/-- Semantic heap order: `p` outranks `c` (the max-heap keeps at a
parent an entry whose head is no greater than the child head; an
exhausted entry ranks below everything). -/
def entryGE {α : Type _} (cmp : α → α → Ordering) (p c : List α) : Prop :=
  match c.head? with
  | none => True
  | some hc =>
    match p.head? with
    | none => False
    | some hp => cmp hp hc ≠ .gt

theorem entryGE_refl {α : Type _} {cmp : α → α → Ordering} (hs : SWOrd cmp)
    (a : List α) : entryGE cmp a a := by
  cases ha : a.head? with
  | none => simp [entryGE, ha]
  | some x => simp [entryGE, ha, hs.refl_eq x]

theorem entryGE_trans {α : Type _} {cmp : α → α → Ordering} (hs : SWOrd cmp)
    {a b c : List α} (h1 : entryGE cmp a b) (h2 : entryGE cmp b c) :
    entryGE cmp a c := by
  cases hc : c.head? with
  | none => simp [entryGE, hc]
  | some z =>
    cases hb : b.head? with
    | none => simp [entryGE, hb, hc] at h2
    | some y =>
      cases ha : a.head? with
      | none => simp [entryGE, ha, hb] at h1
      | some x =>
        simp [entryGE, ha, hb, hc] at h1 h2 ⊢
        exact hs.le_trans x y z h1 h2

theorem entryGE_of_ne_lt {α : Type _} {cmp : α → α → Ordering} (hs : SWOrd cmp)
    {a b : List α} (h : entryCmp cmp a b ≠ .lt) : entryGE cmp a b := by
  cases ha : a.head? with
  | none => simp [entryCmp, ha] at h
  | some x =>
    cases hb : b.head? with
    | none => simp [entryGE, ha, hb]
    | some y =>
      simp [entryCmp, ha, hb] at h
      simp [entryGE, ha, hb]
      intro hgt
      rw [hgt] at h
      exact h rfl

theorem entryGE_of_ne_gt {α : Type _} {cmp : α → α → Ordering} (hs : SWOrd cmp)
    {a b : List α} (h : entryCmp cmp a b ≠ .gt) : entryGE cmp b a := by
  cases ha : a.head? with
  | none => simp [entryGE, ha]
  | some x =>
    cases hb : b.head? with
    | none => simp [entryCmp, ha, hb] at h
    | some y =>
      simp [entryCmp, ha, hb] at h
      simp [entryGE, ha, hb]
      intro hgt
      have hxy : cmp x y ≠ .lt := by
        intro hlt
        rw [hlt] at h
        exact h rfl
      have hswap := hs.swap_eq y x
      rw [hgt] at hswap
      cases hc : cmp x y with
      | lt => exact hxy hc
      | eq => rw [hc] at hswap; simp [Ordering.swap] at hswap
      | gt => rw [hc] at hswap; simp [Ordering.swap] at hswap

/-- The greater of the two children `child`, `child + 1`
(`child += (hole.get(child) <= hole.get(child + 1)) as usize`). -/
def pickChild {α : Type _} (cmp : α → α → Ordering) (data : List (List α))
    (child : Nat) : Nat :=
  if entryCmp cmp (gGet [] data child) (gGet [] data (child + 1)) ≠ .gt
  then child + 1 else child

theorem pickChild_cases {α : Type _} (cmp : α → α → Ordering)
    (data : List (List α)) (c : Nat) :
    pickChild cmp data c = c ∨ pickChild cmp data c = c + 1 := by
  unfold pickChild
  split
  · right; rfl
  · left; rfl

theorem pickChild_ge {α : Type _} {cmp : α → α → Ordering} (hs : SWOrd cmp)
    (data : List (List α)) (c : Nat) :
    entryGE cmp (gGet [] data (pickChild cmp data c)) (gGet [] data c) ∧
    entryGE cmp (gGet [] data (pickChild cmp data c)) (gGet [] data (c + 1)) := by
  unfold pickChild
  by_cases h : entryCmp cmp (gGet [] data c) (gGet [] data (c + 1)) ≠ .gt
  · rw [if_pos h]
    exact ⟨entryGE_of_ne_gt hs h, entryGE_refl hs _⟩
  · rw [if_neg h]
    push_neg at h
    have hne : entryCmp cmp (gGet [] data c) (gGet [] data (c + 1)) ≠ .lt := by
      rw [h]
      simp
    exact ⟨entryGE_refl hs _, entryGE_of_ne_lt hs hne⟩

/-- `BinaryHeap::sift_down_range` (std), hole rendered as swaps; `fuel`
bounds the descent (`endIdx` is always enough). -/
def siftDownGo {α : Type _} (cmp : α → α → Ordering) (endIdx : Nat) :
    Nat → Nat → List (List α) → List (List α)
  | 0, _, data => data
  | fuel + 1, pos, data =>
    let child := 2 * pos + 1
    if child + 2 ≤ endIdx then
      let child2 := pickChild cmp data child
      if entryCmp cmp (gGet [] data pos) (gGet [] data child2) ≠ .lt then data
      else siftDownGo cmp endIdx fuel child2 (gSwap [] data pos child2)
    else if child = endIdx - 1 then
      if entryCmp cmp (gGet [] data pos) (gGet [] data child) = .lt then
        gSwap [] data pos child
      else data
    else data

/-- `BinaryHeap::sift_down`. -/
def siftDown {α : Type _} (cmp : α → α → Ordering) (data : List (List α))
    (pos : Nat) : List (List α) :=
  siftDownGo cmp data.length data.length pos data

/-- `BinaryHeap::sift_up` with `start = 0` (the only use here is from
`pop`\'s `sift_down_to_bottom`). -/
def siftUpGo {α : Type _} (cmp : α → α → Ordering) :
    Nat → Nat → List (List α) → List (List α)
  | 0, _, data => data
  | fuel + 1, pos, data =>
    if 0 < pos then
      let parent := (pos - 1) / 2
      if entryCmp cmp (gGet [] data pos) (gGet [] data parent) ≠ .gt then data
      else siftUpGo cmp fuel parent (gSwap [] data pos parent)
    else data

/-- `BinaryHeap::sift_down_to_bottom`, descent phase: move the hole to
the bottom along greater children; returns the final hole position. -/
def siftDownBottomGo {α : Type _} (cmp : α → α → Ordering) (endIdx : Nat) :
    Nat → Nat → List (List α) → List (List α) × Nat
  | 0, pos, data => (data, pos)
  | fuel + 1, pos, data =>
    let child := 2 * pos + 1
    if child + 2 ≤ endIdx then
      let child2 := pickChild cmp data child
      siftDownBottomGo cmp endIdx fuel child2 (gSwap [] data pos child2)
    else if child = endIdx - 1 then
      (gSwap [] data pos child, child)
    else (data, pos)

/-- `BinaryHeap::pop`: remove the last element; if the heap is still
non-empty, swap it into the root and run `sift_down_to_bottom(0)`
(descent, then `sift_up`).  Returns the popped maximum. -/
def popHeap {α : Type _} (cmp : α → α → Ordering) (data : List (List α)) :
    Option (List α × List (List α)) :=
  match data with
  | [] => none
  | _ :: _ =>
    let item := data.getLastD []
    let rest := data.dropLast
    if rest.length = 0 then some (item, rest)
    else
      let top := gGet [] rest 0
      let data1 := rest.set 0 item
      let dp := siftDownBottomGo cmp data1.length data1.length 0 data1
      some (top, siftUpGo cmp dp.2 dp.2 dp.1)

/-- `BinaryHeap::from(vec)` rebuild: `sift_down(i)` for
`i = n/2 - 1, …, 0` (`heapifyGo k` processes `k - 1, …, 0`). -/
def heapifyGo {α : Type _} (cmp : α → α → Ordering) :
    Nat → List (List α) → List (List α)
  | 0, data => data
  | k + 1, data => heapifyGo cmp k (siftDown cmp data k)

/-- Heap construction from the collected entry vector. -/
def heapify {α : Type _} (cmp : α → α → Ordering) (data : List (List α)) :
    List (List α) :=
  heapifyGo cmp (data.length / 2) data

/-- `ResultIterator::next` (`src/sorter/result_iter.rs` lines 79–88):
peek the top entry; if its run yields, return the element and sift the
top down (the `PeekMut` drop); otherwise pop the exhausted entry and
retry.  `fuel` bounds the pops. -/
def riNextGo {α : Type _} (cmp : α → α → Ordering) :
    Nat → List (List α) → Option (α × List (List α))
  | 0, _ => none
  | fuel + 1, data =>
    match data with
    | [] => none
    | top :: _ =>
      match top with
      | v :: tl => some (v, siftDown cmp (data.set 0 tl) 0)
      | [] =>
        match popHeap cmp data with
        | none => none
        | some (_, d2) => riNextGo cmp fuel d2

/-- `ResultIterator::next`. -/
def riNext {α : Type _} (cmp : α → α → Ordering) (data : List (List α)) :
    Option (α × List (List α)) :=
  riNextGo cmp (data.length + 1) data

/-- `ResultIterator::size_hint` (`src/sorter/result_iter.rs` lines
90–93): the sum of the runs\' `size_hint`s. -/
def heapSize {α : Type _} (data : List (List α)) : Nat :=
  (data.map List.length).sum

/-- Unfold the iterator to its full output sequence. -/
def riSeqGo {α : Type _} (cmp : α → α → Ordering) :
    Nat → List (List α) → List α
  | 0, _ => []
  | fuel + 1, data =>
    match riNext cmp data with
    | none => []
    | some (v, d2) => v :: riSeqGo cmp fuel d2

/-- The full output sequence of the result iterator. -/
def riSeq {α : Type _} (cmp : α → α → Ordering) (data : List (List α)) :
    List α :=
  riSeqGo cmp (heapSize data + data.length) data

/-- The array-heap order: every child is outranked by its parent. -/
def IsHeap {α : Type _} (cmp : α → α → Ordering) (l : List (List α)) : Prop :=
  ∀ j, 0 < j → j < l.length →
    entryGE cmp (gGet [] l ((j - 1) / 2)) (gGet [] l j)

theorem getLastD_dropLast_perm {β : Type _} (d : β) :
    ∀ (l : List β), l ≠ [] → List.Perm (l.getLastD d :: l.dropLast) l := by
  intro l
  induction l with
  | nil => intro h; exact absurd rfl h
  | cons a tl ih =>
    intro _
    cases tl with
    | nil => exact List.Perm.refl [a]
    | cons b m =>
      have hg : (a :: b :: m).getLastD d = (b :: m).getLastD a := by
        simp [List.getLastD]
      have hdl : (a :: b :: m).dropLast = a :: (b :: m).dropLast := rfl
      rw [hg, hdl]
      have h1 : List.Perm ((b :: m).getLastD a :: a :: (b :: m).dropLast)
          (a :: (b :: m).getLastD a :: (b :: m).dropLast) :=
        List.Perm.swap a ((b :: m).getLastD a) _
      have h2 : List.Perm (a :: (b :: m).getLastD a :: (b :: m).dropLast)
          (a :: b :: m) := List.Perm.cons a (ih (by simp))
      exact h1.trans h2

theorem siftDownGo_perm {α : Type _} (cmp : α → α → Ordering) (endIdx : Nat) :
    ∀ fuel pos data, pos < endIdx → endIdx = data.length →
      List.Perm (siftDownGo cmp endIdx fuel pos data) data := by
  intro fuel
  induction fuel with
  | zero =>
    intro pos data hpos hlen
    exact List.Perm.refl data
  | succ fuel ih =>
    intro pos data hpos hlen
    unfold siftDownGo
    dsimp only
    by_cases h1 : 2 * pos + 1 + 2 ≤ endIdx
    · rw [if_pos h1]
      set child2 := pickChild cmp data (2 * pos + 1) with hc2
      have hchild2 : child2 < endIdx := by
        rcases pickChild_cases cmp data (2 * pos + 1) with hcc | hcc <;>
          rw [hc2, hcc] <;> omega
      by_cases h2 : entryCmp cmp (gGet [] data pos) (gGet [] data child2) ≠ Ordering.lt
      · rw [if_pos h2]
      · rw [if_neg h2]
        have hperm := gSwap_perm ([] : List α) data
          (i := pos) (j := child2) (by omega) (by omega)
        have hlen2 : endIdx = (gSwap [] data pos child2).length := by
          rw [length_gSwap]
          exact hlen
        exact (ih child2 (gSwap [] data pos child2) hchild2 hlen2).trans hperm
    · rw [if_neg h1]
      by_cases h3 : 2 * pos + 1 = endIdx - 1
      · rw [if_pos h3]
        by_cases h4 : entryCmp cmp (gGet [] data pos) (gGet [] data (2 * pos + 1))
            = Ordering.lt
        · rw [if_pos h4]
          exact gSwap_perm ([] : List α) data (by omega) (by omega)
        · rw [if_neg h4]
      · rw [if_neg h3]

theorem siftDown_perm {α : Type _} (cmp : α → α → Ordering)
    (data : List (List α)) (pos : Nat) (hpos : pos < data.length) :
    List.Perm (siftDown cmp data pos) data :=
  siftDownGo_perm cmp data.length data.length pos data hpos rfl

theorem siftDown_length {α : Type _} (cmp : α → α → Ordering)
    (data : List (List α)) (pos : Nat) (hpos : pos < data.length) :
    (siftDown cmp data pos).length = data.length :=
  (siftDown_perm cmp data pos hpos).length_eq

theorem siftUpGo_perm {α : Type _} (cmp : α → α → Ordering) :
    ∀ fuel pos data, pos < data.length →
      List.Perm (siftUpGo cmp fuel pos data) data := by
  intro fuel
  induction fuel with
  | zero =>
    intro pos data hpos
    exact List.Perm.refl data
  | succ fuel ih =>
    intro pos data hpos
    unfold siftUpGo
    dsimp only
    by_cases h1 : 0 < pos
    · rw [if_pos h1]
      by_cases h2 : entryCmp cmp (gGet [] data pos) (gGet [] data ((pos - 1) / 2)) ≠ Ordering.gt
      · rw [if_pos h2]
      · rw [if_neg h2]
        have hpar : (pos - 1) / 2 < data.length := by
          have : (pos - 1) / 2 < pos := by omega
          omega
        have hperm := gSwap_perm ([] : List α) data
          (i := pos) (j := (pos - 1) / 2) hpos hpar
        have hlen2 : (pos - 1) / 2 < (gSwap [] data pos ((pos - 1) / 2)).length := by
          rw [length_gSwap]
          exact hpar
        exact (ih ((pos - 1) / 2) _ hlen2).trans hperm
    · rw [if_neg h1]

theorem siftDownBottomGo_perm {α : Type _} (cmp : α → α → Ordering)
    (endIdx : Nat) :
    ∀ fuel pos data, pos < endIdx → endIdx = data.length →
      List.Perm (siftDownBottomGo cmp endIdx fuel pos data).1 data ∧
      (siftDownBottomGo cmp endIdx fuel pos data).2 < endIdx := by
  intro fuel
  induction fuel with
  | zero =>
    intro pos data hpos hlen
    exact ⟨List.Perm.refl data, hpos⟩
  | succ fuel ih =>
    intro pos data hpos hlen
    unfold siftDownBottomGo
    dsimp only
    by_cases h1 : 2 * pos + 1 + 2 ≤ endIdx
    · rw [if_pos h1]
      set child2 := pickChild cmp data (2 * pos + 1) with hc2
      have hchild2 : child2 < endIdx := by
        rcases pickChild_cases cmp data (2 * pos + 1) with hcc | hcc <;>
          rw [hc2, hcc] <;> omega
      have hperm := gSwap_perm ([] : List α) data
        (i := pos) (j := child2) (by omega) (by omega)
      have hlen2 : endIdx = (gSwap [] data pos child2).length := by
        rw [length_gSwap]
        exact hlen
      obtain ⟨p1, p2⟩ := ih child2 (gSwap [] data pos child2) hchild2 hlen2
      exact ⟨p1.trans hperm, p2⟩
    · rw [if_neg h1]
      by_cases h3 : 2 * pos + 1 = endIdx - 1
      · rw [if_pos h3]
        refine ⟨gSwap_perm ([] : List α) data (by omega) (by omega), by omega⟩
      · rw [if_neg h3]
        exact ⟨List.Perm.refl data, hpos⟩

theorem popHeap_perm {α : Type _} (cmp : α → α → Ordering)
    (data : List (List α)) (top : List α) (d2 : List (List α))
    (hpop : popHeap cmp data = some (top, d2)) :
    top = gGet [] data 0 ∧ List.Perm (top :: d2) data ∧
      d2.length + 1 = data.length := by
  match data with
  | [] => simp [popHeap] at hpop
  | x :: rest0 =>
    unfold popHeap at hpop
    dsimp only at hpop
    by_cases hre : ((x :: rest0).dropLast).length = 0
    · rw [if_pos hre] at hpop
      have hr0 : rest0 = [] := by
        cases rest0 with
        | nil => rfl
        | cons y ys => simp [List.dropLast] at hre
      subst hr0
      simp only [Option.some.injEq, Prod.mk.injEq] at hpop
      obtain ⟨h1, h2⟩ := hpop
      refine ⟨by rw [← h1]; rfl, ?_, by rw [← h2]; rfl⟩
      rw [← h1, ← h2]
      exact List.Perm.refl _
    · rw [if_neg hre] at hpop
      set rest := (x :: rest0).dropLast with hrestdef
      set item := (x :: rest0).getLastD [] with hitemdef
      set data1 := rest.set 0 item with hdata1def
      set dp := siftDownBottomGo cmp data1.length data1.length 0 data1 with hdpdef
      simp only [Option.some.injEq, Prod.mk.injEq] at hpop
      obtain ⟨htop, hd2⟩ := hpop
      have hrestlen : rest.length = rest0.length := by
        rw [hrestdef]
        simp
      have hrestpos : 0 < rest.length := by omega
      have hdata1len : data1.length = rest.length := by
        rw [hdata1def]
        simp
      have hdb := siftDownBottomGo_perm cmp data1.length data1.length 0 data1
        (by omega) rfl
      rw [← hdpdef] at hdb
      obtain ⟨hdb1, hdb2⟩ := hdb
      have hup := siftUpGo_perm cmp dp.2 dp.2 dp.1
        (by rw [hdb1.length_eq]; exact hdb2)
      have hd2perm : List.Perm d2 data1 := by
        rw [← hd2]
        exact hup.trans hdb1
      have hset := set_perm_cons ([] : List α) rest 0 item hrestpos
      rw [← hdata1def] at hset
      have hlast : List.Perm (item :: rest) (x :: rest0) := by
        rw [hitemdef, hrestdef]
        exact getLastD_dropLast_perm ([] : List α) (x :: rest0) (by simp)
      have htop0 : gGet [] rest 0 = gGet [] (x :: rest0) 0 := by
        rw [hrestdef]
        cases rest0 with
        | nil =>
          rw [hrestdef] at hre
          simp at hre
        | cons y ys => simp [gGet]
      refine ⟨by rw [← htop, htop0], ?_, ?_⟩
      · have hstep1 : List.Perm (top :: d2) (top :: data1) :=
          List.Perm.cons top hd2perm
        have hstep2 : List.Perm (gGet [] rest 0 :: data1) (x :: rest0) :=
          hset.trans hlast
        rw [← htop] at hstep1 ⊢
        exact hstep1.trans hstep2
      · rw [← hd2, hup.length_eq, hdb1.length_eq, hdata1len]
        simp [hrestlen]

theorem popHeap_none {α : Type _} (cmp : α → α → Ordering)
    (data : List (List α)) (h : popHeap cmp data = none) : data = [] := by
  cases data with
  | nil => rfl
  | cons x rest =>
    unfold popHeap at h
    dsimp only at h
    by_cases hre : ((x :: rest).dropLast).length = 0
    · rw [if_pos hre] at h
      simp at h
    · rw [if_neg hre] at h
      simp at h

theorem heapifyGo_perm {α : Type _} (cmp : α → α → Ordering) :
    ∀ k data, k ≤ data.length →
      List.Perm (heapifyGo cmp k data) data := by
  intro k
  induction k with
  | zero =>
    intro data _
    exact List.Perm.refl data
  | succ k ih =>
    intro data hk
    unfold heapifyGo
    have hs := siftDown_perm cmp data k (by omega)
    have hlen : k ≤ (siftDown cmp data k).length := by
      rw [hs.length_eq]
      omega
    exact (ih (siftDown cmp data k) hlen).trans hs

theorem heapify_perm {α : Type _} (cmp : α → α → Ordering)
    (data : List (List α)) : List.Perm (heapify cmp data) data :=
  heapifyGo_perm cmp (data.length / 2) data (by omega)

theorem riNextGo_some_perm {α : Type _} (cmp : α → α → Ordering) :
    ∀ fuel data v d2, riNextGo cmp fuel data = some (v, d2) →
      List.Perm (v :: d2.flatten) data.flatten ∧ d2.length ≤ data.length := by
  intro fuel
  induction fuel with
  | zero =>
    intro data v d2 h
    simp [riNextGo] at h
  | succ fuel ih =>
    intro data v d2 h
    unfold riNextGo at h
    match data, h with
    | [], h => simp at h
    | (w :: tl) :: rest, h =>
      simp only [Option.some.injEq, Prod.mk.injEq] at h
      obtain ⟨hv, hd2⟩ := h
      subst hv
      have hset : ((w :: tl) :: rest).set 0 tl = tl :: rest := rfl
      have hperm := siftDown_perm cmp (((w :: tl) :: rest).set 0 tl) 0
        (by simp)
      rw [← hd2]
      constructor
      · have hflat := hperm.flatten
        rw [hset] at hflat
        have hstep : List.Perm (w :: (tl :: rest).flatten)
            (((w :: tl) :: rest).flatten) := by
          simp only [List.flatten_cons]
          exact List.Perm.refl _
        exact (List.Perm.cons w hflat).trans hstep
      · rw [hperm.length_eq]
        simp
    | [] :: rest, h =>
      cases hpop : popHeap cmp ([] :: rest) with
      | none => rw [hpop] at h; simp at h
      | some pr =>
        rw [hpop] at h
        dsimp only at h
        obtain ⟨ptop, dp⟩ := pr
        obtain ⟨hp1, hp2, hp3⟩ := popHeap_perm cmp ([] :: rest) ptop dp hpop
        have hptop : ptop = [] := by
          rw [hp1]
          simp [gGet]
        subst hptop
        obtain ⟨ih1, ih2⟩ := ih dp v d2 h
        constructor
        · have hflat := hp2.flatten
          simp only [List.flatten_cons, List.nil_append] at hflat
          exact ih1.trans hflat
        · have : dp.length ≤ ([] :: rest).length := by
            simp at hp3 ⊢
            omega
          omega

theorem riNextGo_none_flat {α : Type _} (cmp : α → α → Ordering) :
    ∀ fuel data, data.length < fuel → riNextGo cmp fuel data = none →
      data.flatten = [] := by
  intro fuel
  induction fuel with
  | zero =>
    intro data hlen h
    omega
  | succ fuel ih =>
    intro data hlen h
    unfold riNextGo at h
    match data, h with
    | [], h => rfl
    | (w :: tl) :: rest, h => simp at h
    | [] :: rest, h =>
      cases hpop : popHeap cmp ([] :: rest) with
      | none =>
        have := popHeap_none cmp ([] :: rest) hpop
        simp at this
      | some pr =>
        rw [hpop] at h
        dsimp only at h
        obtain ⟨ptop, dp⟩ := pr
        obtain ⟨hp1, hp2, hp3⟩ := popHeap_perm cmp ([] :: rest) ptop dp hpop
        have hptop : ptop = [] := by
          rw [hp1]
          simp [gGet]
        subst hptop
        have hdp : dp.flatten = [] := by
          refine ih dp ?_ h
          simp at hp3 hlen
          omega
        have hflat := hp2.flatten
        simp only [List.flatten_cons, List.nil_append, hdp] at hflat
        exact (hflat.symm).eq_nil

theorem riNext_some_perm {α : Type _} (cmp : α → α → Ordering)
    (data : List (List α)) (v : α) (d2 : List (List α))
    (h : riNext cmp data = some (v, d2)) :
    List.Perm (v :: d2.flatten) data.flatten ∧ d2.length ≤ data.length :=
  riNextGo_some_perm cmp (data.length + 1) data v d2 h

theorem riNext_none_flat {α : Type _} (cmp : α → α → Ordering)
    (data : List (List α)) (h : riNext cmp data = none) :
    data.flatten = [] :=
  riNextGo_none_flat cmp (data.length + 1) data (by omega) h

theorem heapSize_flatten {α : Type _} (data : List (List α)) :
    heapSize data = data.flatten.length := by
  rw [heapSize, List.length_flatten]

theorem riSeqGo_perm {α : Type _} (cmp : α → α → Ordering) :
    ∀ fuel data, heapSize data + data.length ≤ fuel →
      List.Perm (riSeqGo cmp fuel data) data.flatten := by
  intro fuel
  induction fuel with
  | zero =>
    intro data hf
    have hz : heapSize data = 0 := by omega
    rw [heapSize_flatten] at hz
    have hnil : data.flatten = [] := List.length_eq_zero.mp hz
    rw [hnil]
    exact List.Perm.refl []
  | succ fuel ih =>
    intro data hf
    unfold riSeqGo
    cases hnext : riNext cmp data with
    | none =>
      rw [riNext_none_flat cmp data hnext]
    | some pr =>
      obtain ⟨v, d2⟩ := pr
      dsimp only
      obtain ⟨hperm, hlen⟩ := riNext_some_perm cmp data v d2 hnext
      have hsz : heapSize d2 + 1 = heapSize data := by
        have hlen2 := hperm.length_eq
        rw [List.length_cons] at hlen2
        rw [heapSize_flatten, heapSize_flatten]
        omega
      have hih := ih d2 (by omega)
      exact (List.Perm.cons v hih).trans hperm

/-- The output of the result iterator is a permutation of the contents
of its runs. -/
theorem riSeq_perm {α : Type _} (cmp : α → α → Ordering)
    (data : List (List α)) :
    List.Perm (riSeq cmp data) data.flatten :=
  riSeqGo_perm cmp (heapSize data + data.length) data (le_refl _)

/-- The output length equals `size_hint`. -/
theorem riSeq_length {α : Type _} (cmp : α → α → Ordering)
    (data : List (List α)) :
    (riSeq cmp data).length = heapSize data := by
  rw [(riSeq_perm cmp data).length_eq, heapSize_flatten]

theorem isHeap_root {α : Type _} {cmp : α → α → Ordering} (hs : SWOrd cmp)
    {l : List (List α)} (h : IsHeap cmp l) :
    ∀ j, j < l.length → entryGE cmp (gGet [] l 0) (gGet [] l j) := by
  intro j
  induction j using Nat.strong_induction_on with
  | _ j ih =>
    intro hj
    by_cases hj0 : j = 0
    · subst hj0
      exact entryGE_refl hs _
    · have hpar : (j - 1) / 2 < j := by omega
      have h1 := ih ((j - 1) / 2) hpar (by omega)
      have h2 := h j (by omega) hj
      exact entryGE_trans hs h1 h2

theorem siftDownGo_spec {α : Type _} {cmp : α → α → Ordering} (hs : SWOrd cmp)
    (endIdx m : Nat) :
    ∀ fuel pos data,
      endIdx = data.length → pos < endIdx → m ≤ pos → endIdx - pos ≤ fuel →
      (∀ j, 0 < j → j < endIdx → m ≤ (j - 1) / 2 → (j - 1) / 2 ≠ pos →
        entryGE cmp (gGet [] data ((j - 1) / 2)) (gGet [] data j)) →
      (0 < pos → m ≤ (pos - 1) / 2 →
        ∀ j, j < endIdx → (j - 1) / 2 = pos →
          entryGE cmp (gGet [] data ((pos - 1) / 2)) (gGet [] data j)) →
      (∀ j, 0 < j → j < endIdx → m ≤ (j - 1) / 2 → j ≠ pos →
        entryGE cmp (gGet [] (siftDownGo cmp endIdx fuel pos data) ((j - 1) / 2))
          (gGet [] (siftDownGo cmp endIdx fuel pos data) j)) ∧
      (∀ b, entryGE cmp b (gGet [] data pos) →
        (∀ j, j < endIdx → (j - 1) / 2 = pos → entryGE cmp b (gGet [] data j)) →
        entryGE cmp b (gGet [] (siftDownGo cmp endIdx fuel pos data) pos)) ∧
      (∀ j, j < pos → gGet [] (siftDownGo cmp endIdx fuel pos data) j
        = gGet [] data j) := by
  intro fuel
  induction fuel with
  | zero =>
    intro pos data hlen hpos hm hfuel _ _
    omega
  | succ fuel ih =>
    intro pos data hlen hpos hm hfuel hAH1 hAH2
    by_cases h1 : 2 * pos + 1 + 2 ≤ endIdx
    · -- two children in range
      set child2 := pickChild cmp data (2 * pos + 1) with hc2
      have hc2cases := pickChild_cases cmp data (2 * pos + 1)
      rw [← hc2] at hc2cases
      have hchild2lo : 2 * pos + 1 ≤ child2 := by rcases hc2cases with h | h <;> omega
      have hchild2hi : child2 ≤ 2 * pos + 2 := by rcases hc2cases with h | h <;> omega
      have hchild2end : child2 < endIdx := by omega
      have hposchild : pos < child2 := by omega
      obtain ⟨hpickA, hpickB⟩ := pickChild_ge hs data (2 * pos + 1)
      rw [← hc2] at hpickA hpickB
      have hpickOther : ∀ j, ((j - 1) / 2 = pos ∧ 0 < j ∧ j < endIdx) →
          entryGE cmp (gGet [] data child2) (gGet [] data j) := by
        intro j ⟨hpj, hj0, hjend⟩
        have : j = 2 * pos + 1 ∨ j = 2 * pos + 2 := by omega
        rcases this with h | h <;> subst h
        · exact hpickA
        · exact hpickB
      by_cases h2 : entryCmp cmp (gGet [] data pos) (gGet [] data child2) ≠ Ordering.lt
      · -- stop: in order already
        have hout : siftDownGo cmp endIdx (fuel + 1) pos data = data := by
          unfold siftDownGo
          dsimp only
          rw [if_pos h1, ← hc2, if_pos h2]
        rw [hout]
        have hge : entryGE cmp (gGet [] data pos) (gGet [] data child2) :=
          entryGE_of_ne_lt hs h2
        refine ⟨?_, ?_, ?_⟩
        · intro j hj0 hjend hjm hjne
          by_cases hpj : (j - 1) / 2 = pos
          · rw [hpj]
            exact entryGE_trans hs hge (hpickOther j ⟨hpj, hj0, hjend⟩)
          · exact hAH1 j hj0 hjend hjm hpj
        · intro b hb _
          exact hb
        · intro j _
          rfl
      · -- swap down and recurse
        push_neg at h2
        have hout : siftDownGo cmp endIdx (fuel + 1) pos data
            = siftDownGo cmp endIdx fuel child2 (gSwap [] data pos child2) := by
          conv_lhs => unfold siftDownGo
          dsimp only
          rw [← hc2, if_pos h1, if_neg (by rw [h2]; simp)]
        rw [hout]
        set data1 := gSwap [] data pos child2 with hd1
        have hlen1 : endIdx = data1.length := by
          rw [hd1, length_gSwap]
          exact hlen
        have hne : pos ≠ child2 := by omega
        have hg_pos : gGet [] data1 pos = gGet [] data child2 :=
          gGet_gSwap_fst [] data hne (by omega)
        have hg_child2 : gGet [] data1 child2 = gGet [] data pos :=
          gGet_gSwap_snd [] data (by omega)
        have hg_other : ∀ k, k ≠ pos → k ≠ child2 →
            gGet [] data1 k = gGet [] data k := by
          intro k hk1 hk2
          exact gGet_gSwap_other [] data hk1 hk2
        have hswapGE : entryGE cmp (gGet [] data child2) (gGet [] data pos) :=
          entryGE_of_ne_gt hs (by rw [h2]; simp)
        -- hypotheses for the recursive call at child2
        have hAH1r : ∀ j, 0 < j → j < endIdx → m ≤ (j - 1) / 2 →
            (j - 1) / 2 ≠ child2 →
            entryGE cmp (gGet [] data1 ((j - 1) / 2)) (gGet [] data1 j) := by
          intro j hj0 hjend hjm hjne
          by_cases hpj : (j - 1) / 2 = pos
          · -- edges out of pos in data1: parent slot now holds data[child2]
            rw [hpj, hg_pos]
            by_cases hjc : j = child2
            · rw [hjc, hg_child2]
              exact hswapGE
            · have hjp : j ≠ pos := by omega
              rw [hg_other j hjp hjc]
              exact hpickOther j ⟨hpj, hj0, hjend⟩
          · -- parent not pos (and not child2)
            by_cases hjpos : j = pos
            · -- edge into pos: grandparent dominated pos\'s children
              rw [hjpos] at hjm ⊢
              have hppos2 : (pos - 1) / 2 ≠ pos := by omega
              have hpc2 : (pos - 1) / 2 ≠ child2 := by omega
              rw [hg_pos, hg_other ((pos - 1) / 2) hppos2 hpc2]
              exact hAH2 (by omega) hjm child2 hchild2end (by omega)
            · by_cases hjc2 : j = child2
              · -- parent of child2 is pos, contradiction
                exact absurd (show (j - 1) / 2 = pos by omega) hpj
              · rw [hg_other ((j - 1) / 2) hpj hjne, hg_other j hjpos hjc2]
                exact hAH1 j hj0 hjend hjm hpj
        have hAH2r : 0 < child2 → m ≤ (child2 - 1) / 2 →
            ∀ j, j < endIdx → (j - 1) / 2 = child2 →
              entryGE cmp (gGet [] data1 ((child2 - 1) / 2)) (gGet [] data1 j) := by
          intro _ _ j hjend hpj
          have hcp : (child2 - 1) / 2 = pos := by omega
          rw [hcp, hg_pos]
          have hj0 : 0 < j := by omega
          have hjpos : j ≠ pos := by omega
          have hjc2 : j ≠ child2 := by omega
          rw [hg_other j hjpos hjc2, ← hpj]
          exact hAH1 j hj0 hjend (by omega) (by omega)
        obtain ⟨hR1, hR2, hR3⟩ := ih child2 data1 hlen1 hchild2end (by omega)
          (by omega) hAH1r hAH2r
        refine ⟨?_, ?_, ?_⟩
        · intro j hj0 hjend hjm hjne
          by_cases hjc2 : j = child2
          · -- edge (pos → child2) in the final array
            subst hjc2
            have hpj : (child2 - 1) / 2 = pos := by omega
            rw [hpj, hR3 pos hposchild, hg_pos]
            refine hR2 (gGet [] data child2) ?_ ?_
            · rw [hg_child2]
              exact hswapGE
            · intro j2 hj2end hj2p
              have hj20 : 0 < j2 := by omega
              have hj2pos : j2 ≠ pos := by omega
              have hj2c2 : j2 ≠ child2 := by omega
              rw [hg_other j2 hj2pos hj2c2, ← hj2p]
              exact hAH1 j2 hj20 hj2end (by omega) (by omega)
          · exact hR1 j hj0 hjend hjm hjc2
        · intro b hb hbc
          rw [hR3 pos hposchild, hg_pos]
          exact hbc child2 hchild2end (by omega)
        · intro j hj
          rw [hR3 j (by omega), hg_other j (by omega) (by omega)]
    · by_cases h3 : 2 * pos + 1 = endIdx - 1
      · -- exactly one child in range
        have hchildend : 2 * pos + 1 < endIdx := by omega
        by_cases h4 : entryCmp cmp (gGet [] data pos) (gGet [] data (2 * pos + 1))
            = Ordering.lt
        · -- swap with the single child; the child has no children in range
          have hout : siftDownGo cmp endIdx (fuel + 1) pos data
              = gSwap [] data pos (2 * pos + 1) := by
            unfold siftDownGo
            dsimp only
            rw [if_neg h1, if_pos h3, if_pos h4]
          rw [hout]
          have hne : pos ≠ 2 * pos + 1 := by omega
          have hg_pos : gGet [] (gSwap [] data pos (2 * pos + 1)) pos
              = gGet [] data (2 * pos + 1) :=
            gGet_gSwap_fst [] data hne (by omega)
          have hg_child : gGet [] (gSwap [] data pos (2 * pos + 1)) (2 * pos + 1)
              = gGet [] data pos :=
            gGet_gSwap_snd [] data (by omega)
          have hg_other : ∀ k, k ≠ pos → k ≠ 2 * pos + 1 →
              gGet [] (gSwap [] data pos (2 * pos + 1)) k = gGet [] data k := by
            intro k hk1 hk2
            exact gGet_gSwap_other [] data hk1 hk2
          have hswapGE : entryGE cmp (gGet [] data (2 * pos + 1)) (gGet [] data pos) :=
            entryGE_of_ne_gt hs (by rw [h4]; simp)
          refine ⟨?_, ?_, ?_⟩
          · intro j hj0 hjend hjm hjne
            by_cases hpj : (j - 1) / 2 = pos
            · have hj : j = 2 * pos + 1 := by omega
              subst hj
              rw [hpj, hg_pos, hg_child]
              exact hswapGE
            · by_cases hjpos : j = pos
              · rw [hjpos] at hjm ⊢
                have hpp2 : (pos - 1) / 2 ≠ pos := by omega
                have hpc2 : (pos - 1) / 2 ≠ 2 * pos + 1 := by omega
                rw [hg_pos, hg_other ((pos - 1) / 2) hpp2 hpc2]
                exact hAH2 (by omega) hjm (2 * pos + 1) hchildend (by omega)
              · by_cases hjc : j = 2 * pos + 1
                · exact absurd (show (j - 1) / 2 = pos by omega) hpj
                · rw [hg_other ((j - 1) / 2) hpj (by omega), hg_other j hjpos hjc]
                  exact hAH1 j hj0 hjend hjm hpj
          · intro b hb hbc
            rw [hg_pos]
            exact hbc (2 * pos + 1) hchildend (by omega)
          · intro j hj
            exact hg_other j (by omega) (by omega)
        · have hout : siftDownGo cmp endIdx (fuel + 1) pos data = data := by
            unfold siftDownGo
            dsimp only
            rw [if_neg h1, if_pos h3, if_neg h4]
          rw [hout]
          have hge : entryGE cmp (gGet [] data pos) (gGet [] data (2 * pos + 1)) :=
            entryGE_of_ne_lt hs h4
          refine ⟨?_, ?_, ?_⟩
          · intro j hj0 hjend hjm hjne
            by_cases hpj : (j - 1) / 2 = pos
            · have hj : j = 2 * pos + 1 := by omega
              subst hj
              rw [hpj]
              exact hge
            · exact hAH1 j hj0 hjend hjm hpj
          · intro b hb _
            exact hb
          · intro j _
            rfl
      · -- no children in range
        have hout : siftDownGo cmp endIdx (fuel + 1) pos data = data := by
          unfold siftDownGo
          dsimp only
          rw [if_neg h1, if_neg h3]
        rw [hout]
        refine ⟨?_, ?_, ?_⟩
        · intro j hj0 hjend hjm hjne
          by_cases hpj : (j - 1) / 2 = pos
          · omega
          · exact hAH1 j hj0 hjend hjm hpj
        · intro b hb _
          exact hb
        · intro j _
          rfl

theorem siftUpGo_spec {α : Type _} {cmp : α → α → Ordering} (hs : SWOrd cmp) :
    ∀ fuel pos data, pos < data.length → pos ≤ fuel →
      (∀ j, 0 < j → j < data.length → j ≠ pos →
        entryGE cmp (gGet [] data ((j - 1) / 2)) (gGet [] data j)) →
      (0 < pos → ∀ c, c < data.length → (c - 1) / 2 = pos →
        entryGE cmp (gGet [] data ((pos - 1) / 2)) (gGet [] data c)) →
      IsHeap cmp (siftUpGo cmp fuel pos data) := by
  intro fuel
  induction fuel with
  | zero =>
    intro pos data hpos hfuel hH1 hH2
    have hp0 : pos = 0 := by omega
    subst hp0
    unfold siftUpGo
    intro j hj0 hjlen
    exact hH1 j hj0 hjlen (by omega)
  | succ fuel ih =>
    intro pos data hpos hfuel hH1 hH2
    unfold siftUpGo
    dsimp only
    by_cases hp0 : 0 < pos
    · rw [if_pos hp0]
      by_cases hcmp : entryCmp cmp (gGet [] data pos) (gGet [] data ((pos - 1) / 2))
          ≠ Ordering.gt
      · rw [if_pos hcmp]
        intro j hj0 hjlen
        by_cases hj : j = pos
        · rw [hj]
          exact entryGE_of_ne_gt hs hcmp
        · exact hH1 j hj0 hjlen hj
      · rw [if_neg hcmp]
        push_neg at hcmp
        set parent := (pos - 1) / 2 with hpar
        have hparlt : parent < pos := by omega
        have hparlen : parent < data.length := by omega
        set data1 := gSwap [] data pos parent with hd1
        have hlen1 : data1.length = data.length := by
          rw [hd1, length_gSwap]
        have hg_pos : gGet [] data1 pos = gGet [] data parent :=
          gGet_gSwap_fst [] data (by omega) hpos
        have hg_par : gGet [] data1 parent = gGet [] data pos :=
          gGet_gSwap_snd [] data hparlen
        have hg_other : ∀ k, k ≠ pos → k ≠ parent →
            gGet [] data1 k = gGet [] data k := by
          intro k hk1 hk2
          exact gGet_gSwap_other [] data hk1 hk2
        have hgt : entryGE cmp (gGet [] data pos) (gGet [] data parent) :=
          entryGE_of_ne_lt hs (by rw [hcmp]; simp)
        have hH1r : ∀ j, 0 < j → j < data1.length → j ≠ parent →
            entryGE cmp (gGet [] data1 ((j - 1) / 2)) (gGet [] data1 j) := by
          intro j hj0 hjlen hjpar
          rw [hlen1] at hjlen
          by_cases hjpos : j = pos
          · -- edge (parent → pos): now x over the old parent entry
            rw [hjpos]
            have hpp : (pos - 1) / 2 = parent := rfl
            rw [hpp, hg_par, hg_pos]
            exact hgt
          · by_cases hpj : (j - 1) / 2 = pos
            · -- children of pos keep their old parent\'s dominator
              rw [hpj, hg_pos, hg_other j hjpos (by omega)]
              exact hH2 hp0 j hjlen hpj
            · by_cases hpj2 : (j - 1) / 2 = parent
              · -- siblings of pos under parent: x dominates via the old parent
                rw [hpj2, hg_par, hg_other j hjpos (by omega)]
                have hold : entryGE cmp (gGet [] data parent) (gGet [] data j) := by
                  have := hH1 j hj0 hjlen hjpos
                  rw [hpj2] at this
                  exact this
                exact entryGE_trans hs hgt hold
              · rw [hg_other ((j - 1) / 2) hpj hpj2, hg_other j hjpos (by omega)]
                exact hH1 j hj0 hjlen hjpos
        have hH2r : 0 < parent → ∀ c, c < data1.length → (c - 1) / 2 = parent →
            entryGE cmp (gGet [] data1 ((parent - 1) / 2)) (gGet [] data1 c) := by
          intro hpar0 c hclen hcpar
          rw [hlen1] at hclen
          have hgp : (parent - 1) / 2 < parent := by omega
          rw [hg_other ((parent - 1) / 2) (by omega) (by omega)]
          have hgpdom : entryGE cmp (gGet [] data ((parent - 1) / 2))
              (gGet [] data parent) := by
            have := hH1 parent hpar0 hparlen (by omega)
            exact this
          by_cases hcpos : c = pos
          · rw [hcpos, hg_pos]
            exact hgpdom
          · rw [hg_other c hcpos (by omega)]
            have hold : entryGE cmp (gGet [] data parent) (gGet [] data c) := by
              have := hH1 c (by omega) hclen hcpos
              rw [hcpar] at this
              exact this
            exact entryGE_trans hs hgpdom hold
        exact ih parent data1 (by omega) (by omega) hH1r hH2r
    · rw [if_neg hp0]
      intro j hj0 hjlen
      exact hH1 j hj0 hjlen (by omega)

theorem siftDownBottomGo_spec {α : Type _} {cmp : α → α → Ordering}
    (hs : SWOrd cmp) (endIdx : Nat) :
    ∀ fuel pos data, endIdx = data.length → pos < endIdx →
      endIdx - pos ≤ fuel →
      (∀ j, 0 < j → j < endIdx → (j - 1) / 2 ≠ pos → j ≠ pos →
        entryGE cmp (gGet [] data ((j - 1) / 2)) (gGet [] data j)) →
      (0 < pos → ∀ c, c < endIdx → (c - 1) / 2 = pos →
        entryGE cmp (gGet [] data ((pos - 1) / 2)) (gGet [] data c)) →
      (∀ j, 0 < j → j < endIdx →
        j ≠ (siftDownBottomGo cmp endIdx fuel pos data).2 →
        entryGE cmp
          (gGet [] (siftDownBottomGo cmp endIdx fuel pos data).1 ((j - 1) / 2))
          (gGet [] (siftDownBottomGo cmp endIdx fuel pos data).1 j)) ∧
      endIdx ≤ 2 * (siftDownBottomGo cmp endIdx fuel pos data).2 + 1 := by
  intro fuel
  induction fuel with
  | zero =>
    intro pos data hlen hpos hfuel _ _
    omega
  | succ fuel ih =>
    intro pos data hlen hpos hfuel hH1 hH2
    by_cases h1 : 2 * pos + 1 + 2 ≤ endIdx
    · set child2 := pickChild cmp data (2 * pos + 1) with hc2
      have hc2cases := pickChild_cases cmp data (2 * pos + 1)
      rw [← hc2] at hc2cases
      have hchild2lo : 2 * pos + 1 ≤ child2 := by rcases hc2cases with h | h <;> omega
      have hchild2hi : child2 ≤ 2 * pos + 2 := by rcases hc2cases with h | h <;> omega
      have hchild2end : child2 < endIdx := by omega
      obtain ⟨hpickA, hpickB⟩ := pickChild_ge hs data (2 * pos + 1)
      rw [← hc2] at hpickA hpickB
      have hpickOther : ∀ j, (j - 1) / 2 = pos → 0 < j → j < endIdx →
          entryGE cmp (gGet [] data child2) (gGet [] data j) := by
        intro j hpj hj0 hjend
        have : j = 2 * pos + 1 ∨ j = 2 * pos + 2 := by omega
        rcases this with h | h <;> subst h
        · exact hpickA
        · exact hpickB
      have hout : siftDownBottomGo cmp endIdx (fuel + 1) pos data
          = siftDownBottomGo cmp endIdx fuel child2 (gSwap [] data pos child2) := by
        conv_lhs => unfold siftDownBottomGo
        dsimp only
        rw [← hc2, if_pos h1]
      rw [hout]
      set data1 := gSwap [] data pos child2 with hd1
      have hlen1 : endIdx = data1.length := by
        rw [hd1, length_gSwap]
        exact hlen
      have hg_pos : gGet [] data1 pos = gGet [] data child2 :=
        gGet_gSwap_fst [] data (by omega) (by omega)
      have hg_c2 : gGet [] data1 child2 = gGet [] data pos :=
        gGet_gSwap_snd [] data (by omega)
      have hg_other : ∀ k, k ≠ pos → k ≠ child2 →
          gGet [] data1 k = gGet [] data k := by
        intro k hk1 hk2
        exact gGet_gSwap_other [] data hk1 hk2
      have hH1r : ∀ j, 0 < j → j < endIdx → (j - 1) / 2 ≠ child2 →
          j ≠ child2 →
          entryGE cmp (gGet [] data1 ((j - 1) / 2)) (gGet [] data1 j) := by
        intro j hj0 hjend hjpar hjne
        by_cases hjpos : j = pos
        · rw [hjpos] at hjend ⊢
          have hpp2 : (pos - 1) / 2 ≠ pos := by omega
          have hpc2 : (pos - 1) / 2 ≠ child2 := by omega
          rw [hg_pos, hg_other ((pos - 1) / 2) hpp2 hpc2]
          exact hH2 (by omega) child2 hchild2end (by omega)
        · by_cases hpj : (j - 1) / 2 = pos
          · rw [hpj, hg_pos, hg_other j hjpos hjne]
            exact hpickOther j hpj hj0 hjend
          · rw [hg_other ((j - 1) / 2) hpj hjpar, hg_other j hjpos hjne]
            exact hH1 j hj0 hjend hpj hjpos
      have hH2r : 0 < child2 → ∀ c, c < endIdx → (c - 1) / 2 = child2 →
          entryGE cmp (gGet [] data1 ((child2 - 1) / 2)) (gGet [] data1 c) := by
        intro _ c hclen hcpar
        have hcp : (child2 - 1) / 2 = pos := by omega
        rw [hcp, hg_pos, hg_other c (by omega) (by omega), ← hcpar]
        exact hH1 c (by omega) hclen (by omega) (by omega)
      exact ih child2 data1 hlen1 hchild2end (by omega) hH1r hH2r
    · by_cases h3 : 2 * pos + 1 = endIdx - 1
      · have hchildend : 2 * pos + 1 < endIdx := by omega
        have hout : siftDownBottomGo cmp endIdx (fuel + 1) pos data
            = (gSwap [] data pos (2 * pos + 1), 2 * pos + 1) := by
          conv_lhs => unfold siftDownBottomGo
          dsimp only
          rw [if_neg h1, if_pos h3]
        rw [hout]
        dsimp only
        have hg_pos : gGet [] (gSwap [] data pos (2 * pos + 1)) pos
            = gGet [] data (2 * pos + 1) :=
          gGet_gSwap_fst [] data (by omega) (by omega)
        have hg_other : ∀ k, k ≠ pos → k ≠ 2 * pos + 1 →
            gGet [] (gSwap [] data pos (2 * pos + 1)) k = gGet [] data k := by
          intro k hk1 hk2
          exact gGet_gSwap_other [] data hk1 hk2
        refine ⟨?_, by omega⟩
        intro j hj0 hjend hjne
        by_cases hjpos : j = pos
        · rw [hjpos] at hjend ⊢
          have hpp2 : (pos - 1) / 2 ≠ pos := by omega
          have hpc2 : (pos - 1) / 2 ≠ 2 * pos + 1 := by omega
          rw [hg_pos, hg_other ((pos - 1) / 2) hpp2 hpc2]
          exact hH2 (by omega) (2 * pos + 1) hchildend (by omega)
        · by_cases hpj : (j - 1) / 2 = pos
          · exact absurd (show j = 2 * pos + 1 by omega) hjne
          · rw [hg_other ((j - 1) / 2) hpj (by omega), hg_other j hjpos hjne]
            exact hH1 j hj0 hjend hpj hjpos
      · have hout : siftDownBottomGo cmp endIdx (fuel + 1) pos data
            = (data, pos) := by
          conv_lhs => unfold siftDownBottomGo
          dsimp only
          rw [if_neg h1, if_neg h3]
        rw [hout]
        dsimp only
        refine ⟨?_, by omega⟩
        intro j hj0 hjend hjne
        by_cases hpj : (j - 1) / 2 = pos
        · omega
        · exact hH1 j hj0 hjend hpj hjne

theorem gGet_cons_succ {β : Type _} (d : β) (x : β) (l : List β) (k : Nat) :
    gGet d (x :: l) (k + 1) = gGet d l k := by
  simp [gGet]

theorem gGet_dropLast {β : Type _} (d : β) :
    ∀ (l : List β) (k : Nat), k + 1 < l.length →
      gGet d l.dropLast k = gGet d l k := by
  intro l
  induction l with
  | nil =>
    intro k hk
    simp at hk
  | cons x tl ih =>
    intro k hk
    cases tl with
    | nil => simp at hk
    | cons y ys =>
      have hdl : (x :: y :: ys).dropLast = x :: (y :: ys).dropLast := rfl
      rw [hdl]
      cases k with
      | zero => simp [gGet]
      | succ k =>
        rw [gGet_cons_succ, gGet_cons_succ]
        exact ih k (by simpa using hk)

theorem siftDown_root_isHeap {α : Type _} {cmp : α → α → Ordering}
    (hs : SWOrd cmp) (data : List (List α)) (hne : 0 < data.length)
    (hA : ∀ j, 0 < j → j < data.length → (j - 1) / 2 ≠ 0 →
      entryGE cmp (gGet [] data ((j - 1) / 2)) (gGet [] data j)) :
    IsHeap cmp (siftDown cmp data 0) := by
  obtain ⟨hP1, hP2, hP3⟩ := siftDownGo_spec hs data.length 0 data.length 0 data
    rfl hne (by omega) (by omega)
    (fun j hj0 hjend hjm hjne => hA j hj0 hjend hjne)
    (fun h0 => absurd h0 (by omega))
  intro j hj0 hjlen
  have hlen := siftDown_length cmp data 0 hne
  rw [hlen] at hjlen
  unfold siftDown
  exact hP1 j hj0 hjlen (by omega) (by omega)

theorem heapifyGo_isHeap {α : Type _} {cmp : α → α → Ordering}
    (hs : SWOrd cmp) :
    ∀ k data, (k = 0 ∨ k < data.length) →
      (∀ j, 0 < j → j < data.length → k ≤ (j - 1) / 2 →
        entryGE cmp (gGet [] data ((j - 1) / 2)) (gGet [] data j)) →
      IsHeap cmp (heapifyGo cmp k data) := by
  intro k
  induction k with
  | zero =>
    intro data _ hP
    unfold heapifyGo
    intro j hj0 hjlen
    exact hP j hj0 hjlen (by omega)
  | succ k ih =>
    intro data hk hP
    have hklen : k + 1 < data.length := by
      rcases hk with h | h
      · omega
      · exact h
    unfold heapifyGo
    obtain ⟨hP1, hP2, hP3⟩ := siftDownGo_spec hs data.length k data.length k data
      rfl (by omega) (le_refl k) (by omega)
      (fun j hj0 hjend hjm hjne => hP j hj0 hjend (by omega))
      (fun h0 hmk => absurd hmk (by omega))
    have hlen : (siftDown cmp data k).length = data.length :=
      siftDown_length cmp data k (by omega)
    refine ih (siftDown cmp data k) (by omega) ?_
    intro j hj0 hjlen hjm
    rw [hlen] at hjlen
    unfold siftDown
    exact hP1 j hj0 hjlen hjm (by omega)

theorem heapify_isHeap {α : Type _} {cmp : α → α → Ordering} (hs : SWOrd cmp)
    (data : List (List α)) : IsHeap cmp (heapify cmp data) := by
  unfold heapify
  by_cases hzero : data.length = 0
  · rw [hzero]
    refine heapifyGo_isHeap hs 0 data (Or.inl rfl) ?_
    intro j hj0 hjlen hjm
    omega
  · refine heapifyGo_isHeap hs (data.length / 2) data (by omega) ?_
    intro j hj0 hjlen hjm
    omega

theorem popHeap_isHeap {α : Type _} {cmp : α → α → Ordering} (hs : SWOrd cmp)
    (data : List (List α)) (top : List α) (d2 : List (List α))
    (hheap : IsHeap cmp data) (hpop : popHeap cmp data = some (top, d2)) :
    IsHeap cmp d2 := by
  match data with
  | [] => simp [popHeap] at hpop
  | x :: rest0 =>
    unfold popHeap at hpop
    dsimp only at hpop
    by_cases hre : ((x :: rest0).dropLast).length = 0
    · rw [if_pos hre] at hpop
      simp only [Option.some.injEq, Prod.mk.injEq] at hpop
      obtain ⟨h1, h2⟩ := hpop
      rw [← h2]
      intro j hj0 hjlen
      rw [List.length_eq_zero.mp hre] at hjlen
      simp at hjlen
    · rw [if_neg hre] at hpop
      set rest := (x :: rest0).dropLast with hrestdef
      set item := (x :: rest0).getLastD [] with hitemdef
      set data1 := rest.set 0 item with hdata1def
      set dp := siftDownBottomGo cmp data1.length data1.length 0 data1 with hdpdef
      simp only [Option.some.injEq, Prod.mk.injEq] at hpop
      obtain ⟨htop, hd2⟩ := hpop
      have hrestlen : rest.length + 1 = (x :: rest0).length := by
        rw [hrestdef]
        simp
      have hdata1len : data1.length = rest.length := by
        rw [hdata1def]
        simp
      have hg1 : ∀ k, k ≠ 0 → k < data1.length → gGet [] data1 k = gGet [] (x :: rest0) k := by
        intro k hk0 hklen
        rw [hdata1def, gGet_set_ne [] rest 0 k item (Ne.symm hk0), hrestdef]
        exact gGet_dropLast [] (x :: rest0) k (by omega)
      have hdb := siftDownBottomGo_spec hs data1.length data1.length 0 data1
        rfl (by omega) (by omega)
        (by
          intro j hj0 hjend hjpar hjne
          rw [hg1 j (by omega) hjend, hg1 ((j - 1) / 2) hjpar (by omega)]
          exact hheap j hj0 (by omega))
        (fun h0 => absurd h0 (by omega))
      rw [← hdpdef] at hdb
      obtain ⟨hdb1, hdb2⟩ := hdb
      have hdbperm := siftDownBottomGo_perm cmp data1.length data1.length 0 data1
        (by omega) rfl
      rw [← hdpdef] at hdbperm
      obtain ⟨hdbp, hdbpos⟩ := hdbperm
      have hdplen : dp.1.length = data1.length := hdbp.length_eq
      rw [← hd2]
      refine siftUpGo_spec hs dp.2 dp.2 dp.1 (by omega) (le_refl _) ?_ ?_
      · intro j hj0 hjlen hjne
        rw [hdplen] at hjlen
        exact hdb1 j hj0 hjlen hjne
      · intro hpos0 c hclen hcpar
        rw [hdplen] at hclen
        omega

/-- All runs of the heap are non-decreasing under the comparator. -/
def EntriesSorted {α : Type _} (cmp : α → α → Ordering)
    (data : List (List α)) : Prop :=
  ∀ e ∈ data, List.Chain' (fun a b => cmp a b ≠ .gt) e

theorem chain_head_ne_gt {α : Type _} {cmp : α → α → Ordering} (hs : SWOrd cmp) :
    ∀ (e : List α) (x : α),
      List.Chain' (fun a b => cmp a b ≠ .gt) (x :: e) →
      ∀ y ∈ x :: e, cmp x y ≠ .gt := by
  intro e
  induction e with
  | nil =>
    intro x _ y hy
    simp at hy
    rw [hy, hs.refl_eq]
    simp
  | cons z tl ih =>
    intro x hchain y hy
    rw [List.chain'_cons] at hchain
    obtain ⟨hxz, hztl⟩ := hchain
    rcases List.mem_cons.mp hy with hyx | hyz
    · rw [hyx, hs.refl_eq]
      simp
    · exact hs.le_trans x z y hxz (ih z hztl y hyz)

theorem entry_head_dominates {α : Type _} {cmp : α → α → Ordering}
    (hs : SWOrd cmp) {v : α} {p e : List α} (hp : p.head? = some v)
    (hge : entryGE cmp p e)
    (hchain : List.Chain' (fun a b => cmp a b ≠ .gt) e) :
    ∀ y ∈ e, cmp v y ≠ .gt := by
  intro y hy
  cases e with
  | nil => simp at hy
  | cons he tl =>
    have hhead : entryGE cmp p (he :: tl) := hge
    unfold entryGE at hhead
    rw [hp] at hhead
    simp only [List.head?_cons] at hhead
    exact hs.le_trans v he y hhead (chain_head_ne_gt hs tl he hchain y hy)

theorem riNextGo_step {α : Type _} {cmp : α → α → Ordering} (hs : SWOrd cmp) :
    ∀ fuel data v d2,
      IsHeap cmp data → EntriesSorted cmp data →
      riNextGo cmp fuel data = some (v, d2) →
      IsHeap cmp d2 ∧ EntriesSorted cmp d2 ∧
        (∀ y ∈ d2.flatten, cmp v y ≠ .gt) := by
  intro fuel
  induction fuel with
  | zero =>
    intro data v d2 _ _ h
    simp [riNextGo] at h
  | succ fuel ih =>
    intro data v d2 hheap hsort h
    unfold riNextGo at h
    match data, h with
    | (w :: tl) :: rest, h =>
      simp only [Option.some.injEq, Prod.mk.injEq] at h
      obtain ⟨hv, hd2⟩ := h
      subst hv
      have hset : ((w :: tl) :: rest).set 0 tl = tl :: rest := rfl
      have hlen : 0 < (tl :: rest).length := by simp
      have hedges : ∀ j, 0 < j → j < (tl :: rest).length → (j - 1) / 2 ≠ 0 →
          entryGE cmp (gGet [] (tl :: rest) ((j - 1) / 2))
            (gGet [] (tl :: rest) j) := by
        intro j hj0 hjlen hjpar
        have e1 : gGet [] (tl :: rest) j = gGet [] ((w :: tl) :: rest) j := by
          cases j with
          | zero => omega
          | succ k => rfl
        have e2 : gGet [] (tl :: rest) ((j - 1) / 2)
            = gGet [] ((w :: tl) :: rest) ((j - 1) / 2) := by
          cases hpk : (j - 1) / 2 with
          | zero => exact absurd hpk hjpar
          | succ k => rfl
        rw [e1, e2]
        exact hheap j hj0 (by simpa using hjlen)
      have hheap2 : IsHeap cmp (siftDown cmp (tl :: rest) 0) :=
        siftDown_root_isHeap hs (tl :: rest) hlen hedges
      have hperm : List.Perm (siftDown cmp (tl :: rest) 0) (tl :: rest) :=
        siftDown_perm cmp (tl :: rest) 0 hlen
      have hroot : ∀ j, j < ((w :: tl) :: rest).length →
          entryGE cmp (gGet [] ((w :: tl) :: rest) 0)
            (gGet [] ((w :: tl) :: rest) j) :=
        isHeap_root hs hheap
      refine ⟨by rw [← hd2, hset]; exact hheap2, ?_, ?_⟩
      · intro e he
        rw [← hd2, hset] at he
        have he2 := hperm.mem_iff.mp he
        rcases List.mem_cons.mp he2 with h | h
        · rw [h]
          have := hsort (w :: tl) (by simp)
          exact List.Chain'.tail this
        · exact hsort e (by simp [h])
      · intro y hy
        rw [← hd2, hset] at hy
        have hy2 := (hperm.flatten).mem_iff.mp hy
        rw [List.flatten_cons] at hy2
        rcases List.mem_append.mp hy2 with h | h
        · -- y comes later in the winning run
          have hchain := hsort (w :: tl) (by simp)
          exact chain_head_ne_gt hs tl w hchain y (by simp [h])
        · -- y lives in another run, dominated through the heap root
          obtain ⟨e, he, hye⟩ := List.mem_flatten.mp h
          obtain ⟨i, hi, hie⟩ := List.mem_iff_getElem.mp he
          have hgi : gGet [] ((w :: tl) :: rest) (i + 1) = e := by
            rw [gGet_cons_succ]
            unfold gGet
            rw [List.getElem?_eq_getElem hi, hie]
            rfl
          have hge := hroot (i + 1) (by simpa using Nat.succ_lt_succ hi)
          rw [hgi] at hge
          have hchain := hsort e (by simp [he])
          exact entry_head_dominates hs (by simp [gGet]) hge hchain y hye
    | [] :: rest, h =>
      cases hpop : popHeap cmp ([] :: rest) with
      | none => rw [hpop] at h; simp at h
      | some pr =>
        rw [hpop] at h
        dsimp only at h
        obtain ⟨ptop, dpop⟩ := pr
        obtain ⟨hp1, hp2, hp3⟩ := popHeap_perm cmp ([] :: rest) ptop dpop hpop
        have hheap2 := popHeap_isHeap hs ([] :: rest) ptop dpop hheap hpop
        have hsort2 : EntriesSorted cmp dpop := by
          intro e he
          exact hsort e (hp2.mem_iff.mp (by simp [he]))
        exact ih dpop v d2 hheap2 hsort2 h

theorem riNext_step {α : Type _} {cmp : α → α → Ordering} (hs : SWOrd cmp)
    (data : List (List α)) (v : α) (d2 : List (List α))
    (hheap : IsHeap cmp data) (hsort : EntriesSorted cmp data)
    (h : riNext cmp data = some (v, d2)) :
    IsHeap cmp d2 ∧ EntriesSorted cmp d2 ∧
      (∀ y ∈ d2.flatten, cmp v y ≠ .gt) :=
  riNextGo_step hs (data.length + 1) data v d2 hheap hsort h

theorem riSeqGo_sorted {α : Type _} {cmp : α → α → Ordering} (hs : SWOrd cmp) :
    ∀ fuel data, IsHeap cmp data → EntriesSorted cmp data →
      List.Chain' (fun a b => cmp a b ≠ .gt) (riSeqGo cmp fuel data) := by
  intro fuel
  induction fuel with
  | zero =>
    intro data _ _
    exact List.chain'_nil
  | succ fuel ih =>
    intro data hheap hsort
    unfold riSeqGo
    cases hnext : riNext cmp data with
    | none => exact List.chain'_nil
    | some pr =>
      obtain ⟨v, d2⟩ := pr
      dsimp only
      obtain ⟨hheap2, hsort2, hmin⟩ := riNext_step hs data v d2 hheap hsort hnext
      rw [List.chain'_cons']
      refine ⟨?_, ih d2 hheap2 hsort2⟩
      intro y hy
      cases fuel with
      | zero => simp [riSeqGo] at hy
      | succ fuel =>
        unfold riSeqGo at hy
        cases hnext2 : riNext cmp d2 with
        | none =>
          rw [hnext2] at hy
          simp at hy
        | some pr2 =>
          obtain ⟨v2, d3⟩ := pr2
          rw [hnext2] at hy
          dsimp only at hy
          simp only [List.head?_cons, Option.mem_def, Option.some.injEq] at hy
          obtain ⟨hperm2, _⟩ := riNext_some_perm cmp d2 v2 d3 hnext2
          have hv2mem : v2 ∈ d2.flatten := hperm2.mem_iff.mp (by simp)
          rw [← hy]
          exact hmin v2 hv2mem

/-- Sortedness of the result-iterator output over a well-formed heap of
sorted runs. -/
theorem riSeq_sorted {α : Type _} {cmp : α → α → Ordering} (hs : SWOrd cmp)
    (data : List (List α)) (hheap : IsHeap cmp data)
    (hsort : EntriesSorted cmp data) :
    List.Chain' (fun a b => cmp a b ≠ .gt) (riSeq cmp data) :=
  riSeqGo_sorted hs (heapSize data + data.length) data hheap hsort

/-! ### The sort driver (`ExtSorter::run`, `src/sorter/mod.rs` lines 123–180)

`sort_unstable_by` on a chunk is modelled by an insertion sort over the
orderer's comparator: the claims depend only on the library sort's
contract (sorted output, permutation of the input).  The driver loop
reads `sort_buffer.capacity()`; for zero-sized element types
`Vec::with_capacity(n)` reports a capacity of `usize::MAX`, so the
effective chunk size is `vecCapacity`. -/

/-- Ordered insert under the comparator. -/
def insertCmp {α : Type _} (cmp : α → α → Ordering) (x : α) :
    List α → List α
  | [] => [x]
  | y :: tl =>
    if cmp x y = Ordering.gt then y :: insertCmp cmp x tl else x :: y :: tl

/-- Model of `<[T]>::sort_unstable_by` with the orderer's comparator. -/
def sortRun {α : Type _} (cmp : α → α → Ordering) : List α → List α
  | [] => []
  | x :: tl => insertCmp cmp x (sortRun cmp tl)

theorem insertCmp_perm {α : Type _} (cmp : α → α → Ordering) (x : α) :
    ∀ l : List α, List.Perm (insertCmp cmp x l) (x :: l) := by
  intro l
  induction l with
  | nil => exact List.Perm.refl _
  | cons y tl ih =>
    unfold insertCmp
    by_cases h : cmp x y = Ordering.gt
    · simp only [h, if_true]
      exact (ih.cons y).trans (List.Perm.swap x y tl)
    · simp only [h, if_false]
      exact List.Perm.refl _

theorem insertCmp_pairwise {α : Type _} {cmp : α → α → Ordering}
    (hs : SWOrd cmp) (x : α) :
    ∀ l : List α, List.Pairwise (fun a b => cmp a b ≠ Ordering.gt) l →
      List.Pairwise (fun a b => cmp a b ≠ Ordering.gt) (insertCmp cmp x l) := by
  intro l
  induction l with
  | nil =>
    intro _
    simp [insertCmp]
  | cons y tl ih =>
    intro hp
    rw [List.pairwise_cons] at hp
    obtain ⟨hy, htl⟩ := hp
    unfold insertCmp
    by_cases h : cmp x y = Ordering.gt
    · simp only [h, if_true]
      rw [List.pairwise_cons]
      refine ⟨?_, ih htl⟩
      intro z hz
      have hz2 := (insertCmp_perm cmp x tl).mem_iff.mp hz
      rcases List.mem_cons.mp hz2 with h1 | h1
      · rw [h1, hs.lt_of_gt h]
        simp
      · exact hy z h1
    · simp only [h, if_false]
      rw [List.pairwise_cons]
      refine ⟨?_, List.pairwise_cons.mpr ⟨hy, htl⟩⟩
      intro z hz
      rcases List.mem_cons.mp hz with h1 | h1
      · rw [h1]
        exact h
      · exact hs.le_trans x y z h (hy z h1)

theorem sortRun_perm {α : Type _} (cmp : α → α → Ordering) :
    ∀ l : List α, List.Perm (sortRun cmp l) l := by
  intro l
  induction l with
  | nil => exact List.Perm.refl _
  | cons x tl ih =>
    unfold sortRun
    exact (insertCmp_perm cmp x (sortRun cmp tl)).trans (ih.cons x)

theorem sortRun_pairwise {α : Type _} {cmp : α → α → Ordering}
    (hs : SWOrd cmp) :
    ∀ l : List α,
      List.Pairwise (fun a b => cmp a b ≠ Ordering.gt) (sortRun cmp l) := by
  intro l
  induction l with
  | nil => simp [sortRun]
  | cons x tl ih =>
    unfold sortRun
    exact insertCmp_pairwise hs x (sortRun cmp tl) ih

theorem sortRun_chain {α : Type _} {cmp : α → α → Ordering} (hs : SWOrd cmp)
    (l : List α) :
    List.Chain' (fun a b => cmp a b ≠ Ordering.gt) (sortRun cmp l) :=
  (sortRun_pairwise hs l).chain'

/-- `usize::MAX` on the 64-bit targets the crate assumes. -/
def usizeMax : Nat := 2 ^ 64 - 1

/-- Runtime `capacity()` of the `Vec` returned by
`Vec::with_capacity(requested)` for an element of size `tSize`:
`usize::MAX` for zero-sized types, else the requested count. -/
def vecCapacity (tSize requested : Nat) : Nat :=
  if tSize = 0 then usizeMax else requested

/-- The main loop of `ExtSorter::run` (`src/sorter/mod.rs` lines
139–166): fill the sort buffer from the source and either finish on a
short read — fast path if nothing was flushed yet, final spill of a
non-empty residue otherwise — or spill the full buffer and repeat.
Returns the run list handed to `ResultIterator::new` plus the
`any_buffer_was_flushed` flag; `clean_buffer` is sort-then-`add_run`
(a tape write), and the fast path wraps the sorted residual buffer as
the single in-memory run (`create_buffer_run`). -/
def driverGo {α : Type _} (cmp : α → α → Ordering) (cap : Nat) :
    Nat → List α → Bool → List (List α) → Option (List (List α) × Bool)
  | 0, _, _, _ => none
  | fuel + 1, source, flushed, runs =>
    if (source.take cap).length < cap then
      match flushed with
      | false => some ([sortRun cmp (source.take cap)], false)
      | true =>
        if (source.take cap).isEmpty then some (runs, true)
        else some (runs ++ [sortRun cmp (source.take cap)], true)
    else
      driverGo cmp cap fuel (source.drop cap) true
        (runs ++ [sortRun cmp (source.take cap)])

/-- `ExtSorter::run` up to the construction of the result iterator:
the runs that seed it, and whether any buffer was flushed to disk. -/
def extsortOut {α : Type _} (cmp : α → α → Ordering) (cap : Nat)
    (source : List α) : List (List α) × Bool :=
  (driverGo cmp cap (source.length + 1) source false []).getD ([], false)

/-- The full output sequence of the sort: the runs are collected into
the `BinaryHeap` (a heapify) and drained by successive `next` calls. -/
def extsortSeq {α : Type _} (cmp : α → α → Ordering) (cap : Nat)
    (source : List α) : List α :=
  riSeq cmp (heapify cmp (extsortOut cmp cap source).1)

theorem driverGo_spec {α : Type _} (cmp : α → α → Ordering) (cap : Nat)
    (hcap : 0 < cap) :
    ∀ fuel (source : List α) flushed runs,
      source.length < fuel → (flushed = false → runs = []) →
      ∃ runs2 spilled,
        driverGo cmp cap fuel source flushed runs = some (runs2, spilled) ∧
        List.Perm runs2.flatten (runs.flatten ++ source) ∧
        (∀ e ∈ runs2, e ∈ runs ∨ ∃ c, e = sortRun cmp c) := by
  intro fuel
  induction fuel with
  | zero =>
    intro source flushed runs h _
    omega
  | succ fuel ih =>
    intro source flushed runs hlen hinv
    by_cases hshort : (source.take cap).length < cap
    · have hsrc : source.take cap = source := by
        apply List.take_of_length_le
        rw [List.length_take] at hshort
        omega
      cases flushed with
      | false =>
        have hruns := hinv rfl
        subst hruns
        refine ⟨[sortRun cmp source], false, ?_, ?_, ?_⟩
        · unfold driverGo
          rw [if_pos hshort, hsrc]
        · simp only [List.flatten_cons, List.flatten_nil, List.append_nil,
            List.nil_append]
          exact sortRun_perm cmp source
        · intro e he
          simp only [List.mem_singleton] at he
          exact Or.inr ⟨source, he⟩
      | true =>
        by_cases hemp : (source.take cap).isEmpty
        · have hnil : source = [] := by
            rw [hsrc] at hemp
            exact List.isEmpty_iff.mp hemp
          refine ⟨runs, true, ?_, ?_, ?_⟩
          · unfold driverGo
            rw [if_pos hshort]
            dsimp only
            rw [if_pos hemp]
          · rw [hnil, List.append_nil]
          · intro e he
            exact Or.inl he
        · refine ⟨runs ++ [sortRun cmp source], true, ?_, ?_, ?_⟩
          · unfold driverGo
            rw [if_pos hshort]
            dsimp only
            rw [if_neg hemp, hsrc]
          · rw [List.flatten_append]
            simp only [List.flatten_cons, List.flatten_nil, List.append_nil]
            exact List.Perm.append_left runs.flatten (sortRun_perm cmp source)
          · intro e he
            rcases List.mem_append.mp he with h1 | h1
            · exact Or.inl h1
            · simp only [List.mem_singleton] at h1
              exact Or.inr ⟨source, h1⟩
    · have hcaple : cap ≤ source.length := by
        rw [List.length_take] at hshort
        omega
      have hlen2 : (source.drop cap).length < fuel := by
        rw [List.length_drop]
        omega
      obtain ⟨runs2, spilled, heq, hperm, hprov⟩ :=
        ih (source.drop cap) true (runs ++ [sortRun cmp (source.take cap)])
          hlen2 (fun h => nomatch h)
      refine ⟨runs2, spilled, ?_, ?_, ?_⟩
      · unfold driverGo
        rw [if_neg hshort]
        exact heq
      · rw [List.flatten_append] at hperm
        simp only [List.flatten_cons, List.flatten_nil, List.append_nil] at hperm
        rw [List.append_assoc] at hperm
        have h2 : List.Perm (sortRun cmp (source.take cap) ++ source.drop cap)
            (source.take cap ++ source.drop cap) :=
          List.Perm.append_right (source.drop cap)
            (sortRun_perm cmp (source.take cap))
        have h3 := List.Perm.append_left runs.flatten h2
        rw [List.take_append_drop] at h3
        exact hperm.trans h3
      · intro e he
        rcases hprov e he with h1 | h1
        · rcases List.mem_append.mp h1 with h2 | h2
          · exact Or.inl h2
          · simp only [List.mem_singleton] at h2
            exact Or.inr ⟨source.take cap, h2⟩
        · exact Or.inr h1

theorem extsortOut_spec {α : Type _} (cmp : α → α → Ordering) (cap : Nat)
    (hcap : 0 < cap) (source : List α) :
    List.Perm (extsortOut cmp cap source).1.flatten source ∧
    ∀ e ∈ (extsortOut cmp cap source).1, ∃ c, e = sortRun cmp c := by
  obtain ⟨runs2, spilled, heq, hperm, hprov⟩ :=
    driverGo_spec cmp cap hcap (source.length + 1) source false []
      (by omega) (fun _ => rfl)
  unfold extsortOut
  rw [heq, Option.getD_some]
  constructor
  · simpa using hperm
  · intro e he
    rcases hprov e he with h | h
    · simp at h
    · exact h

theorem extsort_fastPath {α : Type _} (cmp : α → α → Ordering) (cap : Nat)
    (source : List α) (h : source.length < cap) :
    extsortOut cmp cap source = ([sortRun cmp source], false) := by
  have hsrc : source.take cap = source := List.take_of_length_le (le_of_lt h)
  unfold extsortOut driverGo
  rw [hsrc, if_pos h]
  rfl

theorem heapify_entries_sorted {α : Type _} {cmp : α → α → Ordering}
    (hs : SWOrd cmp) (runs : List (List α))
    (hruns : ∀ e ∈ runs, ∃ c, e = sortRun cmp c) :
    EntriesSorted cmp (heapify cmp runs) := by
  intro e he
  obtain ⟨c, hc⟩ := hruns e ((heapify_perm cmp runs).mem_iff.mp he)
  rw [hc]
  exact sortRun_chain hs c

/-- A concrete comparator on `Nat` for witnesses. -/
def natOrd (a b : Nat) : Ordering :=
  if a < b then Ordering.lt else if b < a then Ordering.gt else Ordering.eq

theorem natOrd_swOrd : SWOrd natOrd := by
  constructor
  · intro a b
    unfold natOrd
    split_ifs <;> first | rfl | omega
  · intro a b c hab hbc
    unfold natOrd at *
    split_ifs at * <;> first | omega | simp_all

/-- C1: for every finite input and every strict-weak-order comparator,
the sequence yielded by successive `next` calls on the result iterator
returned by the sort is non-decreasing under that comparator. -/
theorem extsort_output_sorted {α : Type _} {cmp : α → α → Ordering}
    (hs : SWOrd cmp) (cap : Nat) (hcap : 0 < cap) (source : List α) :
    List.Chain' (fun a b => cmp a b ≠ Ordering.gt)
      (extsortSeq cmp cap source) := by
  unfold extsortSeq
  exact riSeq_sorted hs _ (heapify_isHeap hs _)
    (heapify_entries_sorted hs _ (extsortOut_spec cmp cap hcap source).2)

theorem extsort_output_sorted_witness :
    SWOrd natOrd ∧ 0 < 2 ∧
    extsortSeq natOrd 2 [5, 3, 4, 1, 2] = [1, 2, 3, 4, 5] ∧
    List.Chain' (fun a b => natOrd a b ≠ Ordering.gt)
      (extsortSeq natOrd 2 [5, 3, 4, 1, 2]) :=
  ⟨natOrd_swOrd, by decide, by decide,
    extsort_output_sorted natOrd_swOrd 2 (by decide) [5, 3, 4, 1, 2]⟩

/-- C2: the multiset yielded by the result iterator equals the input
multiset — no element duplicated, none lost. -/
theorem extsort_output_perm {α : Type _} (cmp : α → α → Ordering)
    (cap : Nat) (hcap : 0 < cap) (source : List α) :
    List.Perm (extsortSeq cmp cap source) source := by
  unfold extsortSeq
  exact (riSeq_perm cmp _).trans
    (((heapify_perm cmp _).flatten).trans (extsortOut_spec cmp cap hcap source).1)

theorem extsort_output_perm_witness :
    0 < 2 ∧ List.Perm (extsortSeq natOrd 2 [4, 4, 1, 0]) [4, 4, 1, 0] :=
  ⟨by decide, extsort_output_perm natOrd 2 (by decide) [4, 4, 1, 0]⟩

/-- C3: the reported remaining length is the sum of per-run remaining
counts, equals the number of `next` calls needed to exhaust the
iterator from any heap state, and drops by exactly 1 per yielded
element. -/
theorem resultIterator_length_accurate {α : Type _}
    (cmp : α → α → Ordering) (data : List (List α)) :
    (riSeq cmp data).length = heapSize data ∧
    heapSize data = (data.map List.length).sum ∧
    ∀ v d2, riNext cmp data = some (v, d2) →
      heapSize d2 + 1 = heapSize data := by
  refine ⟨riSeq_length cmp data, rfl, ?_⟩
  intro v d2 h
  have hlen := (riNext_some_perm cmp data v d2 h).1.length_eq
  simp only [List.length_cons] at hlen
  rw [heapSize_flatten, heapSize_flatten]
  omega

theorem resultIterator_length_accurate_witness :
    (riSeq natOrd [[1, 2], [3]]).length = 3 := by
  have h := resultIterator_length_accurate natOrd [[1, 2], [3]]
  rw [h.1]
  decide

/-- C4 counterexample: an input of exactly `B` elements (here `B = 1`)
fits in the sort buffer, yet the driver spills it to a temp file — the
fast path is taken only on a strictly short final read. -/
theorem noSpill_boundary_counterexample :
    [5].length ≤ 1 ∧ (extsortOut natOrd 1 [5]).2 = true := by
  decide

/-- C4 (amended): for inputs strictly shorter than the buffer
capacity no buffer is ever flushed — no temp file is created — and the
driver returns the residual buffer, sorted in place, as the single
in-memory pseudo-run. -/
theorem noSpill_fast_path {α : Type _} (cmp : α → α → Ordering)
    (cap : Nat) (source : List α) (h : source.length < cap) :
    (extsortOut cmp cap source).2 = false ∧
    (extsortOut cmp cap source).1 = [sortRun cmp source] := by
  rw [extsort_fastPath cmp cap source h]
  exact ⟨rfl, rfl⟩

theorem noSpill_fast_path_witness :
    [3, 1].length < 3 ∧
    ((extsortOut natOrd 3 [3, 1]).2 = false ∧
      (extsortOut natOrd 3 [3, 1]).1 = [sortRun natOrd [3, 1]]) :=
  ⟨by decide, noSpill_fast_path natOrd 3 [3, 1] (by decide)⟩

/-- C6: for zero-sized elements the sort buffer's `Vec` reports
capacity `usize::MAX`, so every realizable input length stays on the
in-memory fast path: nothing is flushed to disk and all `n` elements
are yielded. -/
theorem zst_no_io (cmp : Unit → Unit → Ordering) (source : List Unit)
    (h : source.length < usizeMax) :
    (extsortOut cmp
        (vecCapacity 0 (getNumItemsFor ExtsortConfig.defaultConfig 0))
        source).2 = false ∧
    (extsortSeq cmp
        (vecCapacity 0 (getNumItemsFor ExtsortConfig.defaultConfig 0))
        source).length = source.length := by
  have hfast : extsortOut cmp
      (vecCapacity 0 (getNumItemsFor ExtsortConfig.defaultConfig 0)) source
      = ([sortRun cmp source], false) := by
    apply extsort_fastPath
    show source.length < vecCapacity 0 _
    unfold vecCapacity
    simpa using h
  refine ⟨by rw [hfast], ?_⟩
  unfold extsortSeq
  rw [hfast]
  dsimp only
  rw [riSeq_length, heapSize_flatten,
    ((heapify_perm cmp [sortRun cmp source]).flatten).length_eq]
  simp [(sortRun_perm cmp source).length_eq]

theorem zst_no_io_witness :
    [(), (), ()].length < usizeMax ∧
    ((extsortOut (fun _ _ => Ordering.eq)
        (vecCapacity 0 (getNumItemsFor ExtsortConfig.defaultConfig 0))
        [(), (), ()]).2 = false ∧
      (extsortSeq (fun _ _ => Ordering.eq)
        (vecCapacity 0 (getNumItemsFor ExtsortConfig.defaultConfig 0))
        [(), (), ()]).length = 3) :=
  ⟨by decide, zst_no_io (fun _ _ => Ordering.eq) [(), (), ()] (by decide)⟩

/-! ### The loser-tree k-way merger (`src/merge/`)

Tapes are modelled as lists (the `Run` cursor semantics verified for
`ExternalRun` above: `peek` is `head?`, `next` is uncons); the
`loser_indices` array and the implicit tree are as in
`src/merge/treebuilder.rs` and `src/merge/array_node.rs`. -/

/-- `usize::is_power_of_two`. -/
def isPowTwo (n : Nat) : Bool :=
  n != 0 && previousPowerOfTwo n == n

/-- `usize::next_power_of_two` (for the arguments the builder uses). -/
def nextPowerOfTwo (n : Nat) : Nat :=
  if n ≤ 1 then 1
  else if previousPowerOfTwo n = n then n
  else 2 * previousPowerOfTwo n

/-- `compare_winners` (`src/merge/mod.rs` lines 37–49): compare two
tape indices by their heads; an exhausted tape sorts after
everything. -/
def compareWinners {α : Type _} (cmp : α → α → Ordering)
    (tapes : List (List α)) (l r : Nat) : Ordering :=
  match (gGet [] tapes l).head?, (gGet [] tapes r).head? with
  | some a, some b => cmp a b
  | some _, none => Ordering.lt
  | none, some _ => Ordering.gt
  | none, none => Ordering.eq

/-- `LoserTreeBuilder::commit_winner`: the `is_le` side wins, the
loser index is stored at the root node. -/
def commitWinner (cmpW : Nat → Nat → Ordering) (a b root : Nat)
    (lt : List Nat) : Nat × List Nat :=
  match cmpW a b with
  | Ordering.gt => (b, lt.set root a)
  | _ => (a, lt.set root b)

/-- `LoserTreeBuilder::build_tree_perfect` over the range `[lo, hi)`
rooted at `root`; ranges are split in half.  `fuel` bounds the
recursion depth. -/
def buildPerfect (cmpW : Nat → Nat → Ordering) :
    Nat → Nat → Nat → Nat → List Nat → Nat × List Nat
  | 0, lo, _, _, lt => (lo, lt)
  | fuel + 1, lo, hi, root, lt =>
    if hi - lo = 1 then (lo, lt)
    else
      commitWinner cmpW
        (buildPerfect cmpW fuel lo (lo + (hi - lo) / 2) (2 * root + 1) lt).1
        (buildPerfect cmpW fuel (lo + (hi - lo) / 2) hi (2 * root + 2)
          (buildPerfect cmpW fuel lo (lo + (hi - lo) / 2)
            (2 * root + 1) lt).2).1
        root
        (buildPerfect cmpW fuel (lo + (hi - lo) / 2) hi (2 * root + 2)
          (buildPerfect cmpW fuel lo (lo + (hi - lo) / 2)
            (2 * root + 1) lt).2).2

/-- `LoserTreeBuilder::build_tree_complete`: non-power-of-two ranges
are split so one side is a perfect tree of half the (rounded-up)
level. -/
def buildComplete (cmpW : Nat → Nat → Ordering) :
    Nat → Nat → Nat → Nat → List Nat → Nat × List Nat
  | 0, lo, _, _, lt => (lo, lt)
  | fuel + 1, lo, hi, root, lt =>
    if isPowTwo (hi - lo) then buildPerfect cmpW (fuel + 1) lo hi root lt
    else
      if (hi - lo - nextPowerOfTwo (hi - lo) / 2) * 2
          ≥ nextPowerOfTwo (hi - lo) / 2 then
        commitWinner cmpW
          (buildPerfect cmpW fuel lo (lo + nextPowerOfTwo (hi - lo) / 2)
            (2 * root + 1) lt).1
          (buildComplete cmpW fuel (lo + nextPowerOfTwo (hi - lo) / 2) hi
            (2 * root + 2)
            (buildPerfect cmpW fuel lo (lo + nextPowerOfTwo (hi - lo) / 2)
              (2 * root + 1) lt).2).1
          root
          (buildComplete cmpW fuel (lo + nextPowerOfTwo (hi - lo) / 2) hi
            (2 * root + 2)
            (buildPerfect cmpW fuel lo (lo + nextPowerOfTwo (hi - lo) / 2)
              (2 * root + 1) lt).2).2
      else
        commitWinner cmpW
          (buildComplete cmpW fuel lo
            (lo + (hi - lo - nextPowerOfTwo (hi - lo) / 2 / 2))
            (2 * root + 1) lt).1
          (buildPerfect cmpW fuel
            (lo + (hi - lo - nextPowerOfTwo (hi - lo) / 2 / 2)) hi
            (2 * root + 2)
            (buildComplete cmpW fuel lo
              (lo + (hi - lo - nextPowerOfTwo (hi - lo) / 2 / 2))
              (2 * root + 1) lt).2).1
          root
          (buildPerfect cmpW fuel
            (lo + (hi - lo - nextPowerOfTwo (hi - lo) / 2 / 2)) hi
            (2 * root + 2)
            (buildComplete cmpW fuel lo
              (lo + (hi - lo - nextPowerOfTwo (hi - lo) / 2 / 2))
              (2 * root + 1) lt).2).2

/-- `LoserTreeBuilder::build`: grow the loser array to `n - 1` zeroes
if needed, then build over the full range from the root. -/
def buildTree (cmpW : Nat → Nat → Ordering) (n : Nat) (lt : List Nat) :
    Nat × List Nat :=
  buildComplete cmpW (n + 1) 0 n 0
    (if lt.length < n - 1 then List.replicate (n - 1) 0 else lt)

/-- `LoserTree` state: the loser array, the tape vector, the current
winner leaf and the live-tape count. -/
structure LoserTree (α : Type _) where
  loserIndices : List Nat
  tapes : List (List α)
  winner : Nat
  remainingTapes : Nat
deriving Repr, DecidableEq

/-- `LoserTree::rebuild_tree`: drop exhausted tapes, rebuild the loser
array when more than one tape remains. -/
def rebuildTree {α : Type _} (cmp : α → α → Ordering) (st : LoserTree α) :
    LoserTree α :=
  if 1 < (st.tapes.filter (fun t => !t.isEmpty)).length then
    { loserIndices :=
        (buildTree (compareWinners cmp (st.tapes.filter (fun t => !t.isEmpty)))
          (st.tapes.filter (fun t => !t.isEmpty)).length st.loserIndices).2,
      tapes := st.tapes.filter (fun t => !t.isEmpty),
      winner :=
        (buildTree (compareWinners cmp (st.tapes.filter (fun t => !t.isEmpty)))
          (st.tapes.filter (fun t => !t.isEmpty)).length st.loserIndices).1,
      remainingTapes := (st.tapes.filter (fun t => !t.isEmpty)).length }
  else
    { loserIndices := st.loserIndices,
      tapes := st.tapes.filter (fun t => !t.isEmpty),
      winner := 0,
      remainingTapes := (st.tapes.filter (fun t => !t.isEmpty)).length }

/-- `LoserTree::new`. -/
def ltNew {α : Type _} (cmp : α → α → Ordering) (tapes : List (List α)) :
    LoserTree α :=
  rebuildTree cmp
    { loserIndices := [], tapes := tapes, winner := 0,
      remainingTapes := tapes.length }

/-- The loop of `LoserTree::replay_matches`, walking from `node` to
the root: a strictly smaller stored challenger takes over and the old
winner is stored as the loser. -/
def replayGo (cmpW : Nat → Nat → Ordering) :
    Nat → Nat → Nat → List Nat → Nat × List Nat
  | 0, winner, _, lt => (winner, lt)
  | fuel + 1, winner, node, lt =>
    if cmpW (gGet 0 lt node) winner = Ordering.lt then
      if node = 0 then (gGet 0 lt node, lt.set node winner)
      else replayGo cmpW fuel (gGet 0 lt node) ((node - 1) / 2)
        (lt.set node winner)
    else
      if node = 0 then (winner, lt)
      else replayGo cmpW fuel winner ((node - 1) / 2) lt

/-- `LoserTree::replay_matches` from the previous winner's implicit
leaf position. -/
def replayMatches {α : Type _} (cmp : α → α → Ordering)
    (st : LoserTree α) (prev : Nat) : Nat × List Nat :=
  replayGo (compareWinners cmp st.tapes)
    ((leafForWinner prev st.tapes.length - 1) / 2 + 1) prev
    ((leafForWinner prev st.tapes.length - 1) / 2) st.loserIndices

/-- `LoserTree::remove_winner`: drop the count; rebuild once the live
count falls to the previous power of two, else replay past the
exhausted tape. -/
def removeWinner {α : Type _} (cmp : α → α → Ordering)
    (st : LoserTree α) (prev : Nat) : LoserTree α :=
  if st.remainingTapes - 1 ≤ previousPowerOfTwo (st.tapes.length - 1) then
    rebuildTree cmp { st with remainingTapes := st.remainingTapes - 1 }
  else
    { st with
      remainingTapes := st.remainingTapes - 1,
      winner := (replayMatches cmp st prev).1,
      loserIndices := (replayMatches cmp st prev).2 }

/-- `LoserTree::next` (`src/merge/mod.rs` lines 81–104). -/
def ltNext {α : Type _} (cmp : α → α → Ordering) (st : LoserTree α) :
    Option (α × LoserTree α) :=
  if st.tapes.length ≤ 1 then
    match st.tapes with
    | [] => none
    | [] :: _ => none
    | (v :: tl) :: rest => some (v, { st with tapes := tl :: rest })
  else
    match gGet [] st.tapes st.winner with
    | [] => none
    | v :: tl =>
      if tl.isEmpty then
        some (v, removeWinner cmp
          { st with tapes := st.tapes.set st.winner tl } st.winner)
      else
        some (v,
          { st with
            tapes := st.tapes.set st.winner tl,
            winner := (replayMatches cmp
              { st with tapes := st.tapes.set st.winner tl } st.winner).1,
            loserIndices := (replayMatches cmp
              { st with tapes := st.tapes.set st.winner tl }
                st.winner).2 })

/-- Unfold the loser tree to its full output sequence. -/
def ltSeqGo {α : Type _} (cmp : α → α → Ordering) :
    Nat → LoserTree α → List α
  | 0, _ => []
  | fuel + 1, st =>
    match ltNext cmp st with
    | none => []
    | some (v, st2) => v :: ltSeqGo cmp fuel st2

/-- The full output sequence of `LoserTree::new(tapes).next()*`. -/
def loserTreeSeq {α : Type _} (cmp : α → α → Ordering)
    (tapes : List (List α)) : List α :=
  ltSeqGo cmp (heapSize tapes + 1) (ltNew cmp tapes)

/-- A comparator on pairs that orders by first component only:
a strict weak order with ties. -/
def pairOrd (a b : Nat × Nat) : Ordering :=
  natOrd a.1 b.1

theorem natOrd_antisymm : ∀ a b : Nat, natOrd a b = Ordering.eq → a = b := by
  intro a b h
  unfold natOrd at h
  split_ifs at h
  omega

/-- C10 counterexample: over the sorted singleton runs `[(0,0)]`,
`[(0,1)]`, `[(0,2)]` and the first-component comparator, the
binary-heap result iterator yields `[(0,0), (0,2), (0,1)]` while the
loser tree yields `[(0,0), (0,1), (0,2)]`: the two mergers order tied
elements differently. -/
theorem heap_loserTree_counterexample :
    (∀ e ∈ [[((0 : Nat), (0 : Nat))], [(0, 1)], [(0, 2)]],
      List.Pairwise (fun a b => pairOrd a b ≠ Ordering.gt) e) ∧
    riSeq pairOrd (heapify pairOrd [[(0, 0)], [(0, 1)], [(0, 2)]])
      ≠ loserTreeSeq pairOrd [[(0, 0)], [(0, 1)], [(0, 2)]] := by
  decide

/-! ### Loser-tree correctness: power-of-two arithmetic -/

theorem bitLen_pos (n : Nat) (h : 0 < n) : 0 < bitLen n := by
  rcases Nat.eq_zero_or_pos (bitLen n) with hz | hp
  · have hb := (bitLen_bounds n h).2
    rw [hz] at hb
    simp at hb
    omega
  · exact hp

theorem pp2_pos (n : Nat) : 0 < previousPowerOfTwo n :=
  pow_pos (by norm_num) _

theorem pp2_le (n : Nat) (h : 0 < n) : previousPowerOfTwo n ≤ n :=
  (bitLen_bounds n h).1

theorem lt_two_pp2 (n : Nat) (h : 0 < n) : n < 2 * previousPowerOfTwo n := by
  have hb := (bitLen_bounds n h).2
  have hp := bitLen_pos n h
  unfold previousPowerOfTwo
  have h2 : 2 * 2 ^ (bitLen n - 1) = 2 ^ (bitLen n - 1 + 1) :=
    (pow_succ' 2 _).symm
  have h3 : bitLen n - 1 + 1 = bitLen n := by omega
  rw [h3] at h2
  omega

theorem pp2_unique (m k : Nat) (h1 : 2 ^ k ≤ m) (h2 : m < 2 ^ (k + 1)) :
    previousPowerOfTwo m = 2 ^ k := by
  have hm : 0 < m := lt_of_lt_of_le (pow_pos (by norm_num) k) h1
  obtain ⟨hl, hr⟩ := bitLen_bounds m hm
  have hbp := bitLen_pos m hm
  unfold previousPowerOfTwo
  congr 1
  have hklt : k < bitLen m := by
    by_contra hc
    push_neg at hc
    have := Nat.pow_le_pow_right (show 0 < 2 by norm_num) hc
    omega
  have hble : bitLen m - 1 ≤ k := by
    by_contra hc
    push_neg at hc
    have hks : k + 1 ≤ bitLen m - 1 := hc
    have := Nat.pow_le_pow_right (show 0 < 2 by norm_num) hks
    omega
  omega

theorem pp2_pow (k : Nat) : previousPowerOfTwo (2 ^ k) = 2 ^ k :=
  pp2_unique _ k le_rfl (Nat.pow_lt_pow_right (by norm_num) (Nat.lt_succ_self k))

theorem isPowTwo_iff (m : Nat) :
    isPowTwo m = true ↔ m ≠ 0 ∧ previousPowerOfTwo m = m := by
  unfold isPowTwo
  simp [Bool.and_eq_true, bne_iff_ne, beq_iff_eq]

theorem nextPowerOfTwo_eq (m : Nat) (h2 : 2 ≤ m)
    (hnp : previousPowerOfTwo m ≠ m) :
    nextPowerOfTwo m = 2 * previousPowerOfTwo m := by
  unfold nextPowerOfTwo
  rw [if_neg (by omega), if_neg hnp]

/-- A non-power-of-two `m ≥ 2` is at least 3, and its previous power
of two is a proper power `2 ^ (k + 1)` with
`2 ^ (k + 1) < m < 2 ^ (k + 2)`. -/
theorem pp2_nonpow (m : Nat) (h2 : 2 ≤ m)
    (hnp : previousPowerOfTwo m ≠ m) :
    ∃ k, previousPowerOfTwo m = 2 ^ (k + 1) ∧
      2 ^ (k + 1) < m ∧ m < 2 ^ (k + 2) := by
  have hm : 0 < m := by omega
  have hle := pp2_le m hm
  have hlt := lt_two_pp2 m hm
  have hbp := bitLen_pos m hm
  have hb2 : 2 ≤ bitLen m := by
    by_contra hc
    push_neg at hc
    have h1 : bitLen m = 1 := by omega
    have hb := (bitLen_bounds m hm).2
    rw [h1] at hb
    omega
  refine ⟨bitLen m - 2, ?_, ?_, ?_⟩
  · unfold previousPowerOfTwo
    congr 1
    omega
  · have : previousPowerOfTwo m < m := lt_of_le_of_ne hle hnp
    unfold previousPowerOfTwo at this
    have he : bitLen m - 2 + 1 = bitLen m - 1 := by omega
    rw [he]
    exact this
  · have hb := (bitLen_bounds m hm).2
    have he : bitLen m - 2 + 2 = bitLen m := by omega
    rw [he]
    exact hb

/-! ### Loser-tree correctness: local leaf placement

`leafLocal r m q` is the implicit-tree node at which the builder's
recursion, working on a subtree of `m` leaves rooted at node `r`,
places the `q`-th leaf of that subtree.  At the root it coincides with
`TreeNode::leaf_for_winner`, and it is preserved by both range splits
of `build_tree_complete`. -/

def leafLocal (r m q : Nat) : Nat :=
  if q < 2 * (m - previousPowerOfTwo m) then
    (r + 1) * (2 * previousPowerOfTwo m) - 1 + q
  else
    (r + 1) * previousPowerOfTwo m - 1 + (q - (m - previousPowerOfTwo m))

theorem leafForWinner_eq (q m : Nat) :
    leafForWinner q m =
      if q < (m - previousPowerOfTwo m) * 2 then
        previousPowerOfTwo m * 2 - 1 + q
      else
        previousPowerOfTwo m - 1 - (m - previousPowerOfTwo m) * 2 / 2 + q :=
  rfl

theorem leafLocal_zero (m q : Nat) (hm : 0 < m) (hq : q < m) :
    leafLocal 0 m q = leafForWinner q m := by
  have hle := pp2_le m hm
  have hlt := lt_two_pp2 m hm
  have hpos := pp2_pos m
  rw [leafForWinner_eq]
  unfold leafLocal
  split_ifs with h1 h2 h2 <;> omega

theorem leafLocal_singleton (r : Nat) : leafLocal r 1 0 = r := by
  unfold leafLocal
  have h1 : previousPowerOfTwo 1 = 1 := pp2_pow 0
  rw [h1]
  simp

/-- The global leaf positions lie in `[m - 1, 2 * m - 2]`. -/
theorem leafLocal_zero_range (m q : Nat) (h2 : 2 ≤ m) (hq : q < m) :
    m - 1 ≤ leafLocal 0 m q ∧ leafLocal 0 m q ≤ 2 * m - 2 := by
  have hm : 0 < m := by omega
  have hle := pp2_le m hm
  have hlt := lt_two_pp2 m hm
  have hpos := pp2_pos m
  unfold leafLocal
  split_ifs with h <;> omega

/-- Split identity, `perfect_tree_left` case, left (perfect) child. -/
theorem leafLocal_A_left (r k m q : Nat)
    (hF : previousPowerOfTwo m = 2 ^ (k + 1))
    (hA : 2 ^ (k + 1) ≤ 2 * (m - 2 ^ (k + 1)))
    (hq : q < 2 ^ (k + 1)) :
    leafLocal (2 * r + 1) (2 ^ (k + 1)) q = leafLocal r m q := by
  have hk1 : 1 ≤ (2 : Nat) ^ (k + 1) := Nat.one_le_two_pow
  unfold leafLocal
  rw [pp2_pow (k + 1), hF]
  rw [if_neg (by omega), if_pos (by omega)]
  have e : (2 * r + 1 + 1) * 2 ^ (k + 1)
      = (r + 1) * (2 * 2 ^ (k + 1)) := by ring
  have hpos1 : 0 < (2 * r + 1 + 1) * 2 ^ (k + 1) := by positivity
  set P1 := (2 * r + 1 + 1) * 2 ^ (k + 1) with hP1
  set P2 := (r + 1) * (2 * 2 ^ (k + 1)) with hP2
  omega

/-- Split identity, `perfect_tree_left` case, right (complete) child. -/
theorem leafLocal_A_right (r k m q : Nat)
    (hF : previousPowerOfTwo m = 2 ^ (k + 1))
    (hmlt : m < 2 ^ (k + 2))
    (hmgt : 2 ^ (k + 1) < m)
    (hA : 2 ^ (k + 1) ≤ 2 * (m - 2 ^ (k + 1)))
    (hq : q < m - 2 ^ (k + 1)) :
    leafLocal (2 * r + 2) (m - 2 ^ (k + 1)) q
      = leafLocal r m (2 ^ (k + 1) + q) := by
  have hp1 : (2 : Nat) ^ (k + 1) = 2 * 2 ^ k := by ring
  have hp2 : (2 : Nat) ^ (k + 2) = 2 * 2 ^ (k + 1) := by ring
  have hk1 : 1 ≤ (2 : Nat) ^ k := Nat.one_le_two_pow
  have hm' : previousPowerOfTwo (m - 2 ^ (k + 1)) = 2 ^ k :=
    pp2_unique _ k (by omega) (by omega)
  unfold leafLocal
  rw [hm', hF]
  by_cases hc : q < 2 * (m - 2 ^ (k + 1) - 2 ^ k)
  · rw [if_pos hc, if_pos (by omega)]
    have e : (2 * r + 2 + 1) * (2 * 2 ^ k)
        = (r + 1) * (2 * 2 ^ (k + 1)) + 2 * 2 ^ k := by ring
    have hpos2 : 0 < (r + 1) * (2 * 2 ^ (k + 1)) := by positivity
    set P1 := (2 * r + 2 + 1) * (2 * 2 ^ k) with hP1
    set P2 := (r + 1) * (2 * 2 ^ (k + 1)) with hP2
    omega
  · rw [if_neg hc, if_neg (by omega)]
    have e : (2 * r + 2 + 1) * 2 ^ k + 2 ^ k
        = (r + 1) * 2 ^ (k + 1) + 2 ^ (k + 1) := by ring
    have hpos2 : 0 < (r + 1) * 2 ^ (k + 1) := by positivity
    set P1 := (2 * r + 2 + 1) * 2 ^ k with hP1
    set P2 := (r + 1) * 2 ^ (k + 1) with hP2
    omega

/-- Split identity, non-`perfect_tree_left` case, left (complete)
child. -/
theorem leafLocal_B_left (r k m q : Nat)
    (hF : previousPowerOfTwo m = 2 ^ (k + 1))
    (hmlt : m < 2 ^ (k + 2))
    (hmgt : 2 ^ (k + 1) < m)
    (hB : 2 * (m - 2 ^ (k + 1)) < 2 ^ (k + 1))
    (hq : q < m - 2 ^ k) :
    leafLocal (2 * r + 1) (m - 2 ^ k) q = leafLocal r m q := by
  have hp1 : (2 : Nat) ^ (k + 1) = 2 * 2 ^ k := by ring
  have hp2 : (2 : Nat) ^ (k + 2) = 2 * 2 ^ (k + 1) := by ring
  have hk1 : 1 ≤ (2 : Nat) ^ k := Nat.one_le_two_pow
  have hm'' : previousPowerOfTwo (m - 2 ^ k) = 2 ^ k :=
    pp2_unique _ k (by omega) (by omega)
  unfold leafLocal
  rw [hm'', hF]
  by_cases hc : q < 2 * (m - 2 ^ k - 2 ^ k)
  · rw [if_pos hc, if_pos (by omega)]
    have e : (2 * r + 1 + 1) * (2 * 2 ^ k)
        = (r + 1) * (2 * 2 ^ (k + 1)) := by ring
    have hpos1 : 0 < (2 * r + 1 + 1) * (2 * 2 ^ k) := by positivity
    set P1 := (2 * r + 1 + 1) * (2 * 2 ^ k) with hP1
    set P2 := (r + 1) * (2 * 2 ^ (k + 1)) with hP2
    omega
  · rw [if_neg hc, if_neg (by omega)]
    have e : (2 * r + 1 + 1) * 2 ^ k = (r + 1) * 2 ^ (k + 1) := by ring
    have hpos1 : 0 < (2 * r + 1 + 1) * 2 ^ k := by positivity
    set P1 := (2 * r + 1 + 1) * 2 ^ k with hP1
    set P2 := (r + 1) * 2 ^ (k + 1) with hP2
    omega

/-- Split identity, non-`perfect_tree_left` case, right (perfect)
child. -/
theorem leafLocal_B_right (r k m q : Nat)
    (hF : previousPowerOfTwo m = 2 ^ (k + 1))
    (hmlt : m < 2 ^ (k + 2))
    (hmgt : 2 ^ (k + 1) < m)
    (hB : 2 * (m - 2 ^ (k + 1)) < 2 ^ (k + 1))
    (hq : q < 2 ^ k) :
    leafLocal (2 * r + 2) (2 ^ k) q
      = leafLocal r m (m - 2 ^ k + q) := by
  have hp1 : (2 : Nat) ^ (k + 1) = 2 * 2 ^ k := by ring
  have hp2 : (2 : Nat) ^ (k + 2) = 2 * 2 ^ (k + 1) := by ring
  have hk1 : 1 ≤ (2 : Nat) ^ k := Nat.one_le_two_pow
  unfold leafLocal
  rw [pp2_pow k, hF]
  rw [if_neg (by omega), if_neg (by omega)]
  have e : (2 * r + 2 + 1) * 2 ^ k + 2 ^ k
      = (r + 1) * 2 ^ (k + 1) + 2 ^ (k + 1) := by ring
  have hpos2 : 0 < (r + 1) * 2 ^ (k + 1) := by positivity
  set P1 := (2 * r + 2 + 1) * 2 ^ k with hP1
  set P2 := (r + 1) * 2 ^ (k + 1) with hP2
  omega

/-! ### Loser-tree correctness: implicit-tree ancestry -/

/-- `TreeNode::parent`. -/
def parentN (t : Nat) : Nat := (t - 1) / 2

def parentIter : Nat → Nat → Nat
  | 0, u => u
  | k + 1, u => parentIter k (parentN u)

/-- `u` lies in the subtree rooted at `t`. -/
def Desc (t u : Nat) : Prop := ∃ k, parentIter k u = t

theorem parentN_le (u : Nat) : parentN u ≤ u := by
  unfold parentN
  omega

theorem parentIter_le (k : Nat) : ∀ u, parentIter k u ≤ u := by
  induction k with
  | zero => intro u; exact le_refl u
  | succ k ih =>
    intro u
    exact le_trans (ih (parentN u)) (parentN_le u)

theorem parentIter_out (k : Nat) : ∀ u,
    parentIter (k + 1) u = parentN (parentIter k u) := by
  induction k with
  | zero => intro u; rfl
  | succ k ih =>
    intro u
    show parentIter (k + 1) (parentN u) = parentN (parentIter (k + 1) u)
    rw [ih (parentN u)]
    rfl

theorem parentIter_add (a b : Nat) : ∀ u,
    parentIter (a + b) u = parentIter a (parentIter b u) := by
  induction b with
  | zero => intro u; rfl
  | succ b ih =>
    intro u
    show parentIter (a + b + 1) u = _
    rw [show a + b + 1 = (a + b) + 1 from rfl]
    show parentIter (a + b) (parentN u) = _
    rw [ih (parentN u)]
    rfl

theorem desc_self (t : Nat) : Desc t t := ⟨0, rfl⟩

theorem Desc.le {t u : Nat} (h : Desc t u) : t ≤ u := by
  obtain ⟨k, hk⟩ := h
  rw [← hk]
  exact parentIter_le k u

theorem Desc.trans {a b c : Nat} (h1 : Desc a b) (h2 : Desc b c) :
    Desc a c := by
  obtain ⟨j, hj⟩ := h1
  obtain ⟨k, hk⟩ := h2
  exact ⟨j + k, by rw [parentIter_add, hk, hj]⟩

theorem parentN_left (r : Nat) : parentN (2 * r + 1) = r := by
  unfold parentN
  omega

theorem parentN_right (r : Nat) : parentN (2 * r + 2) = r := by
  unfold parentN
  omega

theorem desc_of_left {r u : Nat} (h : Desc (2 * r + 1) u) : Desc r u := by
  obtain ⟨k, hk⟩ := h
  exact ⟨k + 1, by rw [parentIter_out, hk, parentN_left]⟩

theorem desc_of_right {r u : Nat} (h : Desc (2 * r + 2) u) : Desc r u := by
  obtain ⟨k, hk⟩ := h
  exact ⟨k + 1, by rw [parentIter_out, hk, parentN_right]⟩

theorem desc_sibling {r t : Nat} (h1 : Desc (2 * r + 1) t)
    (h2 : Desc (2 * r + 2) t) : False := by
  obtain ⟨j, hj⟩ := h1
  obtain ⟨k, hk⟩ := h2
  rcases le_or_lt j k with h | h
  · have e : k = (k - j) + j := by omega
    rw [e, parentIter_add, hj] at hk
    have := parentIter_le (k - j) (2 * r + 1)
    omega
  · have e : j = (j - k) + k := by omega
    rw [e, parentIter_add, hk] at hj
    have e2 : j - k = (j - k - 1) + 1 := by omega
    rw [e2] at hj
    have e3 : parentIter (j - k - 1 + 1) (2 * r + 2)
        = parentIter (j - k - 1) r := by
      show parentIter (j - k - 1) (parentN (2 * r + 2)) = _
      rw [parentN_right]
    rw [e3] at hj
    have := parentIter_le (j - k - 1) r
    omega

/-- `L` is the ascending chain of parents from `a` (exclusive) down to
`r` (inclusive). -/
def ChainTo : Nat → Nat → List Nat → Prop
  | a, r, [] => a = r
  | a, r, t :: L => a ≠ r ∧ t = parentN a ∧ ChainTo t r L

theorem chainTo_ge : ∀ (L : List Nat) (a r : Nat), ChainTo a r L → r ≤ a := by
  intro L
  induction L with
  | nil =>
    intro a r h
    exact le_of_eq h.symm
  | cons t L ih =>
    intro a r h
    obtain ⟨_, ht, hc⟩ := h
    have := ih t r hc
    have := parentN_le a
    omega

theorem chainTo_length : ∀ (L : List Nat) (a r : Nat), ChainTo a r L →
    L.length + r ≤ a := by
  intro L
  induction L with
  | nil =>
    intro a r h
    have he : a = r := h
    simp only [List.length_nil]
    omega
  | cons t L ih =>
    intro a r h
    obtain ⟨hne, ht, hc⟩ := h
    have h1 := ih t r hc
    have h2 := chainTo_ge _ _ _ hc
    have h3 : r ≤ a := by
      have := parentN_le a
      omega
    have h4 : a ≠ r := hne
    have h5 : parentN a < a := by
      unfold parentN
      omega
    simp only [List.length_cons]
    omega

theorem chainTo_snoc : ∀ (L : List Nat) (a c r : Nat), ChainTo a c L →
    r = parentN c → r < c → ChainTo a r (L ++ [r]) := by
  intro L
  induction L with
  | nil =>
    intro a c r h hr hlt
    have ha : a = c := h
    subst ha
    exact ⟨by omega, hr, rfl⟩
  | cons t L ih =>
    intro a c r h hr hlt
    obtain ⟨hne, ht, hc⟩ := h
    have hca := chainTo_ge _ _ _ hc
    have hpa := parentN_le a
    refine ⟨by omega, ht, ih t c r hc hr hlt⟩

theorem chainTo_parentIter : ∀ (L : List Nat) (a r : Nat), ChainTo a r L →
    parentIter L.length a = r := by
  intro L
  induction L with
  | nil =>
    intro a r h
    exact h
  | cons t L ih =>
    intro a r h
    obtain ⟨_, ht, hc⟩ := h
    have e : (t :: L).length = L.length + 1 := rfl
    rw [e]
    show parentIter (L.length + 1) a = r
    have e2 : parentIter (L.length + 1) a = parentIter L.length (parentN a) := rfl
    rw [e2, ← ht]
    exact ih t r hc

theorem chainTo_mem_desc : ∀ (L : List Nat) (a r : Nat), ChainTo a r L →
    ∀ t ∈ L, Desc r t := by
  intro L
  induction L with
  | nil =>
    intro a r _ t ht
    simp at ht
  | cons u L ih =>
    intro a r h t ht
    obtain ⟨_, hu, hc⟩ := h
    rcases List.mem_cons.mp ht with h1 | h1
    · rw [h1]
      exact ⟨L.length, chainTo_parentIter L u r hc⟩
    · exact ih u r hc t h1

/-- `replay_matches` as a fold over the explicit path. -/
def replayFold (cmpW : Nat → Nat → Ordering) :
    Nat → List Nat → List Nat → Nat × List Nat
  | w, [], lt => (w, lt)
  | w, t :: L, lt =>
    if cmpW (gGet 0 lt t) w = Ordering.lt then
      replayFold cmpW (gGet 0 lt t) L (lt.set t w)
    else replayFold cmpW w L lt

theorem replayFold_append (cmpW : Nat → Nat → Ordering) :
    ∀ (L1 : List Nat) (w : Nat) (L2 : List Nat) (lt : List Nat),
      replayFold cmpW w (L1 ++ L2) lt
        = replayFold cmpW (replayFold cmpW w L1 lt).1 L2
            (replayFold cmpW w L1 lt).2 := by
  intro L1
  induction L1 with
  | nil => intro w L2 lt; rfl
  | cons t L1 ih =>
    intro w L2 lt
    by_cases hc : cmpW (gGet 0 lt t) w = Ordering.lt
    · have e1 : replayFold cmpW w ((t :: L1) ++ L2) lt
          = replayFold cmpW (gGet 0 lt t) (L1 ++ L2) (lt.set t w) := by
        conv_lhs => simp only [List.cons_append, replayFold]
        rw [if_pos hc]
        rfl
      have e2 : replayFold cmpW w (t :: L1) lt
          = replayFold cmpW (gGet 0 lt t) L1 (lt.set t w) := by
        conv_lhs => simp only [List.cons_append, replayFold]
        rw [if_pos hc]
      rw [e1, e2]
      exact ih _ L2 _
    · have e1 : replayFold cmpW w ((t :: L1) ++ L2) lt
          = replayFold cmpW w (L1 ++ L2) lt := by
        conv_lhs => simp only [List.cons_append, replayFold]
        rw [if_neg hc]
        rfl
      have e2 : replayFold cmpW w (t :: L1) lt
          = replayFold cmpW w L1 lt := by
        conv_lhs => simp only [List.cons_append, replayFold]
        rw [if_neg hc]
      rw [e1, e2]
      exact ih _ L2 _

theorem replayGo_eq_fold (cmpW : Nat → Nat → Ordering) :
    ∀ (L : List Nat) (a : Nat) (w : Nat) (lt : List Nat) (fuel : Nat),
      ChainTo a 0 L → a ≠ 0 → L.length ≤ fuel →
      replayGo cmpW fuel w (parentN a) lt = replayFold cmpW w L lt := by
  intro L
  induction L with
  | nil =>
    intro a w lt fuel h ha _
    exact absurd h ha
  | cons t L ih =>
    intro a w lt fuel h ha hfuel
    obtain ⟨hne, ht, hc⟩ := h
    simp only [List.length_cons] at hfuel
    obtain ⟨f, rfl⟩ : ∃ f, fuel = f + 1 := ⟨fuel - 1, by omega⟩
    rw [← ht]
    have hL0 : t = 0 → L = [] := by
      intro h0
      subst h0
      cases L with
      | nil => rfl
      | cons u L' =>
        obtain ⟨hne2, _, _⟩ := hc
        exact absurd rfl hne2
    by_cases hcmp : cmpW (gGet 0 lt t) w = Ordering.lt
    · have e1 : replayGo cmpW (f + 1) w t lt
          = if t = 0 then (gGet 0 lt t, lt.set t w)
            else replayGo cmpW f (gGet 0 lt t) ((t - 1) / 2)
              (lt.set t w) := by
        conv_lhs => simp only [replayGo]
        rw [if_pos hcmp]
      have e2 : replayFold cmpW w (t :: L) lt
          = replayFold cmpW (gGet 0 lt t) L (lt.set t w) := by
        conv_lhs => simp only [List.cons_append, replayFold]
        rw [if_pos hcmp]
      rw [e1, e2]
      by_cases ht0 : t = 0
      · rw [if_pos ht0, hL0 ht0]
        subst ht0
        rfl
      · rw [if_neg ht0]
        exact ih t _ _ f hc ht0 (by omega)
    · have e1 : replayGo cmpW (f + 1) w t lt
          = if t = 0 then (w, lt)
            else replayGo cmpW f w ((t - 1) / 2) lt := by
        conv_lhs => simp only [replayGo]
        rw [if_neg hcmp]
      have e2 : replayFold cmpW w (t :: L) lt
          = replayFold cmpW w L lt := by
        conv_lhs => simp only [List.cons_append, replayFold]
        rw [if_neg hcmp]
      rw [e1, e2]
      by_cases ht0 : t = 0
      · rw [if_pos ht0, hL0 ht0]
        rfl
      · rw [if_neg ht0]
        exact ih t _ _ f hc ht0 (by omega)

/-! ### Loser-tree correctness: the tournament certificate -/

/-- Certificate that the loser array `lt` encodes a valid tournament
over tapes `[lo, hi)` in the implicit subtree rooted at node `r`, with
champion `w`: leaves sit at their `leaf_for_winner` positions, every
internal node stores the loser of the match between its children's
champions, and each stored match respects the comparator. -/
inductive Tourn (cmpW : Nat → Nat → Ordering) (n : Nat) (lt : List Nat) :
    Nat → Nat → Nat → Nat → Prop
  | leaf (q : Nat) : Tourn cmpW n lt (leafForWinner q n) q (q + 1) q
  | node (r lo mid hi w l cl cr : Nat) :
      Tourn cmpW n lt (2 * r + 1) lo mid cl →
      Tourn cmpW n lt (2 * r + 2) mid hi cr →
      (w = cl ∧ l = cr ∨ w = cr ∧ l = cl) →
      cmpW w l ≠ Ordering.gt →
      gGet 0 lt r = l →
      r < lt.length →
      Tourn cmpW n lt r lo hi w

theorem tourn_range {cmpW : Nat → Nat → Ordering} {n : Nat}
    {lt : List Nat} {r lo hi w : Nat}
    (h : Tourn cmpW n lt r lo hi w) : lo ≤ w ∧ w < hi ∧ lo < hi := by
  induction h with
  | leaf q => exact ⟨le_refl q, Nat.lt_succ_self q, Nat.lt_succ_self q⟩
  | node r lo mid hi w l cl cr hL hR hside hdom hstore hlen ihL ihR =>
    obtain ⟨h1, h2, h3⟩ := ihL
    obtain ⟨h4, h5, h6⟩ := ihR
    rcases hside with ⟨hw, _⟩ | ⟨hw, _⟩ <;> subst hw
    · exact ⟨h1, by omega, by omega⟩
    · exact ⟨by omega, h5, by omega⟩

theorem tourn_loser_range {cmpW : Nat → Nat → Ordering} {n : Nat}
    {lt : List Nat} {r lo mid hi w l cl cr : Nat}
    (hL : Tourn cmpW n lt (2 * r + 1) lo mid cl)
    (hR : Tourn cmpW n lt (2 * r + 2) mid hi cr)
    (hside : w = cl ∧ l = cr ∨ w = cr ∧ l = cl) :
    lo ≤ w ∧ w < hi ∧ lo ≤ l ∧ l < hi := by
  obtain ⟨h1, h2, h3⟩ := tourn_range hL
  obtain ⟨h4, h5, h6⟩ := tourn_range hR
  rcases hside with ⟨hw, hl⟩ | ⟨hw, hl⟩ <;> subst hw <;> subst hl
  · exact ⟨h1, by omega, by omega, by omega⟩
  · exact ⟨by omega, h5, by omega, by omega⟩

theorem tourn_cmp_congr {cmpW cmpW' : Nat → Nat → Ordering} {n : Nat}
    {lt : List Nat} {r lo hi w : Nat}
    (h : Tourn cmpW n lt r lo hi w)
    (hag : ∀ x y, lo ≤ x → x < hi → lo ≤ y → y < hi →
      cmpW' x y = cmpW x y) :
    Tourn cmpW' n lt r lo hi w := by
  induction h with
  | leaf q => exact Tourn.leaf q
  | node r lo mid hi w l cl cr hL hR hside hdom hstore hlen ihL ihR =>
    have hrg := tourn_loser_range hL hR hside
    have hmids := tourn_range hL
    have hmid2 := tourn_range hR
    refine Tourn.node r lo mid hi w l cl cr
      (ihL ?_) (ihR ?_) hside ?_ hstore hlen
    · intro x y hx1 hx2 hy1 hy2
      exact hag x y hx1 (by omega) hy1 (by omega)
    · intro x y hx1 hx2 hy1 hy2
      exact hag x y (by omega) hx2 (by omega) hy2
    · rw [hag w l hrg.1 hrg.2.1 hrg.2.2.1 hrg.2.2.2]
      exact hdom

theorem tourn_lt_congr {cmpW : Nat → Nat → Ordering} {n : Nat}
    {lt lt' : List Nat} {r lo hi w : Nat}
    (h : Tourn cmpW n lt r lo hi w)
    (hag : ∀ t, Desc r t → gGet 0 lt' t = gGet 0 lt t)
    (hlen : lt'.length = lt.length) :
    Tourn cmpW n lt' r lo hi w := by
  induction h with
  | leaf q => exact Tourn.leaf q
  | node r lo mid hi w l cl cr hL hR hside hdom hstore hrlen ihL ihR =>
    refine Tourn.node r lo mid hi w l cl cr
      (ihL ?_) (ihR ?_) hside hdom ?_ (by omega)
    · intro t ht
      exact hag t (desc_of_left ht)
    · intro t ht
      exact hag t (desc_of_right ht)
    · rw [hag r (desc_self r)]
      exact hstore

theorem tourn_dominates {cmpW : Nat → Nat → Ordering} (hs : SWOrd cmpW)
    {n : Nat} {lt : List Nat} {r lo hi w : Nat}
    (h : Tourn cmpW n lt r lo hi w) :
    ∀ q, lo ≤ q → q < hi → cmpW w q ≠ Ordering.gt := by
  induction h with
  | leaf q0 =>
    intro q hq1 hq2
    have hq : q = q0 := by omega
    rw [hq, hs.refl_eq]
    simp
  | node r lo mid hi w l cl cr hL hR hside hdom hstore hlen ihL ihR =>
    intro q hq1 hq2
    have hwc : cmpW w cl ≠ Ordering.gt ∧ cmpW w cr ≠ Ordering.gt := by
      rcases hside with ⟨hw, hl⟩ | ⟨hw, hl⟩
      · subst hw
        subst hl
        exact ⟨by rw [hs.refl_eq]; simp, hdom⟩
      · subst hw
        subst hl
        exact ⟨hdom, by rw [hs.refl_eq]; simp⟩
    rcases lt_or_ge q mid with hq | hq
    · exact hs.le_trans _ _ _ hwc.1 (ihL q hq1 hq)
    · exact hs.le_trans _ _ _ hwc.2 (ihR q hq hq2)

theorem replayFold_single (cmpW : Nat → Nat → Ordering) (w t : Nat)
    (lt : List Nat) :
    replayFold cmpW w [t] lt
      = if cmpW (gGet 0 lt t) w = Ordering.lt then
          (gGet 0 lt t, lt.set t w)
        else (w, lt) := by
  simp only [replayFold]

/-- Replaying the matches along the previous champion's leaf-to-root
path restores a valid tournament after the champion's key changed
(`cmpW` → `cmpW'` differing only at index `p`). -/
theorem tourn_replay {cmpW cmpW' : Nat → Nat → Ordering}
    (hs' : SWOrd cmpW') {n p : Nat}
    (hag : ∀ x y, x ≠ p → y ≠ p → cmpW' x y = cmpW x y) :
    ∀ {lt r lo hi w}, Tourn cmpW n lt r lo hi w → w = p →
      ∃ L,
        ChainTo (leafForWinner p n) r L ∧
        Tourn cmpW' n (replayFold cmpW' p L lt).2 r lo hi
          (replayFold cmpW' p L lt).1 ∧
        (replayFold cmpW' p L lt).2.length = lt.length ∧
        (∀ t, ¬ Desc r t →
          gGet 0 (replayFold cmpW' p L lt).2 t = gGet 0 lt t) := by
  intro lt r lo hi w h
  induction h with
  | leaf q =>
    intro hq
    subst hq
    exact ⟨[], rfl, Tourn.leaf q, rfl, fun t _ => rfl⟩
  | node r lo mid hi w l cl cr hL hR hside hdom hstore hrlen ihL ihR =>
    intro hw
    subst hw
    rcases hside with ⟨hwcl, hlcr⟩ | ⟨hwcr, hlcl⟩
    · -- the previous champion came from the left subtree
      obtain ⟨L1, hchain1, htourn1, hlen1, hframe1⟩ := ihL hwcl.symm
      set w1 := (replayFold cmpW' w L1 lt).1 with hw1
      set lt1 := (replayFold cmpW' w L1 lt).2 with hlt1
      have hple := tourn_range hL
      rw [← hwcl] at hple
      have hRlt : Tourn cmpW n lt1 (2 * r + 2) mid hi cr := by
        refine tourn_lt_congr hR ?_ hlen1
        intro t ht
        refine hframe1 t ?_
        intro hdt
        exact desc_sibling hdt ht
      have hRcmp : Tourn cmpW' n lt1 (2 * r + 2) mid hi cr := by
        refine tourn_cmp_congr hRlt ?_
        intro x y hx1 hx2 hy1 hy2
        refine hag x y ?_ ?_
        · intro hxp
          rw [hxp] at hx1
          omega
        · intro hyp
          rw [hyp] at hy1
          omega
      have hw1r := tourn_range htourn1
      have hndl : ¬ Desc (2 * r + 1) r := fun hd => by
        have := Desc.le hd
        omega
      have hgr : gGet 0 lt1 r = cr := by
        rw [hframe1 r hndl, hstore, hlcr]
      have hchain : ChainTo (leafForWinner w n) r (L1 ++ [r]) := by
        refine chainTo_snoc L1 _ (2 * r + 1) r hchain1 ?_ (by omega)
        rw [parentN_left]
      have hev : replayFold cmpW' w (L1 ++ [r]) lt
          = if cmpW' (gGet 0 lt1 r) w1 = Ordering.lt then
              (gGet 0 lt1 r, lt1.set r w1)
            else (w1, lt1) := by
        rw [replayFold_append, ← hw1, ← hlt1, replayFold_single]
      rw [hgr] at hev
      have hrlen1 : r < lt1.length := by omega
      by_cases hcase : cmpW' cr w1 = Ordering.lt
      · rw [if_pos hcase] at hev
        refine ⟨L1 ++ [r], hchain, ?_, ?_, ?_⟩
        · rw [hev]
          dsimp only
          refine Tourn.node r lo mid hi cr w1 w1 cr ?_ ?_
            (Or.inr ⟨rfl, rfl⟩) ?_ ?_ (by simp [hrlen1])
          · refine tourn_lt_congr htourn1 ?_ (by simp)
            intro t ht
            have := Desc.le ht
            exact gGet_set_ne 0 lt1 r t w1 (by omega)
          · refine tourn_lt_congr hRcmp ?_ (by simp)
            intro t ht
            have := Desc.le ht
            exact gGet_set_ne 0 lt1 r t w1 (by omega)
          · rw [hcase]
            simp
          · exact gGet_set_self 0 lt1 r w1 hrlen1
        · rw [hev]
          dsimp only
          simp [hlen1]
        · intro t ht
          rw [hev]
          dsimp only
          have htr : r ≠ t := by
            intro he
            exact ht (he ▸ desc_self r)
          rw [gGet_set_ne 0 lt1 r t w1 htr]
          refine hframe1 t ?_
          intro hd
          exact ht (desc_of_left hd)
      · rw [if_neg hcase] at hev
        refine ⟨L1 ++ [r], hchain, ?_, ?_, ?_⟩
        · rw [hev]
          dsimp only
          refine Tourn.node r lo mid hi w1 cr w1 cr ?_ ?_
            (Or.inl ⟨rfl, rfl⟩) ?_ hgr hrlen1
          · exact htourn1
          · exact hRcmp
          · rw [hs'.swap_eq]
            cases hc2 : cmpW' cr w1 with
            | lt => exact absurd hc2 hcase
            | eq => simp [Ordering.swap]
            | gt => simp [Ordering.swap]
        · rw [hev]
          dsimp only
          exact hlen1
        · intro t ht
          rw [hev]
          dsimp only
          refine hframe1 t ?_
          intro hd
          exact ht (desc_of_left hd)
    · -- the previous champion came from the right subtree
      obtain ⟨L1, hchain1, htourn1, hlen1, hframe1⟩ := ihR hwcr.symm
      set w1 := (replayFold cmpW' w L1 lt).1 with hw1
      set lt1 := (replayFold cmpW' w L1 lt).2 with hlt1
      have hple := tourn_range hR
      rw [← hwcr] at hple
      have hLlt : Tourn cmpW n lt1 (2 * r + 1) lo mid cl := by
        refine tourn_lt_congr hL ?_ hlen1
        intro t ht
        refine hframe1 t ?_
        intro hdt
        exact desc_sibling ht hdt
      have hLcmp : Tourn cmpW' n lt1 (2 * r + 1) lo mid cl := by
        refine tourn_cmp_congr hLlt ?_
        intro x y hx1 hx2 hy1 hy2
        refine hag x y ?_ ?_
        · intro hxp
          rw [hxp] at hx2
          omega
        · intro hyp
          rw [hyp] at hy2
          omega
      have hw1r := tourn_range htourn1
      have hndr : ¬ Desc (2 * r + 2) r := fun hd => by
        have := Desc.le hd
        omega
      have hgr : gGet 0 lt1 r = cl := by
        rw [hframe1 r hndr, hstore, hlcl]
      have hchain : ChainTo (leafForWinner w n) r (L1 ++ [r]) := by
        refine chainTo_snoc L1 _ (2 * r + 2) r hchain1 ?_ (by omega)
        rw [parentN_right]
      have hev : replayFold cmpW' w (L1 ++ [r]) lt
          = if cmpW' (gGet 0 lt1 r) w1 = Ordering.lt then
              (gGet 0 lt1 r, lt1.set r w1)
            else (w1, lt1) := by
        rw [replayFold_append, ← hw1, ← hlt1, replayFold_single]
      rw [hgr] at hev
      have hrlen1 : r < lt1.length := by omega
      by_cases hcase : cmpW' cl w1 = Ordering.lt
      · rw [if_pos hcase] at hev
        refine ⟨L1 ++ [r], hchain, ?_, ?_, ?_⟩
        · rw [hev]
          dsimp only
          refine Tourn.node r lo mid hi cl w1 cl w1 ?_ ?_
            (Or.inl ⟨rfl, rfl⟩) ?_ ?_ (by simp [hrlen1])
          · refine tourn_lt_congr hLcmp ?_ (by simp)
            intro t ht
            have := Desc.le ht
            exact gGet_set_ne 0 lt1 r t w1 (by omega)
          · refine tourn_lt_congr htourn1 ?_ (by simp)
            intro t ht
            have := Desc.le ht
            exact gGet_set_ne 0 lt1 r t w1 (by omega)
          · rw [hcase]
            simp
          · exact gGet_set_self 0 lt1 r w1 hrlen1
        · rw [hev]
          dsimp only
          simp [hlen1]
        · intro t ht
          rw [hev]
          dsimp only
          have htr : r ≠ t := by
            intro he
            exact ht (he ▸ desc_self r)
          rw [gGet_set_ne 0 lt1 r t w1 htr]
          refine hframe1 t ?_
          intro hd
          exact ht (desc_of_right hd)
      · rw [if_neg hcase] at hev
        refine ⟨L1 ++ [r], hchain, ?_, ?_, ?_⟩
        · rw [hev]
          dsimp only
          refine Tourn.node r lo mid hi w1 cl cl w1 ?_ ?_
            (Or.inr ⟨rfl, rfl⟩) ?_ hgr hrlen1
          · exact hLcmp
          · exact htourn1
          · rw [hs'.swap_eq]
            cases hc2 : cmpW' cl w1 with
            | lt => exact absurd hc2 hcase
            | eq => simp [Ordering.swap]
            | gt => simp [Ordering.swap]
        · rw [hev]
          dsimp only
          exact hlen1
        · intro t ht
          rw [hev]
          dsimp only
          refine hframe1 t ?_
          intro hd
          exact ht (desc_of_right hd)

/-- Split identity for a perfect subtree, left child. -/
theorem leafLocal_P_left (r j q : Nat) (hq : q < 2 ^ j) :
    leafLocal (2 * r + 1) (2 ^ j) q = leafLocal r (2 ^ (j + 1)) q := by
  have hk1 : 1 ≤ (2 : Nat) ^ j := Nat.one_le_two_pow
  unfold leafLocal
  rw [pp2_pow j, pp2_pow (j + 1)]
  rw [if_neg (by omega), if_neg (by omega)]
  have e : (2 * r + 1 + 1) * 2 ^ j = (r + 1) * 2 ^ (j + 1) := by ring
  have hpos1 : 0 < (2 * r + 1 + 1) * 2 ^ j := by positivity
  set P1 := (2 * r + 1 + 1) * 2 ^ j with hP1
  set P2 := (r + 1) * 2 ^ (j + 1) with hP2
  omega

/-- Split identity for a perfect subtree, right child. -/
theorem leafLocal_P_right (r j q : Nat) (hq : q < 2 ^ j) :
    leafLocal (2 * r + 2) (2 ^ j) q
      = leafLocal r (2 ^ (j + 1)) (2 ^ j + q) := by
  have hk1 : 1 ≤ (2 : Nat) ^ j := Nat.one_le_two_pow
  have hp1 : (2 : Nat) ^ (j + 1) = 2 * 2 ^ j := by ring
  unfold leafLocal
  rw [pp2_pow j, pp2_pow (j + 1)]
  rw [if_neg (by omega), if_neg (by omega)]
  have e : (2 * r + 2 + 1) * 2 ^ j = (r + 1) * 2 ^ (j + 1) + 2 ^ j := by
    ring
  have hpos2 : 0 < (r + 1) * 2 ^ (j + 1) := by positivity
  set P1 := (2 * r + 2 + 1) * 2 ^ j with hP1
  set P2 := (r + 1) * 2 ^ (j + 1) with hP2
  omega

theorem commitWinner_spec {cmpW : Nat → Nat → Ordering} (hs : SWOrd cmpW)
    {n : Nat} {lt : List Nat} {r lo mid hi cl cr : Nat}
    (hL : Tourn cmpW n lt (2 * r + 1) lo mid cl)
    (hR : Tourn cmpW n lt (2 * r + 2) mid hi cr)
    (hrlen : r < lt.length) :
    (commitWinner cmpW cl cr r lt).2.length = lt.length ∧
    (∀ t, ¬ Desc r t →
      gGet 0 (commitWinner cmpW cl cr r lt).2 t = gGet 0 lt t) ∧
    Tourn cmpW n (commitWinner cmpW cl cr r lt).2 r lo hi
      (commitWinner cmpW cl cr r lt).1 := by
  have htrans : ∀ (a : Nat) (lt2 : List Nat),
      lt2 = lt.set r a →
      Tourn cmpW n lt2 (2 * r + 1) lo mid cl ∧
      Tourn cmpW n lt2 (2 * r + 2) mid hi cr := by
    intro a lt2 h2
    subst h2
    constructor
    · refine tourn_lt_congr hL ?_ (by simp)
      intro t ht
      have := Desc.le ht
      exact gGet_set_ne 0 lt r t a (by omega)
    · refine tourn_lt_congr hR ?_ (by simp)
      intro t ht
      have := Desc.le ht
      exact gGet_set_ne 0 lt r t a (by omega)
  have hframe : ∀ (a : Nat) (t : Nat), ¬ Desc r t →
      gGet 0 (lt.set r a) t = gGet 0 lt t := by
    intro a t ht
    have htr : r ≠ t := fun he => ht (he ▸ desc_self r)
    exact gGet_set_ne 0 lt r t a htr
  cases hc : cmpW cl cr with
  | gt =>
    have he : commitWinner cmpW cl cr r lt = (cr, lt.set r cl) := by
      unfold commitWinner
      rw [hc]
    rw [he]
    obtain ⟨h1, h2⟩ := htrans cl (lt.set r cl) rfl
    refine ⟨by simp, fun t ht => hframe cl t ht, ?_⟩
    refine Tourn.node r lo mid hi cr cl cl cr h1 h2
      (Or.inr ⟨rfl, rfl⟩) ?_ ?_ (by simp [hrlen])
    · rw [hs.swap_eq, hc]
      simp [Ordering.swap]
    · exact gGet_set_self 0 lt r cl hrlen
  | lt =>
    have he : commitWinner cmpW cl cr r lt = (cl, lt.set r cr) := by
      unfold commitWinner
      rw [hc]
    rw [he]
    obtain ⟨h1, h2⟩ := htrans cr (lt.set r cr) rfl
    refine ⟨by simp, fun t ht => hframe cr t ht, ?_⟩
    refine Tourn.node r lo mid hi cl cr cl cr h1 h2
      (Or.inl ⟨rfl, rfl⟩) ?_ ?_ (by simp [hrlen])
    · rw [hc]
      simp
    · exact gGet_set_self 0 lt r cr hrlen
  | eq =>
    have he : commitWinner cmpW cl cr r lt = (cl, lt.set r cr) := by
      unfold commitWinner
      rw [hc]
    rw [he]
    obtain ⟨h1, h2⟩ := htrans cr (lt.set r cr) rfl
    refine ⟨by simp, fun t ht => hframe cr t ht, ?_⟩
    refine Tourn.node r lo mid hi cl cr cl cr h1 h2
      (Or.inl ⟨rfl, rfl⟩) ?_ ?_ (by simp [hrlen])
    · rw [hc]
      simp
    · exact gGet_set_self 0 lt r cr hrlen

/-- An internal node with in-range leaves sits below all leaf
positions. -/
theorem node_lt_pred (root powv n : Nat) (h2 : 2 ≤ powv) (hn : 2 ≤ n)
    (hmax : (root + 1) * powv - 1 + (powv - 1) ≤ 2 * n - 2) :
    root ≤ n - 2 := by
  have h1 : (root + 1) * 2 ≤ (root + 1) * powv :=
    Nat.mul_le_mul_left _ h2
  set P := (root + 1) * powv with hP
  omega

theorem leafLocal_pow (r k q : Nat) :
    leafLocal r (2 ^ k) q = (r + 1) * 2 ^ k - 1 + q := by
  unfold leafLocal
  rw [pp2_pow k]
  rw [if_neg (by omega)]
  rw [Nat.sub_self]
  simp

theorem buildPerfect_spec {cmpW : Nat → Nat → Ordering} (hs : SWOrd cmpW)
    (n : Nat) (hn : 2 ≤ n) :
    ∀ k fuel lo root lt,
      2 ^ k ≤ fuel →
      n - 1 ≤ lt.length →
      (∀ q, q < 2 ^ k →
        leafLocal root (2 ^ k) q = leafForWinner (lo + q) n) →
      (∀ q, q < 2 ^ k → n - 1 ≤ leafLocal root (2 ^ k) q ∧
        leafLocal root (2 ^ k) q ≤ 2 * n - 2) →
      (buildPerfect cmpW fuel lo (lo + 2 ^ k) root lt).2.length
          = lt.length ∧
      (∀ t, ¬ Desc root t →
        gGet 0 (buildPerfect cmpW fuel lo (lo + 2 ^ k) root lt).2 t
          = gGet 0 lt t) ∧
      Tourn cmpW n (buildPerfect cmpW fuel lo (lo + 2 ^ k) root lt).2
        root lo (lo + 2 ^ k)
        (buildPerfect cmpW fuel lo (lo + 2 ^ k) root lt).1 := by
  intro k
  induction k with
  | zero =>
    intro fuel lo root lt hfuel hlen hpos hwr
    have h20 : (2 : Nat) ^ 0 = 1 := by norm_num
    have hroot : root = leafForWinner lo n := by
      have h := hpos 0 (by omega)
      rw [h20] at h
      rw [leafLocal_singleton] at h
      simpa using h
    obtain ⟨f, rfl⟩ : ∃ f, fuel = f + 1 := ⟨fuel - 1, by omega⟩
    have hstep : buildPerfect cmpW (f + 1) lo (lo + 2 ^ 0) root lt
        = (lo, lt) := by
      conv_lhs => simp only [buildPerfect]
      rw [if_pos (by omega)]
    rw [hstep]
    refine ⟨rfl, fun t _ => rfl, ?_⟩
    rw [h20, hroot]
    exact Tourn.leaf lo
  | succ j ih =>
    intro fuel lo root lt hfuel hlen hpos hwr
    have hp : (2 : Nat) ^ (j + 1) = 2 ^ j + 2 ^ j := by
      have := pow_succ 2 j
      omega
    have hj1 : 1 ≤ (2 : Nat) ^ j := Nat.one_le_two_pow
    obtain ⟨f, rfl⟩ : ∃ f, fuel = f + 1 := ⟨fuel - 1, by omega⟩
    have harg : lo + (lo + 2 ^ (j + 1) - lo) / 2 = lo + 2 ^ j := by omega
    have hstep : buildPerfect cmpW (f + 1) lo (lo + 2 ^ (j + 1)) root lt
        = commitWinner cmpW
            (buildPerfect cmpW f lo (lo + 2 ^ j) (2 * root + 1) lt).1
            (buildPerfect cmpW f (lo + 2 ^ j) (lo + 2 ^ (j + 1))
              (2 * root + 2)
              (buildPerfect cmpW f lo (lo + 2 ^ j) (2 * root + 1) lt).2).1
            root
            (buildPerfect cmpW f (lo + 2 ^ j) (lo + 2 ^ (j + 1))
              (2 * root + 2)
              (buildPerfect cmpW f lo (lo + 2 ^ j)
                (2 * root + 1) lt).2).2 := by
      conv_lhs => simp only [buildPerfect]
      rw [if_neg (by omega), harg]
    have hposL : ∀ q, q < 2 ^ j →
        leafLocal (2 * root + 1) (2 ^ j) q = leafForWinner (lo + q) n := by
      intro q hq
      rw [leafLocal_P_left root j q hq]
      exact hpos q (by omega)
    have hwrL : ∀ q, q < 2 ^ j →
        n - 1 ≤ leafLocal (2 * root + 1) (2 ^ j) q ∧
        leafLocal (2 * root + 1) (2 ^ j) q ≤ 2 * n - 2 := by
      intro q hq
      rw [leafLocal_P_left root j q hq]
      exact hwr q (by omega)
    obtain ⟨hlen1, hframe1, htourn1⟩ :=
      ih f lo (2 * root + 1) lt (by omega) hlen hposL hwrL
    set bl := buildPerfect cmpW f lo (lo + 2 ^ j) (2 * root + 1) lt
      with hbl
    have hposR : ∀ q, q < 2 ^ j →
        leafLocal (2 * root + 2) (2 ^ j) q
          = leafForWinner (lo + 2 ^ j + q) n := by
      intro q hq
      rw [leafLocal_P_right root j q hq]
      have h := hpos (2 ^ j + q) (by omega)
      have e : lo + 2 ^ j + q = lo + (2 ^ j + q) := by omega
      rw [e]
      exact h
    have hwrR : ∀ q, q < 2 ^ j →
        n - 1 ≤ leafLocal (2 * root + 2) (2 ^ j) q ∧
        leafLocal (2 * root + 2) (2 ^ j) q ≤ 2 * n - 2 := by
      intro q hq
      rw [leafLocal_P_right root j q hq]
      exact hwr (2 ^ j + q) (by omega)
    obtain ⟨hlen2, hframe2, htourn2⟩ :=
      ih f (lo + 2 ^ j) (2 * root + 2) bl.2 (by omega) (by omega)
        hposR hwrR
    have he2 : lo + 2 ^ j + 2 ^ j = lo + 2 ^ (j + 1) := by omega
    rw [he2] at hlen2 hframe2 htourn2
    set br := buildPerfect cmpW f (lo + 2 ^ j) (lo + 2 ^ (j + 1))
      (2 * root + 2) bl.2 with hbr
    have htourn1' : Tourn cmpW n br.2 (2 * root + 1) lo (lo + 2 ^ j)
        bl.1 := by
      refine tourn_lt_congr htourn1 ?_ hlen2
      intro t ht
      refine hframe2 t ?_
      intro hd
      exact desc_sibling ht hd
    have hrb : root ≤ n - 2 := by
      refine node_lt_pred root (2 ^ (j + 1)) n (by omega) hn ?_
      have h1 := (hwr (2 ^ (j + 1) - 1) (by omega)).2
      rw [leafLocal_pow] at h1
      exact h1
    have hrlt : root < br.2.length := by omega
    have hcommit := commitWinner_spec hs htourn1' htourn2 hrlt
    rw [hstep]
    refine ⟨?_, ?_, ?_⟩
    · rw [hcommit.1, hlen2, hlen1]
    · intro t ht
      rw [hcommit.2.1 t ht]
      rw [hframe2 t (fun hd => ht (desc_of_right hd))]
      exact hframe1 t (fun hd => ht (desc_of_left hd))
    · exact hcommit.2.2

theorem buildComplete_spec {cmpW : Nat → Nat → Ordering} (hs : SWOrd cmpW)
    (n : Nat) (hn : 2 ≤ n) :
    ∀ fuel lo hi root lt,
      lo < hi → hi - lo ≤ fuel → n - 1 ≤ lt.length →
      (∀ q, q < hi - lo →
        leafLocal root (hi - lo) q = leafForWinner (lo + q) n) →
      (∀ q, q < hi - lo → n - 1 ≤ leafLocal root (hi - lo) q ∧
        leafLocal root (hi - lo) q ≤ 2 * n - 2) →
      (buildComplete cmpW fuel lo hi root lt).2.length = lt.length ∧
      (∀ t, ¬ Desc root t →
        gGet 0 (buildComplete cmpW fuel lo hi root lt).2 t
          = gGet 0 lt t) ∧
      Tourn cmpW n (buildComplete cmpW fuel lo hi root lt).2 root lo hi
        (buildComplete cmpW fuel lo hi root lt).1 := by
  intro fuel
  induction fuel with
  | zero =>
    intro lo hi root lt h1 h2 _ _ _
    omega
  | succ f ih =>
    intro lo hi root lt hlohi hfuel hlen hpos hwr
    by_cases hpow : isPowTwo (hi - lo) = true
    · obtain ⟨hne, hpp⟩ := (isPowTwo_iff _).mp hpow
      have hk : hi - lo = 2 ^ (bitLen (hi - lo) - 1) := by
        conv_lhs => rw [← hpp]
        rfl
      obtain ⟨K, hK2⟩ : ∃ K, hi - lo = 2 ^ K :=
        ⟨bitLen (hi - lo) - 1, hk⟩
      have hstep : buildComplete cmpW (f + 1) lo hi root lt
          = buildPerfect cmpW (f + 1) lo hi root lt := by
        conv_lhs => simp only [buildComplete]
        rw [if_pos hpow]
      have hhi : hi = lo + 2 ^ K := by omega
      subst hhi
      rw [hstep]
      refine buildPerfect_spec hs n hn K (f + 1) lo root lt (by omega)
        hlen ?_ ?_
      · intro q hq
        have h := hpos q (by omega)
        rw [show lo + 2 ^ K - lo = 2 ^ K by omega] at h
        exact h
      · intro q hq
        have h := hwr q (by omega)
        rw [show lo + 2 ^ K - lo = 2 ^ K by omega] at h
        exact h
    · have hne0 : hi - lo ≠ 0 := by omega
      have hnp : previousPowerOfTwo (hi - lo) ≠ hi - lo := by
        intro hc
        exact hpow ((isPowTwo_iff _).mpr ⟨hne0, hc⟩)
      have hm2 : 2 ≤ hi - lo := by
        rcases Nat.lt_or_ge (hi - lo) 2 with h | h
        · have h1 : hi - lo = 1 := by omega
          rw [h1] at hnp
          exact absurd (pp2_pow 0) (by simpa using hnp)
        · exact h
      obtain ⟨k, hF, hmgt, hmlt⟩ := pp2_nonpow (hi - lo) hm2 hnp
      have hp1 : (2 : Nat) ^ (k + 1) = 2 * 2 ^ k := by ring
      have hp2 : (2 : Nat) ^ (k + 2) = 2 * 2 ^ (k + 1) := by ring
      have hk1 : 1 ≤ (2 : Nat) ^ k := Nat.one_le_two_pow
      have hnfeq : nextPowerOfTwo (hi - lo) = 2 * 2 ^ (k + 1) := by
        rw [nextPowerOfTwo_eq (hi - lo) hm2 hnp, hF]
      have hnf2 : nextPowerOfTwo (hi - lo) / 2 = 2 ^ (k + 1) := by omega
      have hnf4 : nextPowerOfTwo (hi - lo) / 2 / 2 = 2 ^ k := by omega
      have hroot_bound : root ≤ n - 2 := by
        have hVlt : 2 * (hi - lo - 2 ^ (k + 1)) - 1 < hi - lo := by omega
        have h1 := (hwr (2 * (hi - lo - 2 ^ (k + 1)) - 1) hVlt).2
        have hval : leafLocal root (hi - lo)
            (2 * (hi - lo - 2 ^ (k + 1)) - 1)
            = (root + 1) * (2 * 2 ^ (k + 1)) - 1
              + (2 * (hi - lo - 2 ^ (k + 1)) - 1) := by
          unfold leafLocal
          rw [hF]
          rw [if_pos (by omega)]
        rw [hval] at h1
        have hmul : (root + 1) * 2 ≤ (root + 1) * 2 ^ (k + 1) :=
          Nat.mul_le_mul_left _ (by omega)
        have e2 : (root + 1) * (2 * 2 ^ (k + 1))
            = 2 * ((root + 1) * 2 ^ (k + 1)) := by ring
        set P := (root + 1) * 2 ^ (k + 1) with hP
        omega
      by_cases hA : (hi - lo - nextPowerOfTwo (hi - lo) / 2) * 2
          ≥ nextPowerOfTwo (hi - lo) / 2
      · have hA2 : (hi - lo - 2 ^ (k + 1)) * 2 ≥ 2 ^ (k + 1) := by
          rw [hnf2] at hA
          exact hA
        have hAle : 2 ^ (k + 1) ≤ 2 * (hi - lo - 2 ^ (k + 1)) := by omega
        have hstep : buildComplete cmpW (f + 1) lo hi root lt
            = commitWinner cmpW
                (buildPerfect cmpW f lo (lo + 2 ^ (k + 1))
                  (2 * root + 1) lt).1
                (buildComplete cmpW f (lo + 2 ^ (k + 1)) hi (2 * root + 2)
                  (buildPerfect cmpW f lo (lo + 2 ^ (k + 1))
                    (2 * root + 1) lt).2).1
                root
                (buildComplete cmpW f (lo + 2 ^ (k + 1)) hi (2 * root + 2)
                  (buildPerfect cmpW f lo (lo + 2 ^ (k + 1))
                    (2 * root + 1) lt).2).2 := by
          conv_lhs => simp only [buildComplete]
          rw [if_neg hpow, hnf4, hnf2, if_pos (by omega)]
        have hposL : ∀ q, q < 2 ^ (k + 1) →
            leafLocal (2 * root + 1) (2 ^ (k + 1)) q
              = leafForWinner (lo + q) n := by
          intro q hq
          rw [leafLocal_A_left root k (hi - lo) q hF hAle hq]
          exact hpos q (by omega)
        have hwrL : ∀ q, q < 2 ^ (k + 1) →
            n - 1 ≤ leafLocal (2 * root + 1) (2 ^ (k + 1)) q ∧
            leafLocal (2 * root + 1) (2 ^ (k + 1)) q ≤ 2 * n - 2 := by
          intro q hq
          rw [leafLocal_A_left root k (hi - lo) q hF hAle hq]
          exact hwr q (by omega)
        obtain ⟨hlen1, hframe1, htourn1⟩ :=
          buildPerfect_spec hs n hn (k + 1) f lo (2 * root + 1) lt
            (by omega) hlen hposL hwrL
        set bl := buildPerfect cmpW f lo (lo + 2 ^ (k + 1))
          (2 * root + 1) lt with hbl
        have hposR : ∀ q, q < hi - (lo + 2 ^ (k + 1)) →
            leafLocal (2 * root + 2) (hi - (lo + 2 ^ (k + 1))) q
              = leafForWinner (lo + 2 ^ (k + 1) + q) n := by
          intro q hq
          have heq : hi - (lo + 2 ^ (k + 1)) = hi - lo - 2 ^ (k + 1) := by
            omega
          rw [heq] at hq ⊢
          rw [leafLocal_A_right root k (hi - lo) q hF hmlt hmgt hAle hq]
          have h := hpos (2 ^ (k + 1) + q) (by omega)
          have e : lo + 2 ^ (k + 1) + q = lo + (2 ^ (k + 1) + q) := by
            omega
          rw [e]
          exact h
        have hwrR : ∀ q, q < hi - (lo + 2 ^ (k + 1)) →
            n - 1 ≤ leafLocal (2 * root + 2) (hi - (lo + 2 ^ (k + 1))) q ∧
            leafLocal (2 * root + 2) (hi - (lo + 2 ^ (k + 1))) q
              ≤ 2 * n - 2 := by
          intro q hq
          have heq : hi - (lo + 2 ^ (k + 1)) = hi - lo - 2 ^ (k + 1) := by
            omega
          rw [heq] at hq ⊢
          rw [leafLocal_A_right root k (hi - lo) q hF hmlt hmgt hAle hq]
          exact hwr (2 ^ (k + 1) + q) (by omega)
        obtain ⟨hlen2, hframe2, htourn2⟩ :=
          ih (lo + 2 ^ (k + 1)) hi (2 * root + 2) bl.2 (by omega)
            (by omega) (by omega) hposR hwrR
        set br := buildComplete cmpW f (lo + 2 ^ (k + 1)) hi
          (2 * root + 2) bl.2 with hbr
        have htourn1' : Tourn cmpW n br.2 (2 * root + 1) lo
            (lo + 2 ^ (k + 1)) bl.1 := by
          refine tourn_lt_congr htourn1 ?_ hlen2
          intro t ht
          exact hframe2 t (fun hd => desc_sibling ht hd)
        have hrlt : root < br.2.length := by omega
        have hcommit := commitWinner_spec hs htourn1' htourn2 hrlt
        rw [hstep]
        refine ⟨?_, ?_, ?_⟩
        · rw [hcommit.1, hlen2, hlen1]
        · intro t ht
          rw [hcommit.2.1 t ht,
            hframe2 t (fun hd => ht (desc_of_right hd))]
          exact hframe1 t (fun hd => ht (desc_of_left hd))
        · exact hcommit.2.2
      · have hB : 2 * (hi - lo - 2 ^ (k + 1)) < 2 ^ (k + 1) := by
          rw [hnf2] at hA
          omega
        have hstep : buildComplete cmpW (f + 1) lo hi root lt
            = commitWinner cmpW
                (buildComplete cmpW f lo (lo + (hi - lo - 2 ^ k))
                  (2 * root + 1) lt).1
                (buildPerfect cmpW f (lo + (hi - lo - 2 ^ k)) hi
                  (2 * root + 2)
                  (buildComplete cmpW f lo (lo + (hi - lo - 2 ^ k))
                    (2 * root + 1) lt).2).1
                root
                (buildPerfect cmpW f (lo + (hi - lo - 2 ^ k)) hi
                  (2 * root + 2)
                  (buildComplete cmpW f lo (lo + (hi - lo - 2 ^ k))
                    (2 * root + 1) lt).2).2 := by
          conv_lhs => simp only [buildComplete]
          rw [if_neg hpow, hnf4, hnf2, if_neg (by omega)]
        have hposL : ∀ q, q < lo + (hi - lo - 2 ^ k) - lo →
            leafLocal (2 * root + 1) (lo + (hi - lo - 2 ^ k) - lo) q
              = leafForWinner (lo + q) n := by
          intro q hq
          have heq : lo + (hi - lo - 2 ^ k) - lo = hi - lo - 2 ^ k := by
            omega
          rw [heq] at hq ⊢
          rw [leafLocal_B_left root k (hi - lo) q hF hmlt hmgt hB hq]
          exact hpos q (by omega)
        have hwrL : ∀ q, q < lo + (hi - lo - 2 ^ k) - lo →
            n - 1 ≤ leafLocal (2 * root + 1)
              (lo + (hi - lo - 2 ^ k) - lo) q ∧
            leafLocal (2 * root + 1) (lo + (hi - lo - 2 ^ k) - lo) q
              ≤ 2 * n - 2 := by
          intro q hq
          have heq : lo + (hi - lo - 2 ^ k) - lo = hi - lo - 2 ^ k := by
            omega
          rw [heq] at hq ⊢
          rw [leafLocal_B_left root k (hi - lo) q hF hmlt hmgt hB hq]
          exact hwr q (by omega)
        obtain ⟨hlen1, hframe1, htourn1⟩ :=
          ih lo (lo + (hi - lo - 2 ^ k)) (2 * root + 1) lt (by omega)
            (by omega) hlen hposL hwrL
        set bl := buildComplete cmpW f lo (lo + (hi - lo - 2 ^ k))
          (2 * root + 1) lt with hbl
        have hposR : ∀ q, q < 2 ^ k →
            leafLocal (2 * root + 2) (2 ^ k) q
              = leafForWinner (lo + (hi - lo - 2 ^ k) + q) n := by
          intro q hq
          rw [leafLocal_B_right root k (hi - lo) q hF hmlt hmgt hB hq]
          have h := hpos (hi - lo - 2 ^ k + q) (by omega)
          have e : lo + (hi - lo - 2 ^ k) + q
              = lo + (hi - lo - 2 ^ k + q) := by omega
          rw [e]
          exact h
        have hwrR : ∀ q, q < 2 ^ k →
            n - 1 ≤ leafLocal (2 * root + 2) (2 ^ k) q ∧
            leafLocal (2 * root + 2) (2 ^ k) q ≤ 2 * n - 2 := by
          intro q hq
          rw [leafLocal_B_right root k (hi - lo) q hF hmlt hmgt hB hq]
          exact hwr (hi - lo - 2 ^ k + q) (by omega)
        obtain ⟨hlen2, hframe2, htourn2⟩ :=
          buildPerfect_spec hs n hn k f (lo + (hi - lo - 2 ^ k))
            (2 * root + 2) bl.2 (by omega) (by omega) hposR hwrR
        have he2 : lo + (hi - lo - 2 ^ k) + 2 ^ k = hi := by omega
        rw [he2] at hlen2 hframe2 htourn2
        set br := buildPerfect cmpW f (lo + (hi - lo - 2 ^ k)) hi
          (2 * root + 2) bl.2 with hbr
        have htourn1' : Tourn cmpW n br.2 (2 * root + 1) lo
            (lo + (hi - lo - 2 ^ k)) bl.1 := by
          refine tourn_lt_congr htourn1 ?_ hlen2
          intro t ht
          exact hframe2 t (fun hd => desc_sibling ht hd)
        have hrlt : root < br.2.length := by omega
        have hcommit := commitWinner_spec hs htourn1' htourn2 hrlt
        rw [hstep]
        refine ⟨?_, ?_, ?_⟩
        · rw [hcommit.1, hlen2, hlen1]
        · intro t ht
          rw [hcommit.2.1 t ht,
            hframe2 t (fun hd => ht (desc_of_right hd))]
          exact hframe1 t (fun hd => ht (desc_of_left hd))
        · exact hcommit.2.2

theorem buildTree_spec {cmpW : Nat → Nat → Ordering} (hs : SWOrd cmpW)
    (n : Nat) (hn : 2 ≤ n) (lt : List Nat) :
    n - 1 ≤ (buildTree cmpW n lt).2.length ∧
    Tourn cmpW n (buildTree cmpW n lt).2 0 0 n (buildTree cmpW n lt).1 := by
  unfold buildTree
  set lt0 := if lt.length < n - 1 then List.replicate (n - 1) 0 else lt
    with hlt0
  have hlen0 : n - 1 ≤ lt0.length := by
    rw [hlt0]
    split_ifs with h
    · simp
    · omega
  have hpos : ∀ q, q < n - 0 →
      leafLocal 0 (n - 0) q = leafForWinner (0 + q) n := by
    intro q hq
    rw [Nat.sub_zero] at hq ⊢
    rw [Nat.zero_add]
    exact leafLocal_zero n q (by omega) hq
  have hwr : ∀ q, q < n - 0 →
      n - 1 ≤ leafLocal 0 (n - 0) q ∧
      leafLocal 0 (n - 0) q ≤ 2 * n - 2 := by
    intro q hq
    rw [Nat.sub_zero] at hq ⊢
    exact leafLocal_zero_range n q hn hq
  obtain ⟨h1, h2, h3⟩ := buildComplete_spec hs n hn (n + 1) 0 n 0 lt0
    (by omega) (by omega) hlen0 hpos hwr
  exact ⟨by omega, h3⟩

theorem compareWinners_swOrd {α : Type _} {cmp : α → α → Ordering}
    (hs : SWOrd cmp) (tapes : List (List α)) :
    SWOrd (compareWinners cmp tapes) := by
  constructor
  · intro a b
    unfold compareWinners
    cases ha : (gGet [] tapes a).head? <;>
      cases hb : (gGet [] tapes b).head?
    · rfl
    · rfl
    · rfl
    · exact hs.swap_eq _ _
  · intro a b c hab hbc
    unfold compareWinners at hab hbc ⊢
    cases ha : (gGet [] tapes a).head? <;>
      cases hb : (gGet [] tapes b).head? <;>
      cases hc : (gGet [] tapes c).head? <;>
      rw [ha, hb] at hab <;> rw [hb, hc] at hbc <;>
      dsimp only at hab hbc ⊢ <;>
      first
        | exact hs.le_trans _ _ _ hab hbc
        | exact absurd rfl hab
        | exact absurd rfl hbc
        | exact hab
        | exact hbc

theorem flatten_filter_nonempty {α : Type _} :
    ∀ l : List (List α),
      (l.filter (fun t => !t.isEmpty)).flatten = l.flatten := by
  intro l
  induction l with
  | nil => rfl
  | cons t rest ih =>
    cases t with
    | nil => simpa using ih
    | cons x tl => simpa using ih

theorem leafForWinner_range (n q : Nat) (hn : 2 ≤ n) (hq : q < n) :
    n - 1 ≤ leafForWinner q n ∧ leafForWinner q n ≤ 2 * n - 2 := by
  rw [← leafLocal_zero n q (by omega) hq]
  exact leafLocal_zero_range n q hn hq

theorem tourn_winner_nonempty {α : Type _} {cmp : α → α → Ordering}
    (hs : SWOrd cmp) {tapes : List (List α)} {lt : List Nat} {w : Nat}
    (ht : Tourn (compareWinners cmp tapes) tapes.length lt 0 0
      tapes.length w)
    {j : Nat} (hj : j < tapes.length) (hne : gGet [] tapes j ≠ []) :
    gGet [] tapes w ≠ [] := by
  have hdom := tourn_dominates (compareWinners_swOrd hs tapes) ht j
    (by omega) hj
  intro hw
  unfold compareWinners at hdom
  rw [hw] at hdom
  cases hjh : (gGet [] tapes j).head? with
  | none => exact hne (List.head?_eq_none_iff.mp hjh)
  | some x =>
    rw [hjh] at hdom
    simp at hdom

theorem tourn_head_min {α : Type _} {cmp : α → α → Ordering}
    (hs : SWOrd cmp) {tapes : List (List α)} {lt : List Nat} {w : Nat}
    (ht : Tourn (compareWinners cmp tapes) tapes.length lt 0 0
      tapes.length w)
    (hsorted : ∀ e ∈ tapes,
      List.Chain' (fun a b => cmp a b ≠ Ordering.gt) e)
    {v : α} {tl : List α} (hv : gGet [] tapes w = v :: tl) :
    ∀ y ∈ tapes.flatten, cmp v y ≠ Ordering.gt := by
  intro y hy
  obtain ⟨e, he, hye⟩ := List.mem_flatten.mp hy
  obtain ⟨i, hi, hie⟩ := List.mem_iff_getElem.mp he
  have hgi : gGet [] tapes i = e := by
    unfold gGet
    rw [List.getElem?_eq_getElem hi, hie]
    rfl
  have hdom := tourn_dominates (compareWinners_swOrd hs tapes) ht i
    (by omega) hi
  unfold compareWinners at hdom
  rw [hv, hgi] at hdom
  cases e with
  | nil => simp at hye
  | cons x etl =>
    simp only [List.head?_cons] at hdom
    have hchain := hsorted (x :: etl) he
    exact hs.le_trans v x y hdom (chain_head_ne_gt hs etl x hchain y hye)

theorem flatten_set_perm {α : Type _} (tapes : List (List α)) (w : Nat)
    (v : α) (tl : List α) (hw : w < tapes.length)
    (hg : gGet [] tapes w = v :: tl) :
    List.Perm (v :: (tapes.set w tl).flatten) tapes.flatten := by
  have hp := set_perm_cons ([] : List α) tapes w tl hw
  have hpf := hp.flatten
  rw [hg] at hpf
  simp only [List.flatten_cons, List.cons_append] at hpf
  have h2 : List.Perm (tl ++ (v :: (tapes.set w tl).flatten))
      (v :: (tl ++ (tapes.set w tl).flatten)) := List.perm_middle
  have h3 := h2.trans hpf
  exact (List.perm_append_left_iff tl).mp h3

/-- Loser-tree state invariant: with more than one live tape, the
loser array is long enough and encodes a valid tournament whose
champion is the stored winner. -/
def LTWF {α : Type _} (cmp : α → α → Ordering) (st : LoserTree α) :
    Prop :=
  1 < st.tapes.length →
    st.tapes.length - 1 ≤ st.loserIndices.length ∧
    Tourn (compareWinners cmp st.tapes) st.tapes.length st.loserIndices
      0 0 st.tapes.length st.winner

theorem rebuildTree_wf {α : Type _} {cmp : α → α → Ordering}
    (hs : SWOrd cmp) (st : LoserTree α) :
    LTWF cmp (rebuildTree cmp st) ∧
    (rebuildTree cmp st).tapes
      = st.tapes.filter (fun t => !t.isEmpty) := by
  unfold rebuildTree LTWF
  by_cases h : 1 < (st.tapes.filter (fun t => !t.isEmpty)).length
  · rw [if_pos h]
    dsimp only
    refine ⟨fun _ => ?_, rfl⟩
    obtain ⟨h1, h2⟩ := buildTree_spec
      (compareWinners_swOrd hs (st.tapes.filter (fun t => !t.isEmpty)))
      (st.tapes.filter (fun t => !t.isEmpty)).length (by omega)
      st.loserIndices
    exact ⟨h1, h2⟩
  · rw [if_neg h]
    dsimp only
    exact ⟨fun hc => absurd hc h, rfl⟩

theorem ltNew_wf {α : Type _} {cmp : α → α → Ordering} (hs : SWOrd cmp)
    (tapes : List (List α)) :
    LTWF cmp (ltNew cmp tapes) ∧
    (ltNew cmp tapes).tapes = tapes.filter (fun t => !t.isEmpty) :=
  rebuildTree_wf hs _

theorem replayMatches_wf {α : Type _} {cmp : α → α → Ordering}
    (hs : SWOrd cmp) (stOld stNew : LoserTree α) (tl : List α)
    (htapes : stNew.tapes = stOld.tapes.set stOld.winner tl)
    (hlis : stNew.loserIndices = stOld.loserIndices)
    (hlen : 1 < stOld.tapes.length)
    (hlw : stOld.winner < stOld.tapes.length)
    (htourn : Tourn (compareWinners cmp stOld.tapes) stOld.tapes.length
      stOld.loserIndices 0 0 stOld.tapes.length stOld.winner) :
    (replayMatches cmp stNew stOld.winner).2.length
      = stOld.loserIndices.length ∧
    Tourn (compareWinners cmp stNew.tapes) stOld.tapes.length
      (replayMatches cmp stNew stOld.winner).2 0 0 stOld.tapes.length
      (replayMatches cmp stNew stOld.winner).1 := by
  have hag : ∀ x y, x ≠ stOld.winner → y ≠ stOld.winner →
      compareWinners cmp stNew.tapes x y
        = compareWinners cmp stOld.tapes x y := by
    intro x y hx hy
    unfold compareWinners
    rw [htapes]
    rw [gGet_set_ne [] stOld.tapes stOld.winner x tl (Ne.symm hx)]
    rw [gGet_set_ne [] stOld.tapes stOld.winner y tl (Ne.symm hy)]
  obtain ⟨L, hchain, htourn2, hlen2, hframe2⟩ :=
    tourn_replay (compareWinners_swOrd hs stNew.tapes) hag htourn rfl
  have hLW : leafForWinner stOld.winner stOld.tapes.length ≠ 0 := by
    have := leafForWinner_range stOld.tapes.length stOld.winner
      (by omega) hlw
    omega
  have hLlen : L.length
      ≤ (leafForWinner stOld.winner stOld.tapes.length - 1) / 2 + 1 := by
    cases L with
    | nil =>
      simp
    | cons t L' =>
      obtain ⟨_, ht, hc⟩ := hchain
      have h1 := chainTo_length L' t 0 hc
      have h2 : t = (leafForWinner stOld.winner stOld.tapes.length - 1) / 2 :=
        ht
      simp only [List.length_cons]
      omega
  have hLfold : replayMatches cmp stNew stOld.winner
      = replayFold (compareWinners cmp stNew.tapes) stOld.winner L
          stOld.loserIndices := by
    unfold replayMatches
    have e1 : stNew.tapes.length = stOld.tapes.length := by
      rw [htapes]
      simp
    rw [hlis, e1]
    exact replayGo_eq_fold (compareWinners cmp stNew.tapes) L
      (leafForWinner stOld.winner stOld.tapes.length) stOld.winner
      stOld.loserIndices
      ((leafForWinner stOld.winner stOld.tapes.length - 1) / 2 + 1)
      hchain hLW hLlen
  rw [hLfold]
  exact ⟨hlen2, htourn2⟩

theorem gGet_mem {β : Type _} (dflt : β) (l : List β) (i : Nat)
    (h : i < l.length) : gGet dflt l i ∈ l := by
  unfold gGet
  rw [List.getElem?_eq_getElem h]
  simp only [Option.getD_some]
  exact List.getElem_mem h

theorem ltNext_none {α : Type _} {cmp : α → α → Ordering} (hs : SWOrd cmp)
    (st : LoserTree α) (hwf : LTWF cmp st)
    (h : ltNext cmp st = none) : st.tapes.flatten = [] := by
  unfold ltNext at h
  by_cases hlen : st.tapes.length ≤ 1
  · rw [if_pos hlen] at h
    cases htapes : st.tapes with
    | nil => rfl
    | cons t rest =>
      have hrest : rest = [] := by
        rw [htapes] at hlen
        simp only [List.length_cons] at hlen
        cases rest with
        | nil => rfl
        | cons u us => simp at hlen
      subst hrest
      rw [htapes] at h
      cases t with
      | nil => rfl
      | cons v tl => simp at h
  · rw [if_neg hlen] at h
    push_neg at hlen
    obtain ⟨hltlen, htourn⟩ := hwf hlen
    cases hg : gGet [] st.tapes st.winner with
    | nil =>
      by_contra hne
      have hex : ∃ e ∈ st.tapes, e ≠ [] := by
        by_contra hall
        push_neg at hall
        exact hne (List.flatten_eq_nil_iff.mpr hall)
      obtain ⟨e, he, hene⟩ := hex
      obtain ⟨i, hi, hie⟩ := List.mem_iff_getElem.mp he
      have hgi : gGet [] st.tapes i = e := by
        unfold gGet
        rw [List.getElem?_eq_getElem hi, hie]
        rfl
      exact tourn_winner_nonempty hs htourn hi
        (by rw [hgi]; exact hene) hg
    | cons v tl =>
      rw [hg] at h
      dsimp only at h
      split_ifs at h

theorem ltNext_some {α : Type _} {cmp : α → α → Ordering} (hs : SWOrd cmp)
    (st : LoserTree α)
    (hwf : LTWF cmp st)
    (hsorted : ∀ e ∈ st.tapes,
      List.Chain' (fun a b => cmp a b ≠ Ordering.gt) e)
    (v : α) (st2 : LoserTree α)
    (h : ltNext cmp st = some (v, st2)) :
    LTWF cmp st2 ∧
    (∀ e ∈ st2.tapes,
      List.Chain' (fun a b => cmp a b ≠ Ordering.gt) e) ∧
    List.Perm (v :: st2.tapes.flatten) st.tapes.flatten ∧
    (∀ y ∈ st2.tapes.flatten, cmp v y ≠ Ordering.gt) := by
  unfold ltNext at h
  by_cases hlen : st.tapes.length ≤ 1
  · rw [if_pos hlen] at h
    cases htapes : st.tapes with
    | nil =>
      rw [htapes] at h
      simp at h
    | cons t rest =>
      have hrest : rest = [] := by
        rw [htapes] at hlen
        simp only [List.length_cons] at hlen
        cases rest with
        | nil => rfl
        | cons u us => simp at hlen
      subst hrest
      rw [htapes] at h
      cases t with
      | nil => simp at h
      | cons v0 tl =>
        dsimp only at h
        simp only [Option.some.injEq, Prod.mk.injEq] at h
        obtain ⟨hv0, hst2⟩ := h
        subst hv0
        subst hst2
        have hmem : (v0 :: tl) ∈ st.tapes := by
          rw [htapes]
          exact List.mem_cons_self _ _
        have hchain := hsorted (v0 :: tl) hmem
        refine ⟨?_, ?_, ?_, ?_⟩
        · intro hc
          simp at hc
        · intro e he
          simp only at he
          rcases List.mem_cons.mp he with h1 | h1
          · rw [h1]
            exact List.Chain'.tail hchain
          · simp at h1
        · simp
        · intro y hy
          simp only [List.flatten_cons, List.flatten_nil,
            List.append_nil] at hy
          exact chain_head_ne_gt hs tl v0 hchain y
            (List.mem_cons_of_mem _ hy)
  · rw [if_neg hlen] at h
    push_neg at hlen
    obtain ⟨hltlen, htourn⟩ := hwf hlen
    have hwlt : st.winner < st.tapes.length := (tourn_range htourn).2.1
    cases hg : gGet [] st.tapes st.winner with
    | nil =>
      rw [hg] at h
      simp at h
    | cons v0 tl =>
      rw [hg] at h
      dsimp only at h
      have hmem0 : (v0 :: tl) ∈ st.tapes := hg ▸ gGet_mem [] st.tapes
        st.winner hwlt
      have hperm0 : List.Perm (v0 :: (st.tapes.set st.winner tl).flatten)
          st.tapes.flatten :=
        flatten_set_perm st.tapes st.winner v0 tl hwlt hg
      have hmin0 : ∀ y ∈ st.tapes.flatten, cmp v0 y ≠ Ordering.gt :=
        tourn_head_min hs htourn hsorted hg
      have hsorted2 : ∀ e ∈ st.tapes.set st.winner tl,
          List.Chain' (fun a b => cmp a b ≠ Ordering.gt) e := by
        intro e he
        have hp := set_perm_cons ([] : List α) st.tapes st.winner tl hwlt
        have hmem : e ∈ tl :: st.tapes :=
          hp.mem_iff.mp (List.mem_cons_of_mem _ he)
        rcases List.mem_cons.mp hmem with h1 | h1
        · rw [h1]
          exact List.Chain'.tail (hsorted (v0 :: tl) hmem0)
        · exact hsorted e h1
      have hlenset : (st.tapes.set st.winner tl).length
          = st.tapes.length := by simp
      by_cases hemp : tl.isEmpty = true
      · rw [if_pos hemp] at h
        simp only [Option.some.injEq, Prod.mk.injEq] at h
        obtain ⟨hv0, hst2⟩ := h
        subst hv0
        unfold removeWinner at hst2
        by_cases hth : ({ st with tapes := st.tapes.set st.winner tl }
            : LoserTree α).remainingTapes - 1
            ≤ previousPowerOfTwo
              (({ st with tapes := st.tapes.set st.winner tl }
                : LoserTree α).tapes.length - 1)
        · rw [if_pos hth] at hst2
          subst hst2
          obtain ⟨hwf2, htapes2⟩ := rebuildTree_wf hs
            { { st with tapes := st.tapes.set st.winner tl } with
              remainingTapes :=
                ({ st with tapes := st.tapes.set st.winner tl }
                  : LoserTree α).remainingTapes - 1 }
          refine ⟨hwf2, ?_, ?_, ?_⟩
          · intro e he
            rw [htapes2] at he
            exact hsorted2 e (List.mem_filter.mp he).1
          · rw [htapes2]
            show List.Perm (v0 :: ((st.tapes.set st.winner
              tl).filter (fun t => !t.isEmpty)).flatten) _
            rw [flatten_filter_nonempty]
            exact hperm0
          · intro y hy
            rw [htapes2] at hy
            have hy2 : y ∈ (st.tapes.set st.winner tl).flatten := by
              rw [← flatten_filter_nonempty (st.tapes.set st.winner tl)]
              exact hy
            exact hmin0 y (hperm0.mem_iff.mp (List.mem_cons_of_mem _ hy2))
        · rw [if_neg hth] at hst2
          subst hst2
          obtain ⟨hRMlen, hRMtourn⟩ := replayMatches_wf hs st
            { st with tapes := st.tapes.set st.winner tl } tl rfl rfl
            hlen hwlt htourn
          refine ⟨?_, ?_, ?_, ?_⟩
          · intro hc
            refine ⟨?_, ?_⟩
            · show (replayMatches cmp _ _).2.length ≥ _
              rw [hRMlen]
              simp only [hlenset]
              omega
            · show Tourn _ (st.tapes.set st.winner tl).length
                (replayMatches cmp _ _).2 0 0
                (st.tapes.set st.winner tl).length
                (replayMatches cmp _ _).1
              rw [hlenset]
              exact hRMtourn
          · intro e he
            exact hsorted2 e he
          · exact hperm0
          · intro y hy
            exact hmin0 y (hperm0.mem_iff.mp (List.mem_cons_of_mem _ hy))
      · rw [if_neg hemp] at h
        simp only [Option.some.injEq, Prod.mk.injEq] at h
        obtain ⟨hv0, hst2⟩ := h
        subst hv0
        subst hst2
        obtain ⟨hRMlen, hRMtourn⟩ := replayMatches_wf hs st
          { st with tapes := st.tapes.set st.winner tl } tl rfl rfl
          hlen hwlt htourn
        refine ⟨?_, ?_, ?_, ?_⟩
        · intro hc
          refine ⟨?_, ?_⟩
          · show (replayMatches cmp _ _).2.length ≥ _
            rw [hRMlen]
            simp only [hlenset]
            omega
          · show Tourn _ (st.tapes.set st.winner tl).length
              (replayMatches cmp _ _).2 0 0
              (st.tapes.set st.winner tl).length
              (replayMatches cmp _ _).1
            rw [hlenset]
            exact hRMtourn
        · intro e he
          exact hsorted2 e he
        · exact hperm0
        · intro y hy
          exact hmin0 y (hperm0.mem_iff.mp (List.mem_cons_of_mem _ hy))

theorem ltSeqGo_perm {α : Type _} {cmp : α → α → Ordering}
    (hs : SWOrd cmp) :
    ∀ fuel (st : LoserTree α), LTWF cmp st →
      (∀ e ∈ st.tapes,
        List.Chain' (fun a b => cmp a b ≠ Ordering.gt) e) →
      heapSize st.tapes < fuel →
      List.Perm (ltSeqGo cmp fuel st) st.tapes.flatten := by
  intro fuel
  induction fuel with
  | zero =>
    intro st _ _ h
    omega
  | succ fuel ih =>
    intro st hwf hsorted hfuel
    unfold ltSeqGo
    cases hnext : ltNext cmp st with
    | none =>
      rw [ltNext_none hs st hwf hnext]
    | some pr =>
      obtain ⟨v, st2⟩ := pr
      dsimp only
      obtain ⟨hwf2, hsorted2, hperm, hmin⟩ :=
        ltNext_some hs st hwf hsorted v st2 hnext
      have hsize : heapSize st2.tapes + 1 = heapSize st.tapes := by
        rw [heapSize_flatten, heapSize_flatten]
        have hle := hperm.length_eq
        simp only [List.length_cons] at hle
        omega
      have ihp := ih st2 hwf2 hsorted2 (by omega)
      exact (ihp.cons v).trans hperm

theorem ltSeqGo_sorted {α : Type _} {cmp : α → α → Ordering}
    (hs : SWOrd cmp) :
    ∀ fuel (st : LoserTree α), LTWF cmp st →
      (∀ e ∈ st.tapes,
        List.Chain' (fun a b => cmp a b ≠ Ordering.gt) e) →
      List.Chain' (fun a b => cmp a b ≠ Ordering.gt)
        (ltSeqGo cmp fuel st) := by
  intro fuel
  induction fuel with
  | zero =>
    intro st _ _
    exact List.chain'_nil
  | succ fuel ih =>
    intro st hwf hsorted
    unfold ltSeqGo
    cases hnext : ltNext cmp st with
    | none => exact List.chain'_nil
    | some pr =>
      obtain ⟨v, st2⟩ := pr
      dsimp only
      obtain ⟨hwf2, hsorted2, hperm, hmin⟩ :=
        ltNext_some hs st hwf hsorted v st2 hnext
      rw [List.chain'_cons']
      refine ⟨?_, ih st2 hwf2 hsorted2⟩
      intro y hy
      cases fuel with
      | zero => simp [ltSeqGo] at hy
      | succ fuel =>
        unfold ltSeqGo at hy
        cases hnext2 : ltNext cmp st2 with
        | none =>
          rw [hnext2] at hy
          simp at hy
        | some pr2 =>
          obtain ⟨v2, st3⟩ := pr2
          rw [hnext2] at hy
          dsimp only at hy
          simp only [List.head?_cons, Option.mem_def,
            Option.some.injEq] at hy
          obtain ⟨_, _, hperm2, _⟩ :=
            ltNext_some hs st2 hwf2 hsorted2 v2 st3 hnext2
          have hv2 : v2 ∈ st2.tapes.flatten :=
            hperm2.mem_iff.mp (by simp)
          rw [← hy]
          exact hmin v2 hv2

/-- Full functional correctness of the loser-tree merger: over sorted
tapes and a strict-weak-order comparator, its output sequence is a
non-decreasing permutation of the tapes' contents. -/
theorem loserTreeSeq_correct {α : Type _} {cmp : α → α → Ordering}
    (hs : SWOrd cmp) (tapes : List (List α))
    (hsorted : ∀ e ∈ tapes,
      List.Chain' (fun a b => cmp a b ≠ Ordering.gt) e) :
    List.Chain' (fun a b => cmp a b ≠ Ordering.gt)
      (loserTreeSeq cmp tapes) ∧
    List.Perm (loserTreeSeq cmp tapes) tapes.flatten := by
  obtain ⟨hwf, htapes⟩ := ltNew_wf hs tapes
  have hsorted2 : ∀ e ∈ (ltNew cmp tapes).tapes,
      List.Chain' (fun a b => cmp a b ≠ Ordering.gt) e := by
    rw [htapes]
    intro e he
    exact hsorted e (List.mem_filter.mp he).1
  have hflat : (ltNew cmp tapes).tapes.flatten = tapes.flatten := by
    rw [htapes, flatten_filter_nonempty]
  unfold loserTreeSeq
  constructor
  · exact ltSeqGo_sorted hs _ _ hwf hsorted2
  · have hfuel : heapSize (ltNew cmp tapes).tapes
        < heapSize tapes + 1 := by
      rw [heapSize_flatten, hflat, ← heapSize_flatten]
      omega
    have hp := ltSeqGo_perm hs (heapSize tapes + 1) _ hwf hsorted2 hfuel
    rw [hflat] at hp
    exact hp

/-- C10 (amended): the result iterator the driver returns is the
binary-heap merger over the runs, not the loser tree; over sorted runs
both mergers yield a non-decreasing permutation of the runs' contents
(the loser tree's half proved from its builder and replay invariants),
so under an antisymmetric comparator (no ties) the two sequences are
equal, while with ties they may order tied elements differently. -/
theorem heap_loserTree_refinement {α : Type _} {cmp : α → α → Ordering}
    (hs : SWOrd cmp) (hanti : ∀ a b, cmp a b = Ordering.eq → a = b)
    (runs : List (List α))
    (hruns : ∀ e ∈ runs,
      List.Chain' (fun a b => cmp a b ≠ Ordering.gt) e) :
    riSeq cmp (heapify cmp runs) = loserTreeSeq cmp runs := by
  obtain ⟨hLTsort, hLTperm⟩ := loserTreeSeq_correct hs runs hruns
  haveI htr : IsTrans α (fun a b => cmp a b ≠ Ordering.gt) := ⟨hs.le_trans⟩
  haveI : IsAntisymm α (fun a b => cmp a b ≠ Ordering.gt) := by
    constructor
    intro a b hab hba
    rw [hs.swap_eq a b] at hba
    cases hc : cmp a b with
    | lt => rw [hc] at hba; exact absurd rfl hba
    | eq => exact hanti a b hc
    | gt => exact absurd hc hab
  have hes : EntriesSorted cmp (heapify cmp runs) := fun e he =>
    hruns e ((heapify_perm cmp runs).mem_iff.mp he)
  have hsort1 : List.Sorted (fun a b => cmp a b ≠ Ordering.gt)
      (riSeq cmp (heapify cmp runs)) :=
    List.chain'_iff_pairwise.mp (riSeq_sorted hs _ (heapify_isHeap hs _) hes)
  have hsort2 : List.Sorted (fun a b => cmp a b ≠ Ordering.gt)
      (loserTreeSeq cmp runs) :=
    List.chain'_iff_pairwise.mp hLTsort
  have hperm : List.Perm (riSeq cmp (heapify cmp runs))
      (loserTreeSeq cmp runs) :=
    ((riSeq_perm cmp _).trans ((heapify_perm cmp runs).flatten)).trans
      hLTperm.symm
  exact List.eq_of_perm_of_sorted hperm hsort1 hsort2

theorem heap_loserTree_refinement_witness :
    (∀ e ∈ [[1, 3], [2, 4]],
      List.Pairwise (fun a b => natOrd a b ≠ Ordering.gt) e) ∧
    riSeq natOrd (heapify natOrd [[1, 3], [2, 4]])
      = loserTreeSeq natOrd [[1, 3], [2, 4]] :=
  ⟨by decide,
    heap_loserTree_refinement natOrd_swOrd natOrd_antisymm [[1, 3], [2, 4]]
      (fun e he =>
        ((show ∀ e ∈ [[1, 3], [2, 4]],
            List.Pairwise (fun a b => natOrd a b ≠ Ordering.gt) e
          by decide) e he).chain')⟩

end Extsort
